import Mathlib

/-!
A shallow embedding of `raft/raft.go`.

The peer of `src/mit/src/raft/raft.go` is embedded as pure functions on an
explicit state record.

Modelling conventions.

* Go `int` is embedded as `Int`.  Where the source adds 1 to a value that may
  be the largest `int`, or subtracts 1 from a value that may be the smallest
  (the length test of `AppendEnties` on a `PrevLogIndex` taken from the
  request, the term increments of `resetCandidateState` and `becomeCandidate`,
  `nextIndex - 1` in `updateCommitIndex` and in the builder of an append
  request, on a `nextIndex` taken from a reply), the result is reduced into the
  64-bit range by `wrapInt`; the other sums stay within the length of a slice.
* A Go slice is a `List`; `s[i]` with `i` outside `0 .. len(s)-1` is a run-time
  failure, embedded as `Except.error Crash.indexOutOfRange`.  `log.Fatal`
  ends the process and is embedded as `Except.error Crash.fatal`; an explicit
  `panic(...)` of the source or of a library call is `Except.error Crash.panic`.
* `Command interface{}` is an uninterpreted payload compared with `==`; it is
  embedded as a natural number.
* An RPC handler writes into a reply struct supplied by the caller; the
  embedded handler takes that struct as an argument and returns it updated.
* Locks and goroutines are not part of the embedded state: each function
  describes the effect of one complete, uninterrupted run of its body.  The
  send `rf.heartbeatChan <- true` of `AppendEnties` is on a channel without
  buffer that only `follower()` and `candidate()` receive from; while the role
  is Leader the send has no receiver and the handler does not go on, which is
  embedded as `Except.error Crash.blocked`.
* `len(rf.peers)` is the only use made of `rf.peers`; the record keeps that
  length in the field `peers`.
-/

namespace MitRaft

/-! ## Data model -/

/-- The marker for "no peer": `const None int = -1`. -/
def None : Int := -1

/-- The payload of a log entry (`Command interface{}`). -/
abbrev Payload := Nat

/-- A log entry: `type Log struct { Term; Command; Index }`. -/
structure Log where
  Term : Int
  Command : Payload
  Index : Int
deriving DecidableEq

/-- The role of a peer: `type RaftState int`. -/
inductive RaftState where
  | StateFollower
  | StateCandidate
  | StateLeader
deriving DecidableEq

/-- The ways in which a run does not return: a run-time failure of an index
expression, `log.Fatal`, a `panic`, and a send on a channel that has no
receiver. -/
inductive Crash where
  | indexOutOfRange
  | fatal
  | panic
  | blocked
deriving DecidableEq

/-- The largest Go `int` on a 64-bit platform. -/
def MaxInt64 : Int := 9223372036854775807

/-- The smallest Go `int` on a 64-bit platform. -/
def MinInt64 : Int := -9223372036854775808

/-- The value of a 64-bit signed machine integer after wrap-around: the
representative of `x` modulo `2^64` in `MinInt64 .. MaxInt64`. -/
def wrapInt (x : Int) : Int :=
  (x + 9223372036854775808) % 18446744073709551616 - 9223372036854775808

/-- One value written by the `gob` encoder in `persist`. -/
inductive GobValue where
  | int (v : Int)
  | logs (v : List Log)
deriving DecidableEq

/-- Modelled from the spec: the persister is a collaborator that is not part of
the source file; it saves and loads one blob, here the sequence of encoded
values. -/
structure Persister where
  raftstate : List GobValue
deriving DecidableEq

/-- Modelled from the spec: `SaveRaftState` of the persister replaces the
saved blob. -/
def Persister.SaveRaftState (_p : Persister) (data : List GobValue) : Persister :=
  { raftstate := data }

/-- The state of a peer: `type Raft struct`, without locks, channels, timers
of type `time.Duration`, logger and function-valued fields. -/
structure Raft where
  peers : Nat
  persister : Persister
  me : Int
  currentTerm : Int
  votedFor : Int
  log : List Log
  commitIndex : Int
  lastApplied : Int
  nextIndex : List Int
  matchIndex : List Int
  state : RaftState
  electionElapsed : Int
  heartbeatElapsed : Int
  heartbeatTimeout : Int
  electionTimeout : Int
  randomizedElectionTimeout : Int
  votedCount : Int
  lead : Int
  votes : List (Int × Bool)
deriving DecidableEq

/-- The arguments of a vote request: `type RequestVoteArgs struct`. -/
structure RequestVoteArgs where
  Term : Int
  CandidateId : Int
  LastLogIndex : Int
  LastLogTerm : Int
deriving DecidableEq

/-- The reply to a vote request: `type RequestVoteReply struct`. -/
structure RequestVoteReply where
  Term : Int
  VoteGranted : Bool
deriving DecidableEq

/-- The arguments of an append request: `type AppendEntiesArgs struct`. -/
structure AppendEntiesArgs where
  Term : Int
  LeaderId : Int
  LeaderCommit : Int
  PrevLogIndex : Int
  PrevLogTerm : Int
  Entries : List Log
deriving DecidableEq

/-- The reply to an append request: `type AppendEntiesReply struct`. -/
structure AppendEntiesReply where
  Term : Int
  Success : Bool
  NextIndex : Int
deriving DecidableEq

/-! ## Slices -/

/-- Go indexing `s[i]`: fails outside `0 .. len(s)-1`. -/
def index {α : Type} (s : List α) (i : Int) : Except Crash α :=
  if 0 ≤ i then
    match s[i.toNat]? with
    | some x => .ok x
    | none => .error Crash.indexOutOfRange
  else .error Crash.indexOutOfRange

/-- Go assignment `s[i] = v`: fails outside `0 .. len(s)-1`. -/
def setIndex {α : Type} (s : List α) (i : Int) (v : α) : Except Crash (List α) :=
  if 0 ≤ i ∧ i < (s.length : Int) then .ok (s.set i.toNat v)
  else .error Crash.indexOutOfRange

/-- The function `min` of the source. -/
def min (x y : Int) : Int :=
  if x < y then x else y

/-! ## Persistence -/

/-- The blob written by `persist`: `currentTerm`, `log`, `votedFor`,
`commitIndex`, encoded in this order. -/
def encodeState (rf : Raft) : List GobValue :=
  [GobValue.int rf.currentTerm, GobValue.logs rf.log, GobValue.int rf.votedFor,
   GobValue.int rf.commitIndex]

/-- The method `persist`. -/
def persist (rf : Raft) : Raft :=
  { rf with persister := rf.persister.SaveRaftState (encodeState rf) }

/-! ## Vote handling -/

/-- The method `reqMoreUpToDate`. -/
def reqMoreUpToDate (rf : Raft) (args : RequestVoteArgs) : Except Crash Bool :=
  match index rf.log ((rf.log.length : Int) - 1) with
  | .error c => .error c
  | .ok lastLog =>
    let rlastTerm := args.LastLogTerm
    let rlastIndex := args.LastLogIndex
    if rlastTerm ≠ lastLog.Term then
      .ok (decide (rlastTerm ≥ lastLog.Term))
    else
      .ok (decide (rlastIndex ≥ lastLog.Index))

/-- The method `rpcRuleForAllServer`. -/
def rpcRuleForAllServer (rf : Raft) (term : Int) : Raft :=
  if term > rf.currentTerm then
    { rf with currentTerm := term, state := RaftState.StateFollower, votedFor := -1 }
  else rf

/-- The handler `RequestVote`.  The conjunction of the source is evaluated
left to right, so `reqMoreUpToDate` runs only when the `votedFor` test
succeeds. -/
def RequestVote (rf : Raft) (args : RequestVoteArgs) (reply : RequestVoteReply) :
    Except Crash (Raft × RequestVoteReply) :=
  let rf := rpcRuleForAllServer rf args.Term
  if args.Term < rf.currentTerm then
    .ok (rf, { reply with Term := rf.currentTerm, VoteGranted := false })
  else if rf.votedFor = -1 ∨ rf.votedFor = args.CandidateId then
    match reqMoreUpToDate rf args with
    | .error c => .error c
    | .ok true =>
      let rf := { rf with votedFor := args.CandidateId }
      .ok (rf, { reply with Term := rf.currentTerm, VoteGranted := true })
    | .ok false =>
      .ok (rf, { reply with Term := rf.currentTerm, VoteGranted := false })
  else
    .ok (rf, { reply with Term := rf.currentTerm, VoteGranted := false })

/-! ## Append handling -/

/-- The loop of `AppendEnties` over the incoming entries.  The first argument
pair is the loop variable `i` together with the slice `args.Entries[i:]` that
is still to be visited; the loop ends at the first `break`. -/
def appendLoop (log : List Log) (PrevLogIndex : Int) :
    Nat → List Log → Except Crash (List Log)
  | _, [] => .ok log
  | i, e :: rest =>
    if PrevLogIndex + 1 + (i : Int) < (log.length : Int) then
      match index log (PrevLogIndex + 1 + (i : Int)) with
      | .error c => .error c
      | .ok x =>
        if x ≠ e then
          .ok (log.take (PrevLogIndex + 1 + (i : Int)).toNat ++ (e :: rest))
        else appendLoop log PrevLogIndex (i + 1) rest
    else
      .ok (log ++ (e :: rest))

/-- The loop of `checkLog`, started at position `i` on the entries from `i`
on. -/
def checkLogFrom : Nat → List Log → Except Crash Unit
  | _, [] => .ok ()
  | i, e :: rest =>
    if (i : Int) ≠ e.Index then .error Crash.fatal
    else checkLogFrom (i + 1) rest

/-- The method `checkLog`: the process ends when some entry does not carry
its own position. -/
def checkLog (rf : Raft) : Except Crash Unit :=
  checkLogFrom 0 rf.log

/-- The refusal branch of `AppendEnties` after the consistency check. -/
def appendRefuse (rf : Raft) (args : AppendEntiesArgs) (reply : AppendEntiesReply) :
    Raft × AppendEntiesReply :=
  (rf, { reply with Term := rf.currentTerm, Success := false,
                    NextIndex := min (rf.commitIndex + 1) (args.PrevLogIndex - 1) })

/-- The accepting branch of `AppendEnties`: merge, commit update, `checkLog`,
`persist`, reply. -/
def appendAccept (rf : Raft) (args : AppendEntiesArgs) (reply : AppendEntiesReply) :
    Except Crash (Raft × AppendEntiesReply) :=
  match appendLoop rf.log args.PrevLogIndex 0 args.Entries with
  | .error c => .error c
  | .ok log1 =>
    let rf := { rf with log := log1 }
    let rf :=
      if args.LeaderCommit > rf.commitIndex then
        { rf with commitIndex := min args.LeaderCommit ((rf.log.length : Int) - 1) }
      else rf
    match checkLog rf with
    | .error c => .error c
    | .ok _ =>
      let rf := persist rf
      .ok (rf, { reply with Term := rf.currentTerm, Success := true,
                            NextIndex := (rf.log.length : Int) })

/-- The part of the handler `AppendEnties` that runs under the lock, after the
send on `heartbeatChan`: the universal term rule, the consistency check, and
the accepting or the refusing branch.  The sum `args.PrevLogIndex + 1` of the
length test is a machine integer.  The conjunction of the consistency check is
evaluated left to right. -/
def AppendEntiesBody (rf : Raft) (args : AppendEntiesArgs) (reply : AppendEntiesReply) :
    Except Crash (Raft × AppendEntiesReply) :=
  let rf := rpcRuleForAllServer rf args.Term
  if (rf.log.length : Int) ≥ wrapInt (args.PrevLogIndex + 1) then
    match index rf.log args.PrevLogIndex with
    | .error c => .error c
    | .ok p =>
      if p.Term = args.PrevLogTerm then appendAccept rf args reply
      else .ok (appendRefuse rf args reply)
  else .ok (appendRefuse rf args reply)

/-- The handler `AppendEnties`.  After the test for a stale term the handler
sends on `heartbeatChan`, which has no receiver while the role is Leader; on
another peer the role loop receives and the handler goes on under the lock. -/
def AppendEnties (rf : Raft) (args : AppendEntiesArgs) (reply : AppendEntiesReply) :
    Except Crash (Raft × AppendEntiesReply) :=
  if args.Term < rf.currentTerm then
    .ok (rf, { reply with Term := rf.currentTerm, Success := false })
  else if rf.state = RaftState.StateLeader then .error Crash.blocked
  else AppendEntiesBody rf args reply

/-! ## Reply handling and commit advancement -/

/-- The method `judgeCandidateResult`: the result tells whether `true` is sent
on `voteResultChan`. -/
def judgeCandidateResult (rf : Raft) : Bool :=
  decide (rf.state = RaftState.StateCandidate ∧ rf.votedCount > ((rf.peers / 2 : Nat) : Int))

/-- The method `sendRequestVote` after the transport call: `ok` and `reply`
are what the call produced.  The result is the new state and whether an
election victory was signalled on `voteResultChan`. -/
def sendRequestVote (rf : Raft) (_server : Int) (_args : RequestVoteArgs) (ok : Bool)
    (reply : RequestVoteReply) : Raft × Bool :=
  if ok then
    let rf := rpcRuleForAllServer rf reply.Term
    if reply.VoteGranted then
      let rf := { rf with votedCount := rf.votedCount + 1 }
      (rf, judgeCandidateResult rf)
    else (rf, false)
  else (rf, false)

/-- One iteration of the loop of `updateCommitIndex`; the accumulator is
`(newCommitIndex, count)`.  The difference `nextIndex - 1` is a machine
integer: `nextIndex` is what a reply has put there. -/
def updateCommitIndexStep (commitIndex : Int) (acc : Int × Int) (nextIndex : Int) :
    Int × Int :=
  if wrapInt (nextIndex - 1) > commitIndex then
    let count := acc.2 + 1
    if acc.1 = commitIndex ∨ acc.1 > wrapInt (nextIndex - 1) then
      (wrapInt (nextIndex - 1), count)
    else (acc.1, count)
  else acc

/-- The loop of `updateCommitIndex` over `rf.nextIndex`. -/
def updateCommitIndexLoop (rf : Raft) : Int × Int :=
  rf.nextIndex.foldl (updateCommitIndexStep rf.commitIndex) (rf.commitIndex, 0)

/-- The method `updateCommitIndex`.  The conjunction is evaluated left to
right, so the log is read only when the count and the role tests succeed. -/
def updateCommitIndex (rf : Raft) : Except Crash Raft :=
  let newCommitIndex := (updateCommitIndexLoop rf).1
  let count := (updateCommitIndexLoop rf).2
  if count > ((rf.peers / 2 : Nat) : Int) ∧ rf.state = RaftState.StateLeader then
    match index rf.log newCommitIndex with
    | .error c => .error c
    | .ok e =>
      if e.Term = rf.currentTerm then
        .ok (persist { rf with commitIndex := newCommitIndex })
      else .ok rf
  else .ok rf

/-- The method `resetStateAndConvertToFollower`. -/
def resetStateAndConvertToFollower (rf : Raft) (term : Int) : Raft :=
  { rf with currentTerm := term, state := RaftState.StateFollower, votedFor := -1 }

/-- The success branch of `sendAppendEnties`. -/
def sendAppendEntiesSuccess (rf : Raft) (server : Int) (reply : AppendEntiesReply) :
    Except Crash Raft :=
  match (if reply.NextIndex > 0 then setIndex rf.nextIndex server reply.NextIndex
         else .ok rf.nextIndex) with
  | .error c => .error c
  | .ok nextIndex1 =>
    let rf := { rf with nextIndex := nextIndex1 }
    match (index rf.nextIndex server : Except Crash Int) with
    | .error c => .error c
    | .ok n =>
      match (setIndex rf.matchIndex server (n - 1) : Except Crash (List Int)) with
      | .error c => .error c
      | .ok matchIndex1 =>
        let rf := { rf with matchIndex := matchIndex1 }
        if n < 1 then .error Crash.fatal
        else updateCommitIndex rf

/-- The method `sendAppendEnties` after the transport call: `ok` and `reply`
are what the call produced. -/
def sendAppendEnties (rf : Raft) (server : Int) (_args : AppendEntiesArgs) (ok : Bool)
    (reply : AppendEntiesReply) : Except Crash Raft :=
  if ok then
    if reply.Term > rf.currentTerm then
      .ok (resetStateAndConvertToFollower rf reply.Term)
    else if reply.Success then
      sendAppendEntiesSuccess rf server reply
    else
      match setIndex rf.nextIndex server reply.NextIndex with
      | .error c => .error c
      | .ok nextIndex1 =>
        let rf := { rf with nextIndex := nextIndex1 }
        if reply.NextIndex > (rf.log.length : Int) then .error Crash.fatal
        else .ok rf
  else .ok rf

/-! ## Client entry point and election start -/

/-- The method `Start`; the result carries `(index, term, isLeader)`. -/
def Start (rf : Raft) (command : Payload) : Except Crash (Raft × (Int × Int × Bool)) :=
  if rf.state ≠ RaftState.StateLeader then
    .ok (rf, (-1, -1, false))
  else
    let index : Int := (rf.log.length : Int)
    let term := rf.currentTerm
    let entry : Log := { Term := term, Command := command, Index := index }
    let rf := { rf with log := rf.log ++ [entry] }
    match setIndex rf.nextIndex rf.me (index + 1) with
    | .error c => .error c
    | .ok nextIndex1 =>
      let rf := { rf with nextIndex := nextIndex1 }
      match setIndex rf.matchIndex rf.me index with
      | .error c => .error c
      | .ok matchIndex1 =>
        let rf := { rf with matchIndex := matchIndex1 }
        .ok (rf, (index, term, true))

/-- The method `resetCandidateState`; `rf.currentTerm++` is a machine
increment. -/
def resetCandidateState (rf : Raft) : Raft :=
  { rf with currentTerm := wrapInt (rf.currentTerm + 1), votedFor := rf.me, votedCount := 1 }

/-! ## Sequences of requests -/

/-- A request that a peer handles: a vote request, an append request, and the
rest of an append request whose handler has waited at the send on
`heartbeatChan` and goes on once the role loop receives. -/
inductive Request where
  | vote (args : RequestVoteArgs)
  | append (args : AppendEntiesArgs)
  | resume (args : AppendEntiesArgs)
deriving DecidableEq

/-- The reply to a request. -/
inductive Response where
  | vote (reply : RequestVoteReply)
  | append (reply : AppendEntiesReply)
deriving DecidableEq

/-- The handler of one request, run on a fresh (zero-valued) reply struct as
the RPC layer supplies it. -/
def handleRequest (rf : Raft) : Request → Except Crash (Raft × Response)
  | .vote args =>
    match RequestVote rf args { Term := 0, VoteGranted := false } with
    | .error c => .error c
    | .ok (rf1, reply) => .ok (rf1, Response.vote reply)
  | .append args =>
    match AppendEnties rf args { Term := 0, Success := false, NextIndex := 0 } with
    | .error c => .error c
    | .ok (rf1, reply) => .ok (rf1, Response.append reply)
  | .resume args =>
    match AppendEntiesBody rf args { Term := 0, Success := false, NextIndex := 0 } with
    | .error c => .error c
    | .ok (rf1, reply) => .ok (rf1, Response.append reply)

/-- The votes granted while a peer handles a sequence of requests one after
the other: for every `RequestVote` that replied `VoteGranted = true`, the pair
of the peer's `currentTerm` at that reply and the candidate.  A handler that
waits at the send on `heartbeatChan` has not changed the state, and the peer
goes on with the next request; the rest of that handler is a request `resume`
later in the sequence.  Nothing is handled after the process has ended. -/
def grantedVotes : Raft → List Request → List (Int × Int)
  | _, [] => []
  | rf, req :: rest =>
    match handleRequest rf req with
    | .error Crash.blocked => grantedVotes rf rest
    | .error _ => []
    | .ok (rf1, resp) =>
      match req, resp with
      | .vote args, .vote reply =>
        if reply.VoteGranted then
          (rf1.currentTerm, args.CandidateId) :: grantedVotes rf1 rest
        else grantedVotes rf1 rest
      | _, _ => grantedVotes rf1 rest

/-! ## The apply pump -/

/-- A message to the host: `type ApplyMsg struct`. -/
structure ApplyMsg where
  Index : Int
  Command : Payload
  UseSnapshot : Bool
  Snapshot : List Nat
deriving DecidableEq

/-- The loop `for i := lastApplied + 1; i <= commitIndex; i++` of
`stateMachine`: `n` rounds from position `i` on, each sending one message.
The result lists the messages sent, in the order of sending. -/
def stateMachineLoop (log : List Log) : Int → Nat → Except Crash (List ApplyMsg)
  | _, 0 => .ok []
  | i, n + 1 =>
    match index log i with
    | .error c => .error c
    | .ok e =>
      match stateMachineLoop log (i + 1) n with
      | .error c => .error c
      | .ok rest =>
        .ok ({ Index := e.Index, Command := e.Command, UseSnapshot := false,
               Snapshot := [] } :: rest)

/-- One iteration of the endless loop of `stateMachine` (after its sleep):
the new state and the messages sent on `applyCh`. -/
def stateMachine (rf : Raft) : Except Crash (Raft × List ApplyMsg) :=
  if rf.commitIndex > rf.lastApplied then
    if (rf.log.length : Int) < rf.commitIndex + 1 then .error Crash.fatal
    else
      let commitIndex := rf.commitIndex
      let lastApplied := rf.lastApplied
      let rf := { rf with lastApplied := commitIndex }
      match stateMachineLoop rf.log (lastApplied + 1) (commitIndex - lastApplied).toNat with
      | .error c => .error c
      | .ok msgs => .ok (rf, msgs)
  else .ok (rf, [])

/-- What happens between and during iterations of `stateMachine`: an
iteration, or a change of the log and the commit index made by the rest of
the peer. -/
inductive PumpEvent where
  | iterate
  | advance (log : List Log) (commitIndex : Int)
deriving DecidableEq

/-- A run of the apply pump over a sequence of events; the result lists all
messages sent, in the order of sending. -/
def pump : Raft → List PumpEvent → Except Crash (Raft × List ApplyMsg)
  | rf, [] => .ok (rf, [])
  | rf, PumpEvent.iterate :: rest =>
    match stateMachine rf with
    | .error c => .error c
    | .ok (rf1, msgs) =>
      match pump rf1 rest with
      | .error c => .error c
      | .ok (rf2, more) => .ok (rf2, msgs ++ more)
  | rf, PumpEvent.advance log commitIndex :: rest =>
    pump { rf with log := log, commitIndex := commitIndex } rest

/-! ## Becoming leader -/

/-- The loop of `convertToLeaderAndInitState`: `n` rounds from peer `i` on. -/
def convertToLeaderAndInitStateLoop (maxIndex : Int) : Nat → Nat → Raft → Except Crash Raft
  | _, 0, rf => .ok rf
  | i, n + 1, rf =>
    match setIndex rf.nextIndex (i : Int) maxIndex with
    | .error c => .error c
    | .ok nextIndex1 =>
      match setIndex rf.matchIndex (i : Int) 0 with
      | .error c => .error c
      | .ok matchIndex1 =>
        convertToLeaderAndInitStateLoop maxIndex (i + 1) n
          { rf with nextIndex := nextIndex1, matchIndex := matchIndex1 }

/-- The method `convertToLeaderAndInitState`. -/
def convertToLeaderAndInitState (rf : Raft) : Except Crash Raft :=
  let rf := { rf with state := RaftState.StateLeader }
  let maxIndex : Int := (rf.log.length : Int)
  convertToLeaderAndInitStateLoop maxIndex 0 rf.peers rf

/-- The method `resetRandomizedElectionTimeout`; `draw` is the value that
`globalRand.Intn(rf.electionTimeout)` returns, and `Intn` panics when its
argument is not positive. -/
def resetRandomizedElectionTimeout (rf : Raft) (draw : Int) : Except Crash Raft :=
  if rf.electionTimeout ≤ 0 then .error Crash.panic
  else .ok { rf with randomizedElectionTimeout := rf.electionTimeout + draw }

/-- The method `reset`. -/
def reset (raft : Raft) (term : Int) (draw : Int) : Except Crash Raft :=
  let raft :=
    if raft.currentTerm ≠ term then { raft with currentTerm := term, votedFor := None }
    else raft
  let raft := { raft with lead := None, heartbeatElapsed := 0, electionElapsed := 0 }
  match resetRandomizedElectionTimeout raft draw with
  | .error c => .error c
  | .ok raft => .ok { raft with votes := [] }

/-- The method `becomeLeader` of the tick-based design. -/
def becomeLeader (r : Raft) (draw : Int) : Except Crash Raft :=
  if r.state = RaftState.StateFollower then .error Crash.panic
  else
    match reset r r.currentTerm draw with
    | .error c => .error c
    | .ok r => .ok { r with lead := r.me, state := RaftState.StateLeader }

/-! ## Building an append request -/

/-- The body of the goroutine that `broadcastAppendEntriesRPC` runs for peer
`i`, up to the arguments that it hands to `sendAppendEnties`. -/
def broadcastAppendEntriesArgs (rf : Raft) (i : Int) : Except Crash AppendEntiesArgs :=
  match (index rf.nextIndex i : Except Crash Int) with
  | .error c => .error c
  | .ok n =>
    let prevLogIndex := wrapInt (n - 1)
    if prevLogIndex < 0 ∨ wrapInt (prevLogIndex + 1) > (rf.log.length : Int) then
      .error Crash.fatal
    else
      match index rf.log prevLogIndex with
      | .error c => .error c
      | .ok p =>
        .ok { Term := rf.currentTerm, LeaderId := rf.me, LeaderCommit := rf.commitIndex,
              PrevLogIndex := prevLogIndex, PrevLogTerm := p.Term,
              Entries := rf.log.drop (prevLogIndex + 1).toNat }

/-! ## Restoring the saved state -/

/-- Modelled from the spec: `ReadRaftState` of the persister, a collaborator
that is not part of the source file, returns the blob that was saved last. -/
def Persister.ReadRaftState (p : Persister) : List GobValue :=
  p.raftstate

/-- One `d.Decode(&x)` into an `int` field: the next value of the blob is
consumed and, when it is an `int`, stored; otherwise (no value left, or a value
of another type) `Decode` reports an error, which `readPersist` ignores, and
the field keeps its value. -/
def decodeInt (old : Int) : List GobValue → Int × List GobValue
  | [] => (old, [])
  | GobValue.int v :: rest => (v, rest)
  | GobValue.logs _ :: rest => (old, rest)

/-- One `d.Decode(&rf.log)`, in the same way.  The decoded slice takes the
place of the old one.  This is what `gob` does when the destination is the log
of the peer that `Make` has just built, whose one entry is zero-valued: `gob`
decodes into the elements of an existing slice and leaves a field as it was
when the saved field has the zero value. -/
def decodeLogs (old : List Log) : List GobValue → List Log × List GobValue
  | [] => (old, [])
  | GobValue.logs v :: rest => (v, rest)
  | GobValue.int _ :: rest => (old, rest)

/-- The method `readPersist`: `currentTerm`, `log`, `votedFor`, `commitIndex`
are decoded in this order. -/
def readPersist (rf : Raft) (data : List GobValue) : Raft :=
  let r1 := decodeInt rf.currentTerm data
  let rf := { rf with currentTerm := r1.1 }
  let r2 := decodeLogs rf.log r1.2
  let rf := { rf with log := r2.1 }
  let r3 := decodeInt rf.votedFor r2.2
  let rf := { rf with votedFor := r3.1 }
  let r4 := decodeInt rf.commitIndex r3.2
  { rf with commitIndex := r4.1 }

/-- The state that `Make` has built when it calls `readPersist`: the fields it
assigns, and the zero value for every other field. -/
def newRaft (peers : Nat) (me : Int) (persister : Persister) : Raft :=
  { peers := peers, persister := persister, me := me, currentTerm := 0, votedFor := -1,
    log := [{ Term := 0, Command := 0, Index := 0 }], commitIndex := 0, lastApplied := 0,
    nextIndex := List.replicate peers 0, matchIndex := List.replicate peers 0,
    state := RaftState.StateFollower, electionElapsed := 0, heartbeatElapsed := 0,
    heartbeatTimeout := 5, electionTimeout := 10, randomizedElectionTimeout := 0,
    votedCount := 0, lead := 0, votes := [] }

/-- The function `Make`, up to the start of its goroutines: the initial
fields, `readPersist` on the blob of the persister, `checkLog`, and
`nextIndex[i] = len(log)` for every peer. -/
def Make (peers : Nat) (me : Int) (persister : Persister) : Except Crash Raft :=
  let rf := newRaft peers me persister
  let rf := readPersist rf persister.ReadRaftState
  match checkLog rf with
  | .error c => .error c
  | .ok _ => .ok { rf with nextIndex := List.replicate peers (rf.log.length : Int) }

/-! ## The tick-based design: follower, candidate, apply -/

/-- The method `becomeFollower`; `draw` is the value that `Intn` returns in
`reset`.  The source declares the parameters `term` and `lead` as `uint64` and
passes them on where an `int` is expected; they are embedded as `Int`. -/
def becomeFollower (raft : Raft) (term : Int) (lead : Int) (draw : Int) :
    Except Crash Raft :=
  match reset raft term draw with
  | .error c => .error c
  | .ok raft => .ok { raft with state := RaftState.StateFollower, lead := lead }

/-- The method `becomeCandidate`; `raft.currentTerm+1` is a machine sum. -/
def becomeCandidate (raft : Raft) (draw : Int) : Except Crash Raft :=
  if raft.state = RaftState.StateLeader then .error Crash.panic
  else
    match reset raft (wrapInt (raft.currentTerm + 1)) draw with
    | .error c => .error c
    | .ok raft => .ok { raft with votedFor := raft.me, state := RaftState.StateCandidate }

/-- The method `poll`: the vote of `id` is recorded unless `id` has one
already; the result is the new state and the number of granted votes.  The map
`votes` is embedded as a list of pairs with distinct keys; it is the map that
`reset` has made, as in `campaign`, where `becomeCandidate` runs first (on a
peer that has never run `reset` the map is nil and the assignment panics). -/
def poll (r : Raft) (id : Int) (v : Bool) : Raft × Int :=
  let votes :=
    if r.votes.any (fun p => decide (p.1 = id)) then r.votes else r.votes ++ [(id, v)]
  ({ r with votes := votes }, ((votes.filter (fun p => p.2)).length : Int))

/-- The method `campaign`: `becomeCandidate`, then the poll of the peer's own
vote; the comparison of the tally with `quorum()` has an empty body. -/
def campaign (r : Raft) (draw : Int) : Except Crash Raft :=
  match becomeCandidate r draw with
  | .error c => .error c
  | .ok r => .ok (poll r r.me true).1

/-- The loop `for i := r.lastApplied; i <= r.commitIndex; i++` of
`applyCommitLog`: `n` rounds from position `i` on, each sending one message. -/
def applyCommitLogLoop (log : List Log) : Int → Nat → Except Crash (List ApplyMsg)
  | _, 0 => .ok []
  | i, n + 1 =>
    match index log i with
    | .error c => .error c
    | .ok e =>
      match applyCommitLogLoop log (i + 1) n with
      | .error c => .error c
      | .ok rest =>
        .ok ({ Index := e.Index, Command := e.Command, UseSnapshot := false,
               Snapshot := [] } :: rest)

/-- The method `applyCommitLog`: the new state and the messages sent on
`applyCh`. -/
def applyCommitLog (r : Raft) : Except Crash (Raft × List ApplyMsg) :=
  if r.commitIndex > r.lastApplied then
    match applyCommitLogLoop r.log r.lastApplied (r.commitIndex - r.lastApplied + 1).toNat with
    | .error c => .error c
    | .ok msgs => .ok (r, msgs)
  else .ok (r, [])

/-! ## The commit rule in the words of the specification -/

/-- The method `quorum`: `len(r.peers)/2 + 1`. -/
def quorum (rf : Raft) : Int :=
  ((rf.peers / 2 : Nat) : Int) + 1

/-- The number of peers `p` with `matchIndex[p] >= N`. -/
def matchCount (rf : Raft) (N : Int) : Int :=
  ((rf.matchIndex.filter (fun m => decide (N ≤ m))).length : Int)

/-- The commit rule as the specification words it: `N` is above the commit
index, a quorum of peers have `matchIndex >= N`, and `log[N].Term` is the
current term. -/
def specCommittable (rf : Raft) (N : Int) : Prop :=
  rf.commitIndex < N ∧ quorum rf ≤ matchCount rf N ∧
    ∃ e, index rf.log N = .ok e ∧ e.Term = rf.currentTerm

/-- What the writers of `nextIndex` and `matchIndex` leave for every peer `p`,
with `nextIndex[p] - 1` the machine difference that `updateCommitIndex`
computes: `matchIndex[p]` is at least `nextIndex[p] - 1`, as after a success
reply, which sets `matchIndex[p] = nextIndex[p] - 1`; or `nextIndex[p] - 1` is
below the length of the log and no entry up to it carries the current term, as
after
`convertToLeaderAndInitState`, which sets `nextIndex[p] = len(log)` on a log of
older terms, and after failure replies, which lower `nextIndex[p]`. -/
def acknowledged (rf : Raft) : Prop :=
  ∀ (p : Nat) (n m : Int), rf.nextIndex[p]? = some n → rf.matchIndex[p]? = some m →
    wrapInt (n - 1) ≤ m ∨
    (wrapInt (n - 1) < (rf.log.length : Int) ∧
      ∀ (N : Int) (e : Log), N ≤ wrapInt (n - 1) → index rf.log N = .ok e →
        e.Term ≠ rf.currentTerm)

/-! ## Log well-formedness -/

/-- Every entry of the log carries its own position: `log[i].Index = i`. -/
def logIndexed (log : List Log) : Prop :=
  ∀ (i : Nat) (e : Log), log[i]? = some e → e.Index = (i : Int)

/-! ## Sample states and requests -/

/-- The state that `Make` builds for peer 0 of three peers when nothing has
been persisted. -/
def freshPeer : Raft :=
  { peers := 3, persister := { raftstate := [] }, me := 0, currentTerm := 0, votedFor := -1,
    log := [{ Term := 0, Command := 0, Index := 0 }], commitIndex := 0, lastApplied := 0,
    nextIndex := [1, 1, 1], matchIndex := [0, 0, 0], state := RaftState.StateFollower,
    electionElapsed := 0, heartbeatElapsed := 0, heartbeatTimeout := 5, electionTimeout := 10,
    randomizedElectionTimeout := 0, votedCount := 0, lead := 0, votes := [] }

/-- A zero-valued `RequestVoteReply`. -/
def zeroVoteReply : RequestVoteReply :=
  { Term := 0, VoteGranted := false }

/-- A zero-valued `AppendEntiesReply`. -/
def zeroAppendReply : AppendEntiesReply :=
  { Term := 0, Success := false, NextIndex := 0 }

/-- A vote request of term 1 whose `CandidateId` is `-1`. -/
def voteForNoPeer : RequestVoteArgs :=
  { Term := 1, CandidateId := -1, LastLogIndex := 0, LastLogTerm := 0 }

/-- A vote request of term 1 from candidate 1. -/
def voteForOne : RequestVoteArgs :=
  { Term := 1, CandidateId := 1, LastLogIndex := 0, LastLogTerm := 0 }

/-- A follower at term 1 with two entries of term 1 after the sentinel, the
first of them committed. -/
def committedPeer : Raft :=
  { freshPeer with
    currentTerm := 1,
    log := [{ Term := 0, Command := 0, Index := 0 }, { Term := 1, Command := 7, Index := 1 },
            { Term := 1, Command := 8, Index := 2 }],
    commitIndex := 1 }

/-- An append request of term 2 that follows the sentinel and carries, for
index 1, an entry of term 2. -/
def conflictingAppend : AppendEntiesArgs :=
  { Term := 2, LeaderId := 1, LeaderCommit := 1, PrevLogIndex := 0, PrevLogTerm := 0,
    Entries := [{ Term := 2, Command := 9, Index := 1 }] }

/-- An append request of term 2 that follows entry 1 and replaces entry 2. -/
def replacingAppend : AppendEntiesArgs :=
  { Term := 2, LeaderId := 1, LeaderCommit := 1, PrevLogIndex := 1, PrevLogTerm := 1,
    Entries := [{ Term := 2, Command := 9, Index := 2 }, { Term := 2, Command := 10, Index := 3 }] }

/-- An append request of term 2 whose `PrevLogIndex` is beyond the log of
`committedPeer`. -/
def aheadAppend : AppendEntiesArgs :=
  { Term := 2, LeaderId := 1, LeaderCommit := 1, PrevLogIndex := 5, PrevLogTerm := 2,
    Entries := [] }

/-- A leader of term 2 that has appended entry 2 in its own term: peer 1 has
acknowledged it, peer 2 has acknowledged entry 1 only. -/
def laggingLeader : Raft :=
  { freshPeer with
    currentTerm := 2,
    state := RaftState.StateLeader,
    log := [{ Term := 0, Command := 0, Index := 0 }, { Term := 1, Command := 7, Index := 1 },
            { Term := 2, Command := 8, Index := 2 }],
    nextIndex := [3, 3, 2],
    matchIndex := [2, 2, 1] }

/-- A leader of term 2 whose `nextIndex` is 3 for every peer while no other
peer has acknowledged anything. -/
def optimisticLeader : Raft :=
  { freshPeer with
    currentTerm := 2,
    state := RaftState.StateLeader,
    log := [{ Term := 0, Command := 0, Index := 0 }, { Term := 1, Command := 7, Index := 1 },
            { Term := 2, Command := 8, Index := 2 }],
    nextIndex := [3, 3, 3],
    matchIndex := [2, 0, 0] }

/-- A leader of term 2 with one entry of its own term acknowledged by peer 1. -/
def replicatedLeader : Raft :=
  { freshPeer with
    currentTerm := 2,
    state := RaftState.StateLeader,
    log := [{ Term := 0, Command := 0, Index := 0 }, { Term := 2, Command := 8, Index := 1 }],
    nextIndex := [2, 2, 1],
    matchIndex := [1, 1, 0] }

/-- The peer `committedPeer` with both of its entries committed. -/
def fullyCommittedPeer : Raft :=
  { committedPeer with commitIndex := 2 }

/-- Peer 0 of three as a candidate of term 2 that holds its own vote only; its
log has two entries after the sentinel. -/
def candidatePeer : Raft :=
  { committedPeer with
    currentTerm := 2,
    votedFor := 0,
    state := RaftState.StateCandidate,
    votedCount := 1 }

/-- A vote request that `candidatePeer` sent in term 1, an election before
the current one. -/
def oldVoteRequest : RequestVoteArgs :=
  { Term := 1, CandidateId := 0, LastLogIndex := 2, LastLogTerm := 1 }

/-- A reply of term 1 that grants the vote. -/
def oldVoteGranted : RequestVoteReply :=
  { Term := 1, VoteGranted := true }

/-- A reply of term 0 that reports success and asks for entry 2 next. -/
def successReply : AppendEntiesReply :=
  { Term := 0, Success := true, NextIndex := 2 }

/-- A leader of term 2 that has appended entry 1 in its own term and has no
acknowledgement yet. -/
def unackedLeader : Raft :=
  { freshPeer with
    currentTerm := 2,
    state := RaftState.StateLeader,
    log := [{ Term := 0, Command := 0, Index := 0 }, { Term := 2, Command := 8, Index := 1 }],
    nextIndex := [2, 1, 1],
    matchIndex := [1, 0, 0] }

/-- An append request of term 1, sent before the term of `unackedLeader`. -/
def oldAppendRequest : AppendEntiesArgs :=
  { Term := 1, LeaderId := 0, LeaderCommit := 0, PrevLogIndex := 0, PrevLogTerm := 0,
    Entries := [{ Term := 1, Command := 7, Index := 1 }] }

/-- A leader of term 2 right after its election, with one entry of term 1
after the sentinel: `nextIndex` is `len(log) = 2` for every peer. -/
def electedLeader : Raft :=
  { freshPeer with
    currentTerm := 2,
    votedFor := 0,
    state := RaftState.StateLeader,
    log := [{ Term := 0, Command := 0, Index := 0 }, { Term := 1, Command := 7, Index := 1 }],
    nextIndex := [2, 2, 2],
    matchIndex := [0, 0, 0] }

/-- A follower at term 5 that has voted for peer 2. -/
def termFivePeer : Raft :=
  { committedPeer with currentTerm := 5, votedFor := 2 }

/-- An append request of term 2 that follows entry 1, replaces entry 2, adds
entry 3 and announces a leader commit index beyond both. -/
def committingAppend : AppendEntiesArgs :=
  { replacingAppend with LeaderCommit := 5 }

/-- Peer 0 of three as the leader of term 1, with the sentinel only. -/
def termOneLeader : Raft :=
  { freshPeer with currentTerm := 1, votedFor := 0, state := RaftState.StateLeader }

/-- The heartbeat of a leader of term 2 that follows the sentinel. -/
def higherTermHeartbeat : AppendEntiesArgs :=
  { Term := 2, LeaderId := 1, LeaderCommit := 0, PrevLogIndex := 0, PrevLogTerm := 0,
    Entries := [] }

/-- A vote request of term 2 from candidate 1. -/
def voteForOneTermTwo : RequestVoteArgs :=
  { Term := 2, CandidateId := 1, LastLogIndex := 0, LastLogTerm := 0 }

/-- A vote request of candidate 1 whose term is the largest `int`. -/
def voteForOneLastTerm : RequestVoteArgs :=
  { Term := MaxInt64, CandidateId := 1, LastLogIndex := 0, LastLogTerm := 0 }

/-- A follower whose term is the largest `int`. -/
def lastTermPeer : Raft :=
  { freshPeer with currentTerm := MaxInt64 }

/-- Peer 1 of three as a follower of term 1 that has not voted, with the log
of `committedPeer`. -/
def voterPeer : Raft :=
  { committedPeer with me := 1 }

/-- Peer 2 of three as a candidate of term 2 that holds its own vote only. -/
def rivalCandidate : Raft :=
  { candidatePeer with me := 2, votedFor := 2 }

/-- The vote request that `rivalCandidate` sends in term 2. -/
def rivalVoteRequest : RequestVoteArgs :=
  { Term := 2, CandidateId := 2, LastLogIndex := 2, LastLogTerm := 1 }

/-! ## Machine integers -/

theorem wrapInt_of_range (x : Int) (h1 : MinInt64 ≤ x) (h2 : x ≤ MaxInt64) :
    wrapInt x = x := by
  unfold wrapInt
  unfold MinInt64 at h1
  unfold MaxInt64 at h2
  omega

theorem wrapInt_range (x : Int) : MinInt64 ≤ wrapInt x ∧ wrapInt x ≤ MaxInt64 := by
  unfold wrapInt MinInt64 MaxInt64
  omega

theorem wrapInt_succ_max : wrapInt (MaxInt64 + 1) = MinInt64 := by
  decide

/-- The machine sum `i + 1` for an index `i` of a slice: it is not above the
length of the slice. -/
theorem wrapInt_succ_le_length (n : Nat) (i : Int) (h0 : 0 ≤ i) (h1 : i < (n : Int)) :
    wrapInt (i + 1) ≤ (n : Int) := by
  by_cases h : i + 1 ≤ MaxInt64
  · rw [wrapInt_of_range _ (by unfold MinInt64; omega) h]
    omega
  · have := (wrapInt_range (i + 1)).2
    omega

/-! ## Slices: basic facts -/

theorem index_ok_iff {α : Type} (s : List α) (i : Int) (x : α) :
    index s i = .ok x ↔ 0 ≤ i ∧ s[i.toNat]? = some x := by
  unfold index
  by_cases h : 0 ≤ i
  · simp only [h, if_true, true_and]
    cases hs : s[i.toNat]? with
    | none => simp
    | some y => simp
  · simp [h]

theorem index_natCast {α : Type} (s : List α) (n : Nat) (x : α) :
    index s (n : Int) = .ok x ↔ s[n]? = some x := by
  rw [index_ok_iff]
  simp

theorem index_ok_of_lt {α : Type} (s : List α) (i : Int) (h0 : 0 ≤ i)
    (h1 : i < (s.length : Int)) : ∃ x, index s i = .ok x := by
  have hlt : i.toNat < s.length := by omega
  refine ⟨s[i.toNat], ?_⟩
  rw [index_ok_iff]
  exact ⟨h0, List.getElem?_eq_getElem hlt⟩

theorem index_ok_lt {α : Type} (s : List α) (i : Int) (x : α) (h : index s i = .ok x) :
    0 ≤ i ∧ i < (s.length : Int) := by
  rw [index_ok_iff] at h
  obtain ⟨h0, h1⟩ := h
  have := (List.getElem?_eq_some_iff.mp h1).1
  omega

theorem index_error_iff {α : Type} (s : List α) (i : Int) :
    (∃ c, index s i = .error c) ↔ (i < 0 ∨ (s.length : Int) ≤ i) := by
  constructor
  · rintro ⟨c, hc⟩
    by_contra hcon
    push_neg at hcon
    obtain ⟨x, hx⟩ := index_ok_of_lt s i hcon.1 hcon.2
    rw [hx] at hc
    cases hc
  · intro h
    cases hres : index s i with
    | error c => exact ⟨c, rfl⟩
    | ok x =>
      have := index_ok_lt s i x hres
      omega

theorem index_last {α : Type} (s : List α) (hne : s ≠ []) :
    ∃ x, index s ((s.length : Int) - 1) = .ok x ∧ s[s.length - 1]? = some x := by
  have hpos : 0 < s.length := List.length_pos.mpr hne
  obtain ⟨x, hx⟩ := index_ok_of_lt s ((s.length : Int) - 1) (by omega) (by omega)
  refine ⟨x, hx, ?_⟩
  rw [index_ok_iff] at hx
  have e : ((s.length : Int) - 1).toNat = s.length - 1 := by omega
  rw [e] at hx
  exact hx.2

/-- C2: with a non-empty log whose entries carry their own position, a vote
request of a term not below the peer's term is granted exactly when `votedFor`
(after the reset made for a higher term) is the no-peer marker or the candidate,
and the candidate's last entry is at least as up to date as the peer's; a grant
records the candidate in `votedFor`, and the reply carries the resulting term. -/
theorem RequestVote_grant_iff (rf : Raft) (args : RequestVoteArgs) (reply : RequestVoteReply)
    (hne : rf.log ≠ [])
    (hidx : ∀ (i : Nat) (e : Log), rf.log[i]? = some e → e.Index = (i : Int))
    (hterm : rf.currentTerm ≤ args.Term) :
    ∃ rf1 reply1 lastLog,
      RequestVote rf args reply = .ok (rf1, reply1) ∧
      index rf.log ((rf.log.length : Int) - 1) = .ok lastLog ∧
      (reply1.VoteGranted = true ↔
        (((if args.Term > rf.currentTerm then None else rf.votedFor) = None ∨
          (if args.Term > rf.currentTerm then None else rf.votedFor) = args.CandidateId) ∧
         (args.LastLogTerm > lastLog.Term ∨
          (args.LastLogTerm = lastLog.Term ∧
            args.LastLogIndex ≥ (rf.log.length : Int) - 1)))) ∧
      (reply1.VoteGranted = true → rf1.votedFor = args.CandidateId) ∧
      (reply1.VoteGranted = false →
        rf1.votedFor = (if args.Term > rf.currentTerm then None else rf.votedFor)) ∧
      rf1.currentTerm = args.Term ∧
      reply1.Term = rf1.currentTerm := by
  obtain ⟨lastLog, hlast, hget⟩ := index_last rf.log hne
  have hI : lastLog.Index = (rf.log.length : Int) - 1 := by
    have := hidx _ _ hget
    have hpos : 0 < rf.log.length := List.length_pos.mpr hne
    omega
  have hlog : (rpcRuleForAllServer rf args.Term).log = rf.log := by
    unfold rpcRuleForAllServer; split <;> rfl
  have hct : (rpcRuleForAllServer rf args.Term).currentTerm = args.Term := by
    unfold rpcRuleForAllServer; split
    · rfl
    · show rf.currentTerm = args.Term
      omega
  have hvf : (rpcRuleForAllServer rf args.Term).votedFor =
      (if args.Term > rf.currentTerm then None else rf.votedFor) := by
    unfold rpcRuleForAllServer; split <;> rfl
  have hreq : reqMoreUpToDate (rpcRuleForAllServer rf args.Term) args =
      .ok (decide (args.LastLogTerm > lastLog.Term ∨
          (args.LastLogTerm = lastLog.Term ∧
            args.LastLogIndex ≥ (rf.log.length : Int) - 1))) := by
    unfold reqMoreUpToDate
    rw [hlog, hlast]
    simp only [hI]
    by_cases hT : args.LastLogTerm = lastLog.Term
    · simp [hT]
    · have : (args.LastLogTerm ≥ lastLog.Term) ↔ (args.LastLogTerm > lastLog.Term) := by
        constructor
        · intro h; exact lt_of_le_of_ne h (Ne.symm hT)
        · intro h; exact le_of_lt h
      simp [hT, this]
  have hnlt : ¬ (args.Term < (rpcRuleForAllServer rf args.Term).currentTerm) := by
    rw [hct]; exact lt_irrefl _
  rw [← hvf]
  have hN : None = (-1 : Int) := rfl
  by_cases hv : ((rpcRuleForAllServer rf args.Term).votedFor = -1 ∨
      (rpcRuleForAllServer rf args.Term).votedFor = args.CandidateId)
  · by_cases hu : (args.LastLogTerm > lastLog.Term ∨
          (args.LastLogTerm = lastLog.Term ∧
            args.LastLogIndex ≥ (rf.log.length : Int) - 1))
    · refine ⟨{ rpcRuleForAllServer rf args.Term with votedFor := args.CandidateId },
        { reply with Term := (rpcRuleForAllServer rf args.Term).currentTerm,
                     VoteGranted := true }, lastLog, ?_, hlast, ?_, ?_, ?_, hct, rfl⟩
      · unfold RequestVote
        simp only [hnlt, if_false, hv, if_true, hreq, decide_eq_true hu]
      · simp only [hN, true_iff]
        exact ⟨hv, hu⟩
      · intro _; rfl
      · intro h; cases h
    · refine ⟨rpcRuleForAllServer rf args.Term,
        { reply with Term := (rpcRuleForAllServer rf args.Term).currentTerm,
                     VoteGranted := false }, lastLog, ?_, hlast, ?_, ?_, ?_, hct, rfl⟩
      · unfold RequestVote
        simp only [hnlt, if_false, hv, if_true, hreq, decide_eq_false hu]
      · simp only [hN]
        constructor
        · intro h; cases h
        · intro h; exact absurd h.2 hu
      · intro h; cases h
      · intro _; rfl
  · refine ⟨rpcRuleForAllServer rf args.Term,
        { reply with Term := (rpcRuleForAllServer rf args.Term).currentTerm,
                     VoteGranted := false }, lastLog, ?_, hlast, ?_, ?_, ?_, hct, rfl⟩
    · unfold RequestVote
      simp only [hnlt, if_false, hv]
    · simp only [hN]
      constructor
      · intro h; cases h
      · intro h; exact absurd h.1 hv
    · intro h; cases h
    · intro _; rfl

/-! ## The universal term rule -/

theorem rpcRuleForAllServer_currentTerm (rf : Raft) (term : Int) :
    (rpcRuleForAllServer rf term).currentTerm = max rf.currentTerm term := by
  unfold rpcRuleForAllServer
  split
  · show term = max rf.currentTerm term
    rw [max_eq_right]; omega
  · rw [max_eq_left]; omega

theorem rpcRuleForAllServer_votedFor_of_term_eq (rf : Raft) (term : Int)
    (h : (rpcRuleForAllServer rf term).currentTerm = rf.currentTerm) :
    rpcRuleForAllServer rf term = rf := by
  unfold rpcRuleForAllServer at h ⊢
  split
  · rename_i hgt
    rw [if_pos hgt] at h
    have : term = rf.currentTerm := h
    omega
  · rfl

/-! ## One vote per term -/

theorem RequestVote_step (rf : Raft) (args : RequestVoteArgs) (reply : RequestVoteReply)
    (rf1 : Raft) (reply1 : RequestVoteReply)
    (h : RequestVote rf args reply = .ok (rf1, reply1)) :
    rf.currentTerm ≤ rf1.currentTerm ∧
    (rf1.currentTerm = rf.currentTerm → rf.votedFor ≠ -1 → rf1.votedFor = rf.votedFor) ∧
    (reply1.VoteGranted = true → rf1.votedFor = args.CandidateId) := by
  have hmono : rf.currentTerm ≤ (rpcRuleForAllServer rf args.Term).currentTerm := by
    rw [rpcRuleForAllServer_currentTerm]; exact le_max_left _ _
  unfold RequestVote at h
  simp only at h
  split at h
  · cases h
    refine ⟨hmono, ?_, ?_⟩
    · intro he _
      rw [rpcRuleForAllServer_votedFor_of_term_eq rf args.Term he]
    · intro hg; cases hg
  · split at h
    · rename_i hv
      split at h
      · cases h
      · cases h
        refine ⟨hmono, ?_, ?_⟩
        · intro he hne
          have he2 : (rpcRuleForAllServer rf args.Term).currentTerm = rf.currentTerm := he
          rw [rpcRuleForAllServer_votedFor_of_term_eq rf args.Term he2] at hv
          show args.CandidateId = rf.votedFor
          rcases hv with hv | hv
          · exact absurd hv hne
          · exact hv.symm
        · intro _; rfl
      · cases h
        refine ⟨hmono, ?_, ?_⟩
        · intro he _
          rw [rpcRuleForAllServer_votedFor_of_term_eq rf args.Term he]
        · intro hg; cases hg
    · cases h
      refine ⟨hmono, ?_, ?_⟩
      · intro he _
        rw [rpcRuleForAllServer_votedFor_of_term_eq rf args.Term he]
      · intro hg; cases hg

/-! ## The shape of an append result -/

theorem appendAccept_ok (rf : Raft) (args : AppendEntiesArgs) (reply : AppendEntiesReply)
    (rf1 : Raft) (reply1 : AppendEntiesReply)
    (h : appendAccept rf args reply = .ok (rf1, reply1)) :
    ∃ L, appendLoop rf.log args.PrevLogIndex 0 args.Entries = .ok L ∧
      checkLogFrom 0 L = .ok () ∧
      rf1.log = L ∧
      rf1.commitIndex =
        (if args.LeaderCommit > rf.commitIndex then
          min args.LeaderCommit ((L.length : Int) - 1) else rf.commitIndex) ∧
      rf1.currentTerm = rf.currentTerm ∧ rf1.votedFor = rf.votedFor ∧
      rf1.state = rf.state ∧
      reply1.Term = rf.currentTerm ∧ reply1.Success = true ∧
      reply1.NextIndex = (L.length : Int) ∧
      rf1.persister.raftstate = encodeState rf1 := by
  unfold appendAccept at h
  split at h
  · cases h
  · rename_i L hL
    simp only at h
    split at h
    · cases h
    · rename_i u hck
      cases h
      refine ⟨L, hL, ?_, ?_, ?_, ?_, ?_, ?_, ?_, ?_, ?_, ?_⟩
      · unfold checkLog at hck
        split at hck <;> exact hck
      · unfold persist; split <;> rfl
      · unfold persist; split <;> rfl
      · unfold persist; split <;> rfl
      · unfold persist; split <;> rfl
      · unfold persist; split <;> rfl
      · unfold persist; split <;> rfl
      · rfl
      · unfold persist; split <;> rfl
      · unfold persist; split <;> rfl

theorem appendAccept_returns (rf : Raft) (args : AppendEntiesArgs) (reply : AppendEntiesReply)
    (L : List Log) (hL : appendLoop rf.log args.PrevLogIndex 0 args.Entries = .ok L)
    (hck : checkLogFrom 0 L = .ok ()) :
    ∃ rf1 reply1, appendAccept rf args reply = .ok (rf1, reply1) := by
  unfold appendAccept
  rw [hL]
  simp only
  have : ∀ r : Raft, r.log = L → checkLog r = .ok () := by
    intro r hr; unfold checkLog; rw [hr]; exact hck
  split
  · rename_i c hc
    split at hc
    · rw [this _ rfl] at hc; cases hc
    · rw [this _ rfl] at hc; cases hc
  · exact ⟨_, _, rfl⟩

theorem rpcRuleForAllServer_log (rf : Raft) (term : Int) :
    (rpcRuleForAllServer rf term).log = rf.log ∧
    (rpcRuleForAllServer rf term).commitIndex = rf.commitIndex ∧
    (rpcRuleForAllServer rf term).persister = rf.persister := by
  unfold rpcRuleForAllServer
  split <;> exact ⟨rfl, rfl, rfl⟩

theorem rpcRuleForAllServer_of_le (rf : Raft) (term : Int) (h : term ≤ rf.currentTerm) :
    rpcRuleForAllServer rf term = rf := by
  unfold rpcRuleForAllServer
  rw [if_neg (by omega)]

theorem rpcRuleForAllServer_of_gt (rf : Raft) (term : Int) (h : term > rf.currentTerm) :
    (rpcRuleForAllServer rf term).currentTerm = term ∧
    (rpcRuleForAllServer rf term).state = RaftState.StateFollower ∧
    (rpcRuleForAllServer rf term).votedFor = None := by
  unfold rpcRuleForAllServer
  rw [if_pos h]
  exact ⟨rfl, rfl, rfl⟩

/-- Whatever branch `AppendEnties` takes, the term, the vote and the role of the
resulting state are those left by the universal term rule, and the reply
carries the resulting term. -/
theorem AppendEnties_frame (rf : Raft) (args : AppendEntiesArgs) (reply : AppendEntiesReply)
    (rf1 : Raft) (reply1 : AppendEntiesReply)
    (h : AppendEnties rf args reply = .ok (rf1, reply1)) :
    rf1.currentTerm = (rpcRuleForAllServer rf args.Term).currentTerm ∧
    rf1.votedFor = (rpcRuleForAllServer rf args.Term).votedFor ∧
    rf1.state = (rpcRuleForAllServer rf args.Term).state ∧
    reply1.Term = rf1.currentTerm := by
  unfold AppendEnties AppendEntiesBody at h
  split at h
  · rename_i hlt
    cases h
    rw [rpcRuleForAllServer_of_le rf args.Term (le_of_lt hlt)]
    exact ⟨rfl, rfl, rfl, rfl⟩
  · split at h
    · cases h
    · simp only at h
      split at h
      · split at h
        · cases h
        · split at h
          · obtain ⟨L, _, _, _, _, h1, h2, h3, h4, _⟩ := appendAccept_ok _ _ _ _ _ h
            exact ⟨h1, h2, h3, by rw [h4, h1]⟩
          · cases h
            exact ⟨rfl, rfl, rfl, rfl⟩
      · cases h
        exact ⟨rfl, rfl, rfl, rfl⟩

/-- The handler on a Leader: a request that is not stale is not handled to the
end, as the send on `heartbeatChan` has no receiver. -/
theorem AppendEnties_leader (rf : Raft) (args : AppendEntiesArgs) (reply : AppendEntiesReply)
    (hterm : rf.currentTerm ≤ args.Term) (hrole : rf.state = RaftState.StateLeader) :
    AppendEnties rf args reply = .error Crash.blocked := by
  unfold AppendEnties AppendEntiesBody
  rw [if_neg (by omega), if_pos hrole]

/-- The consistency check of `AppendEnties`, for a request that is not stale,
on a peer that is not Leader, with a `PrevLogIndex` that is not negative: the
handler accepts when the peer has an entry at `PrevLogIndex` with term
`PrevLogTerm`, and refuses otherwise when `PrevLogIndex` is below the largest
`int`. -/
theorem AppendEnties_check (rf : Raft) (args : AppendEntiesArgs) (reply : AppendEntiesReply)
    (hterm : rf.currentTerm ≤ args.Term) (hrole : rf.state ≠ RaftState.StateLeader)
    (h0 : 0 ≤ args.PrevLogIndex) :
    ((∃ p, index rf.log args.PrevLogIndex = .ok p ∧ p.Term = args.PrevLogTerm) →
      AppendEnties rf args reply =
        appendAccept (rpcRuleForAllServer rf args.Term) args reply) ∧
    (args.PrevLogIndex < MaxInt64 →
      ¬ (∃ p, index rf.log args.PrevLogIndex = .ok p ∧ p.Term = args.PrevLogTerm) →
      AppendEnties rf args reply =
        .ok (appendRefuse (rpcRuleForAllServer rf args.Term) args reply)) := by
  have hlog := (rpcRuleForAllServer_log rf args.Term).1
  constructor
  · rintro ⟨p, hp, hpt⟩
    have hb := index_ok_lt _ _ _ hp
    have hw := wrapInt_succ_le_length rf.log.length args.PrevLogIndex hb.1 hb.2
    unfold AppendEnties AppendEntiesBody
    rw [if_neg (by omega), if_neg hrole]
    simp only [hlog]
    rw [if_pos (by omega), hp]
    simp only [hpt, if_true]
  · intro hmax hno
    have hw : wrapInt (args.PrevLogIndex + 1) = args.PrevLogIndex + 1 :=
      wrapInt_of_range _ (by unfold MinInt64; omega) (by omega)
    unfold AppendEnties AppendEntiesBody
    rw [if_neg (by omega), if_neg hrole]
    simp only [hlog, hw]
    split
    · rename_i hlen
      obtain ⟨p, hp⟩ := index_ok_of_lt rf.log args.PrevLogIndex h0 (by omega)
      rw [hp]
      simp only
      rw [if_neg]
      intro hpt
      exact hno ⟨p, hp, hpt⟩
    · rfl

/-- With `PrevLogIndex` the largest `int`, the sum of the length test wraps to
the smallest `int`, the test passes, and the index expression fails on every
log shorter than `2^63` entries. -/
theorem AppendEnties_wraps (rf : Raft) (args : AppendEntiesArgs) (reply : AppendEntiesReply)
    (hterm : rf.currentTerm ≤ args.Term) (hrole : rf.state ≠ RaftState.StateLeader)
    (hmax : args.PrevLogIndex = MaxInt64) (hlen : (rf.log.length : Int) ≤ MaxInt64) :
    AppendEnties rf args reply = .error Crash.indexOutOfRange := by
  have hlog := (rpcRuleForAllServer_log rf args.Term).1
  have hidx : index rf.log args.PrevLogIndex = .error Crash.indexOutOfRange := by
    unfold index
    rw [if_pos (by rw [hmax]; decide)]
    have : rf.log[args.PrevLogIndex.toNat]? = none := by
      rw [List.getElem?_eq_none_iff]
      have h0 : (0 : Int) ≤ args.PrevLogIndex := by rw [hmax]; decide
      have := Int.toNat_of_nonneg h0
      omega
    rw [this]
  unfold AppendEnties AppendEntiesBody
  rw [if_neg (by omega), if_neg hrole]
  simp only [hlog]
  rw [hmax, wrapInt_succ_max, if_pos (by unfold MinInt64; omega), ← hmax, hidx]

/-- A request that is not stale, on a peer that is not Leader, with a negative
`PrevLogIndex` in the range of `int`: the length test passes and the index
expression fails. -/
theorem AppendEnties_negative (rf : Raft) (args : AppendEntiesArgs) (reply : AppendEntiesReply)
    (hterm : rf.currentTerm ≤ args.Term) (hrole : rf.state ≠ RaftState.StateLeader)
    (hmin : MinInt64 ≤ args.PrevLogIndex) (hneg : args.PrevLogIndex < 0) :
    AppendEnties rf args reply = .error Crash.indexOutOfRange := by
  have hlog := (rpcRuleForAllServer_log rf args.Term).1
  have hw : wrapInt (args.PrevLogIndex + 1) = args.PrevLogIndex + 1 :=
    wrapInt_of_range _ (by omega) (by unfold MaxInt64; omega)
  have hidx : index rf.log args.PrevLogIndex = .error Crash.indexOutOfRange := by
    unfold index
    rw [if_neg (by omega)]
  unfold AppendEnties AppendEntiesBody
  rw [if_neg (by omega), if_neg hrole]
  simp only [hlog, hw]
  rw [if_pos (by omega), hidx]

/-! ## The ways in which an append request returns -/

/-- A returning `AppendEnties` call was stale, or was handled by a peer that
is not Leader and was refused by the consistency check or accepted. -/
theorem AppendEnties_ok_cases (rf : Raft) (args : AppendEntiesArgs)
    (reply : AppendEntiesReply) (rf1 : Raft) (reply1 : AppendEntiesReply)
    (h : AppendEnties rf args reply = .ok (rf1, reply1)) :
    (args.Term < rf.currentTerm ∧ rf1 = rf ∧
      reply1 = { reply with Term := rf.currentTerm, Success := false }) ∨
    (rf.currentTerm ≤ args.Term ∧ rf.state ≠ RaftState.StateLeader ∧
      (¬ ∃ p, index rf.log args.PrevLogIndex = .ok p ∧ p.Term = args.PrevLogTerm) ∧
      (rf1, reply1) = appendRefuse (rpcRuleForAllServer rf args.Term) args reply) ∨
    (rf.currentTerm ≤ args.Term ∧ rf.state ≠ RaftState.StateLeader ∧
      0 ≤ args.PrevLogIndex ∧
      (∃ p, index rf.log args.PrevLogIndex = .ok p ∧ p.Term = args.PrevLogTerm) ∧
      appendAccept (rpcRuleForAllServer rf args.Term) args reply = .ok (rf1, reply1)) := by
  have hlog := (rpcRuleForAllServer_log rf args.Term).1
  by_cases hs : args.Term < rf.currentTerm
  · left
    unfold AppendEnties AppendEntiesBody at h
    rw [if_pos hs] at h
    cases h
    exact ⟨hs, rfl, rfl⟩
  · right
    have hterm : rf.currentTerm ≤ args.Term := by omega
    by_cases hrole : rf.state = RaftState.StateLeader
    · rw [AppendEnties_leader rf args reply hterm hrole] at h
      cases h
    · by_cases hpass : ∃ p, index rf.log args.PrevLogIndex = .ok p ∧ p.Term = args.PrevLogTerm
      · right
        obtain ⟨p, hp, hpt⟩ := hpass
        have h0 := (index_ok_lt _ _ _ hp).1
        rw [(AppendEnties_check rf args reply hterm hrole h0).1 ⟨p, hp, hpt⟩] at h
        exact ⟨hterm, hrole, h0, ⟨p, hp, hpt⟩, h⟩
      · left
        refine ⟨hterm, hrole, hpass, ?_⟩
        unfold AppendEnties AppendEntiesBody at h
        rw [if_neg hs, if_neg hrole] at h
        simp only [hlog] at h
        split at h
        · cases hi : index rf.log args.PrevLogIndex with
          | error c => rw [hi] at h; cases h
          | ok p =>
            rw [hi] at h
            simp only at h
            by_cases hpt : p.Term = args.PrevLogTerm
            · exact absurd ⟨p, hi, hpt⟩ hpass
            · rw [if_neg hpt] at h
              cases h
              rfl
        · cases h
          rfl

/-- A returning `AppendEnties` call whose `PrevLogIndex` is in the range of
`int` was stale or had a `PrevLogIndex` that is not negative. -/
theorem AppendEnties_ok_prev (rf : Raft) (args : AppendEntiesArgs) (reply : AppendEntiesReply)
    (rf1 : Raft) (reply1 : AppendEntiesReply) (hmin : MinInt64 ≤ args.PrevLogIndex)
    (h : AppendEnties rf args reply = .ok (rf1, reply1)) :
    (args.Term < rf.currentTerm ∧ rf1 = rf) ∨
      (rf.currentTerm ≤ args.Term ∧ 0 ≤ args.PrevLogIndex) := by
  rcases AppendEnties_ok_cases rf args reply rf1 reply1 h with
    ⟨hs, hsame, _⟩ | ⟨hterm, hrole, _, _⟩ | ⟨hterm, _, h0, _⟩
  · exact Or.inl ⟨hs, hsame⟩
  · right
    refine ⟨hterm, ?_⟩
    by_contra hneg
    rw [AppendEnties_negative rf args reply hterm hrole hmin (by omega)] at h
    cases h
  · exact Or.inr ⟨hterm, h0⟩

/-- Whatever branch the part of `AppendEnties` under the lock takes, the term,
the vote and the role of the resulting state are those left by the universal
term rule. -/
theorem AppendEntiesBody_frame (rf : Raft) (args : AppendEntiesArgs)
    (reply : AppendEntiesReply) (rf1 : Raft) (reply1 : AppendEntiesReply)
    (h : AppendEntiesBody rf args reply = .ok (rf1, reply1)) :
    rf1.currentTerm = (rpcRuleForAllServer rf args.Term).currentTerm ∧
    rf1.votedFor = (rpcRuleForAllServer rf args.Term).votedFor ∧
    rf1.state = (rpcRuleForAllServer rf args.Term).state ∧
    reply1.Term = rf1.currentTerm := by
  unfold AppendEntiesBody at h
  simp only at h
  split at h
  · split at h
    · cases h
    · split at h
      · obtain ⟨L, _, _, _, _, h1, h2, h3, h4, _⟩ := appendAccept_ok _ _ _ _ _ h
        exact ⟨h1, h2, h3, by rw [h4, h1]⟩
      · cases h
        exact ⟨rfl, rfl, rfl, rfl⟩
  · cases h
    exact ⟨rfl, rfl, rfl, rfl⟩

theorem AppendEntiesBody_step (rf : Raft) (args : AppendEntiesArgs)
    (reply : AppendEntiesReply) (rf1 : Raft) (reply1 : AppendEntiesReply)
    (h : AppendEntiesBody rf args reply = .ok (rf1, reply1)) :
    rf.currentTerm ≤ rf1.currentTerm ∧
    (rf1.currentTerm = rf.currentTerm → rf.votedFor ≠ -1 → rf1.votedFor = rf.votedFor) := by
  obtain ⟨h1, h2, _, _⟩ := AppendEntiesBody_frame rf args reply rf1 reply1 h
  constructor
  · rw [h1, rpcRuleForAllServer_currentTerm]; exact le_max_left _ _
  · intro he _
    rw [h1] at he
    rw [h2, rpcRuleForAllServer_votedFor_of_term_eq rf args.Term he]

theorem AppendEnties_step (rf : Raft) (args : AppendEntiesArgs) (reply : AppendEntiesReply)
    (rf1 : Raft) (reply1 : AppendEntiesReply)
    (h : AppendEnties rf args reply = .ok (rf1, reply1)) :
    rf.currentTerm ≤ rf1.currentTerm ∧
    (rf1.currentTerm = rf.currentTerm → rf.votedFor ≠ -1 → rf1.votedFor = rf.votedFor) := by
  obtain ⟨h1, h2, _, _⟩ := AppendEnties_frame rf args reply rf1 reply1 h
  constructor
  · rw [h1, rpcRuleForAllServer_currentTerm]; exact le_max_left _ _
  · intro he _
    rw [h1] at he
    rw [h2, rpcRuleForAllServer_votedFor_of_term_eq rf args.Term he]

theorem handleRequest_step (rf : Raft) (req : Request) (rf1 : Raft) (resp : Response)
    (h : handleRequest rf req = .ok (rf1, resp)) :
    rf.currentTerm ≤ rf1.currentTerm ∧
    (rf1.currentTerm = rf.currentTerm → rf.votedFor ≠ -1 → rf1.votedFor = rf.votedFor) ∧
    (∀ args reply, req = Request.vote args → resp = Response.vote reply →
      reply.VoteGranted = true → rf1.votedFor = args.CandidateId) := by
  cases req with
  | vote a =>
    simp only [handleRequest] at h
    split at h
    · cases h
    · rename_i rf2 r2 hrv
      cases h
      obtain ⟨h1, h2, h3⟩ := RequestVote_step _ _ _ _ _ hrv
      refine ⟨h1, h2, ?_⟩
      intro args reply ha hr hg
      cases ha; cases hr
      exact h3 hg
  | append a =>
    simp only [handleRequest] at h
    split at h
    · cases h
    · rename_i rf2 r2 hrv
      cases h
      obtain ⟨h1, h2⟩ := AppendEnties_step _ _ _ _ _ hrv
      refine ⟨h1, h2, ?_⟩
      intro args reply ha
      cases ha
  | resume a =>
    simp only [handleRequest] at h
    split at h
    · cases h
    · rename_i rf2 r2 hrv
      cases h
      obtain ⟨h1, h2⟩ := AppendEntiesBody_step _ _ _ _ _ hrv
      refine ⟨h1, h2, ?_⟩
      intro args reply ha
      cases ha

/-- Every vote granted while handling a sequence of requests is granted at a
term not below the starting term, and a vote granted at the starting term goes
to the peer already recorded in `votedFor`, if there is one. -/
theorem grantedVotes_bound (reqs : List Request) :
    ∀ (rf : Raft) (x : Int × Int), x ∈ grantedVotes rf reqs →
      rf.currentTerm ≤ x.1 ∧ (x.1 = rf.currentTerm → rf.votedFor ≠ -1 → x.2 = rf.votedFor) := by
  induction reqs with
  | nil => intro rf x hx; simp [grantedVotes] at hx
  | cons req rest ih =>
    intro rf x hx
    unfold grantedVotes at hx
    split at hx
    · exact ih rf x hx
    · simp at hx
    · rename_i rf1 resp hh
      obtain ⟨h1, h2, h3⟩ := handleRequest_step rf req rf1 resp hh
      have tail : x ∈ grantedVotes rf1 rest →
          rf.currentTerm ≤ x.1 ∧
            (x.1 = rf.currentTerm → rf.votedFor ≠ -1 → x.2 = rf.votedFor) := by
        intro hm
        obtain ⟨i1, i2⟩ := ih rf1 x hm
        refine ⟨le_trans h1 i1, ?_⟩
        intro he hne
        have e1 : rf1.currentTerm = rf.currentTerm := by omega
        have e2 := h2 e1 hne
        rw [← e2]
        apply i2
        · omega
        · rw [e2]; exact hne
      split at hx
      · rename_i args reply
        split at hx
        · rename_i hg
          rcases List.mem_cons.mp hx with hx | hx
          · subst hx
            refine ⟨h1, ?_⟩
            intro he hne
            have e3 := h3 args reply rfl rfl hg
            show args.CandidateId = rf.votedFor
            rw [← e3]
            exact h2 he hne
          · exact tail hx
        · exact tail hx
      · exact tail hx

/-! ## The merge loop -/

/-- The merge loop started at offset `i`, position `p = PrevLogIndex + 1 + i`
not beyond the end of the log, on the remaining entries `rest`: it returns a
log that agrees with the old log before `p`, holds `rest` from `p` on, is cut
at the first offset where the old log has no entry or another entry, and is
the old log when there is no such offset. -/
theorem appendLoop_spec (log : List Log) (prev : Int) :
    ∀ (rest : List Log) (i p : Nat), prev + 1 + (i : Int) = (p : Int) → p ≤ log.length →
      ∃ L, appendLoop log prev i rest = .ok L ∧
        L.take p = log.take p ∧
        (∀ k, k < rest.length → L[p + k]? = rest[k]?) ∧
        (∀ k0, k0 < rest.length → (∀ k, k < k0 → log[p + k]? = rest[k]?) →
          log[p + k0]? ≠ rest[k0]? → L = log.take (p + k0) ++ rest.drop k0) ∧
        ((∀ k, k < rest.length → log[p + k]? = rest[k]?) → L = log) := by
  intro rest
  induction rest with
  | nil =>
    intro i p _ _
    refine ⟨log, rfl, rfl, ?_, ?_, ?_⟩
    · intro k hk; simp at hk
    · intro k0 hk0; simp at hk0
    · intro _; rfl
  | cons e rest ih =>
    intro i p hp hle
    unfold appendLoop
    rw [hp]
    by_cases hlt : p < log.length
    · rw [if_pos (by exact_mod_cast hlt)]
      have hx : index log (p : Int) = .ok log[p] := by
        rw [index_natCast]; exact List.getElem?_eq_getElem hlt
      rw [hx]
      simp only [Int.toNat_ofNat]
      by_cases hne : log[p] ≠ e
      · rw [if_pos hne]
        have hlen : (List.take p log).length = p := by
          rw [List.length_take]; omega
        have h0 : log[p + 0]? ≠ (e :: rest)[0]? := by
          simp only [Nat.add_zero, List.getElem?_eq_getElem hlt, List.getElem?_cons_zero]
          intro hc; exact hne (Option.some.inj hc)
        refine ⟨_, rfl, ?_, ?_, ?_, ?_⟩
        · exact List.take_left' hlen
        · intro k _
          rw [List.getElem?_append_right (by omega)]
          rw [hlen]
          congr 1
          omega
        · intro k0 _ hall _
          rcases Nat.eq_zero_or_pos k0 with hz | hpos
          · subst hz; rfl
          · exact absurd (hall 0 hpos) h0
        · intro hall
          exact absurd (hall 0 (by simp)) h0
      · push_neg at hne
        rw [if_neg (by simpa using hne)]
        obtain ⟨L, hL, h1, h2, h3, h4⟩ :=
          ih (i + 1) (p + 1) (by push_cast; omega) (by omega)
        have hLp : L[p]? = some e := by
          have : (L.take (p + 1))[p]? = (log.take (p + 1))[p]? := by rw [h1]
          rw [List.getElem?_take_of_lt (by omega), List.getElem?_take_of_lt (by omega)] at this
          rw [this, List.getElem?_eq_getElem hlt, hne]
        refine ⟨L, hL, ?_, ?_, ?_, ?_⟩
        · have := congrArg (List.take p) h1
          rw [List.take_take, List.take_take] at this
          simpa [Nat.min_eq_left (Nat.le_succ p)] using this
        · intro k hk
          cases k with
          | zero => simpa using hLp
          | succ k =>
            have := h2 k (by simpa using hk)
            rw [List.getElem?_cons_succ, ← this]
            congr 1
            omega
        · intro k0 hk0 hall hk0ne
          cases k0 with
          | zero =>
            exfalso
            apply hk0ne
            simp only [Nat.add_zero, List.getElem?_eq_getElem hlt, List.getElem?_cons_zero, hne]
          | succ k0 =>
            have := h3 k0 (by simpa using hk0)
              (by
                intro k hk
                have := hall (k + 1) (by omega)
                rw [List.getElem?_cons_succ] at this
                rw [← this]; congr 1; omega)
              (by
                intro hc
                apply hk0ne
                rw [List.getElem?_cons_succ, ← hc]; congr 1; omega)
            rw [this, List.drop_succ_cons]
            congr 2
            omega
        · intro hall
          apply h4
          intro k hk
          have := hall (k + 1) (by simpa using hk)
          rw [List.getElem?_cons_succ] at this
          rw [← this]; congr 1; omega
    · rw [if_neg (by exact_mod_cast hlt)]
      have hpe : p = log.length := by omega
      have h0 : log[p + 0]? ≠ (e :: rest)[0]? := by
        simp only [Nat.add_zero, List.getElem?_cons_zero]
        rw [List.getElem?_eq_none (by omega)]
        intro hc; cases hc
      refine ⟨_, rfl, ?_, ?_, ?_, ?_⟩
      · rw [List.take_left' hpe.symm, hpe, List.take_length]
      · intro k _
        rw [List.getElem?_append_right (by omega)]
        congr 1
        omega
      · intro k0 _ hall _
        rcases Nat.eq_zero_or_pos k0 with hz | hpos
        · subst hz
          rw [Nat.add_zero, hpe, List.take_length]; rfl
        · exact absurd (hall 0 hpos) h0
      · intro hall
        exact absurd (hall 0 (by simp)) h0

theorem index_congr {α : Type} (s t : List α) (i : Int)
    (h : s[i.toNat]? = t[i.toNat]?) : index s i = index t i := by
  unfold index
  rw [h]

theorem index_eq_getElem? {α : Type} (s : List α) (i : Int) (n : Nat) (x : α)
    (h : i = (n : Int)) : index s i = .ok x ↔ s[n]? = some x := by
  subst h
  exact index_natCast s n x

theorem index_ne_getElem? {α : Type} (s : List α) (i : Int) (n : Nat) (x : α)
    (h : i = (n : Int)) : index s i ≠ .ok x ↔ s[n]? ≠ some x := by
  rw [Ne, Ne, index_eq_getElem? s i n x h]

/-- C3: for a request that is not stale and passes the consistency check, the
merge leaves a log `L` (the log of the state that `AppendEnties` returns) in
which the entries up to `PrevLogIndex` are unchanged, the incoming entries sit
from `PrevLogIndex + 1` on, the old log is cut exactly at the first offset
where it has no entry or a different entry, and nothing is changed when there
is no such offset, as for a heartbeat.  The handler returns when the peer is
not Leader and `checkLog` accepts `L`; on a Leader it waits at the send on
`heartbeatChan`. -/
theorem AppendEnties_merge (rf : Raft) (args : AppendEntiesArgs) (reply : AppendEntiesReply)
    (hterm : rf.currentTerm ≤ args.Term) (h0 : 0 ≤ args.PrevLogIndex)
    (hlast : args.PrevLogIndex ≤ (rf.log.length : Int) - 1)
    (hprev : ∃ p, index rf.log args.PrevLogIndex = .ok p ∧ p.Term = args.PrevLogTerm) :
    ∃ L, appendLoop rf.log args.PrevLogIndex 0 args.Entries = .ok L ∧
      (∀ rf1 reply1, AppendEnties rf args reply = .ok (rf1, reply1) →
        rf1.log = L ∧ reply1.Success = true) ∧
      (rf.state ≠ RaftState.StateLeader → checkLogFrom 0 L = .ok () →
        ∃ rf1 reply1, AppendEnties rf args reply = .ok (rf1, reply1)) ∧
      (rf.state = RaftState.StateLeader →
        AppendEnties rf args reply = .error Crash.blocked) ∧
      (∀ i : Int, 0 ≤ i → i ≤ args.PrevLogIndex → index L i = index rf.log i) ∧
      (∀ (k : Nat) (e : Log), args.Entries[k]? = some e →
        index L (args.PrevLogIndex + 1 + (k : Int)) = .ok e) ∧
      (∀ (k0 : Nat) (e0 : Log), args.Entries[k0]? = some e0 →
        (∀ (k : Nat) (e : Log), k < k0 → args.Entries[k]? = some e →
          index rf.log (args.PrevLogIndex + 1 + (k : Int)) = .ok e) →
        index rf.log (args.PrevLogIndex + 1 + (k0 : Int)) ≠ .ok e0 →
        L = rf.log.take (args.PrevLogIndex + 1 + (k0 : Int)).toNat ++ args.Entries.drop k0) ∧
      ((∀ (k : Nat) (e : Log), args.Entries[k]? = some e →
          index rf.log (args.PrevLogIndex + 1 + (k : Int)) = .ok e) → L = rf.log) ∧
      (args.Entries = [] → L = rf.log) := by
  obtain ⟨L, hL, h1, h2, h3, h4⟩ :=
    appendLoop_spec rf.log args.PrevLogIndex args.Entries 0 (args.PrevLogIndex + 1).toNat
      (by push_cast; omega) (by omega)
  have hlog := (rpcRuleForAllServer_log rf args.Term).1
  have hacc : rf.state ≠ RaftState.StateLeader →
      AppendEnties rf args reply = appendAccept (rpcRuleForAllServer rf args.Term) args reply :=
    fun hrole => (AppendEnties_check rf args reply hterm hrole h0).1 hprev
  have hpos : ∀ k : Nat, args.PrevLogIndex + 1 + (k : Int) =
      (((args.PrevLogIndex + 1).toNat + k : Nat) : Int) := by
    intro k; push_cast; omega
  have hsome : ∀ (k : Nat) (e : Log), args.Entries[k]? = some e → k < args.Entries.length := by
    intro k e hk
    exact (List.getElem?_eq_some_iff.mp hk).1
  refine ⟨L, hL, ?_, ?_, AppendEnties_leader rf args reply hterm, ?_, ?_, ?_, ?_, ?_⟩
  · intro rf1 reply1 hres
    by_cases hrole : rf.state = RaftState.StateLeader
    · rw [AppendEnties_leader rf args reply hterm hrole] at hres
      cases hres
    · rw [hacc hrole] at hres
      obtain ⟨L2, hL2, _, hlog1, _, _, _, _, _, hs, _⟩ := appendAccept_ok _ _ _ _ _ hres
      rw [hlog, hL] at hL2
      cases hL2
      exact ⟨hlog1, hs⟩
  · intro hrole hck
    rw [hacc hrole]
    exact appendAccept_returns _ _ _ L (by rw [hlog]; exact hL) hck
  · intro i hi0 hip
    apply index_congr
    have hlt : i.toNat < (args.PrevLogIndex + 1).toNat := by omega
    have := congrArg (fun l : List Log => l[i.toNat]?) h1
    simp only at this
    rw [List.getElem?_take_of_lt hlt, List.getElem?_take_of_lt hlt] at this
    exact this
  · intro k e hk
    rw [index_eq_getElem? L _ _ e (hpos k), h2 k (hsome k e hk), hk]
  · intro k0 e0 hk0 hall hne
    have := h3 k0 (hsome k0 e0 hk0)
      (by
        intro k hk
        have hklt : k < args.Entries.length := by
          have := hsome k0 e0 hk0
          omega
        have hke : args.Entries[k]? = some args.Entries[k] := List.getElem?_eq_getElem hklt
        have := hall k _ hk hke
        rw [index_eq_getElem? rf.log _ _ _ (hpos k)] at this
        rw [this, hke])
      (by
        rw [index_ne_getElem? rf.log _ _ e0 (hpos k0)] at hne
        rw [hk0]; exact hne)
    rw [this, hpos k0, Int.toNat_ofNat]
  · intro hall
    apply h4
    intro k hk
    have hke : args.Entries[k]? = some args.Entries[k] := List.getElem?_eq_getElem hk
    have := hall k _ hke
    rw [index_eq_getElem? rf.log _ _ _ (hpos k)] at this
    rw [this, hke]
  · intro hnil
    apply h4
    intro k hk
    rw [hnil] at hk
    simp at hk

/-- The consistency check fails exactly when the peer's last index is below
`PrevLogIndex` or its entry at `PrevLogIndex` has another term. -/
theorem check_fails_iff (log : List Log) (prev prevTerm : Int) (h0 : 0 ≤ prev) :
    (¬ ∃ p, index log prev = .ok p ∧ p.Term = prevTerm) ↔
      ((log.length : Int) - 1 < prev ∨ ∃ p, index log prev = .ok p ∧ p.Term ≠ prevTerm) := by
  constructor
  · intro hno
    by_cases hlt : prev < (log.length : Int)
    · obtain ⟨p, hp⟩ := index_ok_of_lt log prev h0 hlt
      right
      refine ⟨p, hp, ?_⟩
      intro hpt
      exact hno ⟨p, hp, hpt⟩
    · left; omega
  · rintro (hlt | ⟨p, hp, hpt⟩) ⟨q, hq, hqt⟩
    · have := index_ok_lt _ _ _ hq
      omega
    · rw [hp] at hq
      cases hq
      exact hpt hqt

/-- C5: for a request that is not stale and has a non-negative `PrevLogIndex`,
the reply has `Success = false` exactly when the peer's last index is below
`PrevLogIndex` or the term of its entry at `PrevLogIndex` differs from
`PrevLogTerm`; the log, the commit index and the saved blob are then as before
the call, and the reply carries the peer's resulting term.  On a peer that is
not Leader and for `PrevLogIndex` below the largest `int` the handler does
return such a reply.  On a Leader the handler waits at the send on
`heartbeatChan`, and with `PrevLogIndex` the largest `int` the sum of the
length test wraps and the index expression fails. -/
theorem AppendEnties_refuse_iff (rf : Raft) (args : AppendEntiesArgs)
    (reply : AppendEntiesReply)
    (hterm : rf.currentTerm ≤ args.Term) (h0 : 0 ≤ args.PrevLogIndex) :
    (rf.state ≠ RaftState.StateLeader → args.PrevLogIndex < MaxInt64 →
      ((rf.log.length : Int) - 1 < args.PrevLogIndex ∨
        ∃ p, index rf.log args.PrevLogIndex = .ok p ∧ p.Term ≠ args.PrevLogTerm) →
      ∃ rf1 reply1, AppendEnties rf args reply = .ok (rf1, reply1) ∧
        reply1.Success = false) ∧
    (∀ rf1 reply1, AppendEnties rf args reply = .ok (rf1, reply1) →
      (reply1.Success = false ↔
        ((rf.log.length : Int) - 1 < args.PrevLogIndex ∨
          ∃ p, index rf.log args.PrevLogIndex = .ok p ∧ p.Term ≠ args.PrevLogTerm)) ∧
      (reply1.Success = false →
        rf1.log = rf.log ∧ rf1.commitIndex = rf.commitIndex ∧
        rf1.persister = rf.persister ∧ reply1.Term = rf1.currentTerm ∧
        rf1.currentTerm = args.Term)) ∧
    (rf.state = RaftState.StateLeader →
      AppendEnties rf args reply = .error Crash.blocked) ∧
    (rf.state ≠ RaftState.StateLeader → args.PrevLogIndex = MaxInt64 →
      (rf.log.length : Int) ≤ MaxInt64 →
      AppendEnties rf args reply = .error Crash.indexOutOfRange) := by
  obtain ⟨hl, hc, hp⟩ := rpcRuleForAllServer_log rf args.Term
  have hct : (rpcRuleForAllServer rf args.Term).currentTerm = args.Term := by
    rw [rpcRuleForAllServer_currentTerm, max_eq_right hterm]
  refine ⟨?_, ?_, AppendEnties_leader rf args reply hterm,
    AppendEnties_wraps rf args reply hterm⟩
  · intro hrole hmax hcond
    have hno := (check_fails_iff rf.log args.PrevLogIndex args.PrevLogTerm h0).mpr hcond
    exact ⟨_, _, (AppendEnties_check rf args reply hterm hrole h0).2 hmax hno, rfl⟩
  · intro rf1 reply1 hres
    rcases AppendEnties_ok_cases rf args reply rf1 reply1 hres with
      ⟨hs, _, _⟩ | ⟨_, _, hpass, hres⟩ | ⟨_, _, _, hpass, hres⟩
    · omega
    · have hcond := (check_fails_iff rf.log args.PrevLogIndex args.PrevLogTerm h0).mp hpass
      unfold appendRefuse at hres
      cases hres
      exact ⟨⟨fun _ => hcond, fun _ => rfl⟩, fun _ => ⟨hl, hc, hp, rfl, hct⟩⟩
    · obtain ⟨L, _, _, _, _, _, _, _, _, hs, _⟩ := appendAccept_ok _ _ _ _ _ hres
      have hnc := (check_fails_iff rf.log args.PrevLogIndex args.PrevLogTerm h0).not.mp
        (not_not.mpr hpass)
      constructor
      · constructor
        · intro hf; rw [hs] at hf; cases hf
        · intro hcond; exact absurd hcond hnc
      · intro hf; rw [hs] at hf; cases hf

/-- When the incoming entries agree with the old log at every position up to
`c` that they cover, the merge loop leaves the positions up to `c` as they
were. -/
theorem appendLoop_keeps (log : List Log) (prev : Int) (rest : List Log) (i p : Nat)
    (hp : prev + 1 + (i : Int) = (p : Int)) (hle : p ≤ log.length)
    (c : Nat) (hc : c < log.length)
    (hagree : ∀ k, k < rest.length → p + k ≤ c → log[p + k]? = rest[k]?) :
    ∃ L, appendLoop log prev i rest = .ok L ∧ ∀ j, j ≤ c → L[j]? = log[j]? := by
  obtain ⟨L, hL, _, _, h3, h4⟩ := appendLoop_spec log prev rest i p hp hle
  refine ⟨L, hL, ?_⟩
  intro j hj
  by_cases hall : ∀ k, k < rest.length → log[p + k]? = rest[k]?
  · rw [h4 hall]
  · push_neg at hall
    classical
    have hk0 := Nat.find_spec hall
    have hmin : ∀ k, k < Nat.find hall → log[p + k]? = rest[k]? := by
      intro k hk
      have := Nat.find_min hall hk
      push_neg at this
      exact this (by omega)
    have hgt : c < p + Nat.find hall := by
      by_contra hcon
      exact hk0.2 (hagree _ hk0.1 (by omega))
    rw [h3 _ hk0.1 hmin hk0.2]
    rw [List.getElem?_append_left (by rw [List.length_take]; omega)]
    exact List.getElem?_take_of_lt (by omega)

/-- C4 (amended): an `AppendEnties` call that returns leaves every entry up to
the commit index in place, provided the incoming entries agree with the log at
every position up to the commit index that they cover. -/
theorem AppendEnties_keeps_committed (rf : Raft) (args : AppendEntiesArgs)
    (reply : AppendEntiesReply) (rf1 : Raft) (reply1 : AppendEntiesReply)
    (hci : rf.commitIndex ≤ (rf.log.length : Int) - 1)
    (hres : AppendEnties rf args reply = .ok (rf1, reply1))
    (hagree : ∀ (k : Nat) (e : Log), args.Entries[k]? = some e →
      args.PrevLogIndex + 1 + (k : Int) ≤ rf.commitIndex →
      index rf.log (args.PrevLogIndex + 1 + (k : Int)) = .ok e) :
    ∀ i : Int, 0 ≤ i → i ≤ rf.commitIndex →
      ∃ e, index rf.log i = .ok e ∧ index rf1.log i = .ok e := by
  intro i hi0 hic
  obtain ⟨e, he⟩ := index_ok_of_lt rf.log i hi0 (by omega)
  refine ⟨e, he, ?_⟩
  have hlog := (rpcRuleForAllServer_log rf args.Term).1
  rcases AppendEnties_ok_cases rf args reply rf1 reply1 hres with
    ⟨_, hsame, _⟩ | ⟨hterm, _, hpass, hres⟩ | ⟨hterm, _, h0, hpass, hres⟩
  · rw [hsame]; exact he
  · unfold appendRefuse at hres
    cases hres
    rw [hlog]; exact he
  · obtain ⟨L, hL, _, hlog1, _⟩ := appendAccept_ok _ _ _ _ _ hres
    rw [hlog] at hL
    obtain ⟨p, hp, _⟩ := hpass
    have hpb := index_ok_lt _ _ _ hp
    obtain ⟨L2, hL2, hkeep⟩ := appendLoop_keeps rf.log args.PrevLogIndex args.Entries 0
      (args.PrevLogIndex + 1).toNat (by push_cast; omega) (by omega)
      rf.commitIndex.toNat (by omega)
      (by
        intro k hk hkc
        have hke : args.Entries[k]? = some args.Entries[k] := List.getElem?_eq_getElem hk
        have := hagree k _ hke (by omega)
        rw [index_eq_getElem? rf.log _ ((args.PrevLogIndex + 1).toNat + k) _
          (by push_cast; omega)] at this
        rw [this, hke])
    rw [hL] at hL2
    cases hL2
    rw [hlog1, index_congr L rf.log i (hkeep i.toNat (by omega))]
    exact he

/-! ## Commit advancement -/

/-- The loop of `updateCommitIndex` keeps the pair `(newCommitIndex, count)` in
one of two shapes: nothing counted and the candidate still at the commit
index, or something counted and the candidate above the commit index. -/
theorem updateCommitIndexStep_inv (c : Int) (xs : List Int) :
    ∀ acc : Int × Int,
      ((acc.2 = 0 ∧ acc.1 = c) ∨ (0 < acc.2 ∧ c < acc.1)) →
      (((xs.foldl (updateCommitIndexStep c) acc).2 = 0 ∧
          (xs.foldl (updateCommitIndexStep c) acc).1 = c) ∨
        (0 < (xs.foldl (updateCommitIndexStep c) acc).2 ∧
          c < (xs.foldl (updateCommitIndexStep c) acc).1)) := by
  induction xs with
  | nil => intro acc h; exact h
  | cons x xs ih =>
    intro acc h
    rw [List.foldl_cons]
    apply ih
    unfold updateCommitIndexStep
    split
    · rename_i hx
      simp only
      split
      · right
        refine ⟨?_, by simpa using hx⟩
        show 0 < acc.2 + 1
        rcases h with h | h <;> omega
      · rename_i hn
        right
        push_neg at hn
        constructor
        · show 0 < acc.2 + 1
          rcases h with h | h <;> omega
        · show c < acc.1
          rcases h with h | h
          · exact absurd h.2 hn.1
          · exact h.2
    · exact h

theorem updateCommitIndexLoop_inv (rf : Raft) :
    ((updateCommitIndexLoop rf).2 = 0 ∧ (updateCommitIndexLoop rf).1 = rf.commitIndex) ∨
      (0 < (updateCommitIndexLoop rf).2 ∧ rf.commitIndex < (updateCommitIndexLoop rf).1) :=
  updateCommitIndexStep_inv rf.commitIndex rf.nextIndex (rf.commitIndex, 0) (Or.inl ⟨rfl, rfl⟩)

/-- The result of `updateCommitIndex` when it returns: the state is untouched,
or the commit index is the candidate of the loop and the new state has been
saved. -/
theorem updateCommitIndex_ok (rf rf1 : Raft) (h : updateCommitIndex rf = .ok rf1) :
    rf1 = rf ∨
      (rf1 = persist { rf with commitIndex := (updateCommitIndexLoop rf).1 } ∧
        (updateCommitIndexLoop rf).2 > ((rf.peers / 2 : Nat) : Int) ∧
        rf.state = RaftState.StateLeader ∧
        ∃ e, index rf.log (updateCommitIndexLoop rf).1 = .ok e ∧ e.Term = rf.currentTerm) := by
  unfold updateCommitIndex at h
  simp only at h
  split at h
  · rename_i hg
    split at h
    · cases h
    · rename_i e he
      split at h
      · rename_i het
        cases h
        right
        exact ⟨rfl, hg.1, hg.2, e, he, het⟩
      · cases h; left; rfl
  · cases h; left; rfl

/-- C8: when `updateCommitIndex` returns, it has either left the state as it
was or raised the commit index to an index `N` above the old one, on a leader,
with `log[N].Term = currentTerm`; the commit index never decreases.  The only
way not to return is a candidate index outside the log, met on a leader after
the count test has passed. -/
theorem updateCommitIndex_current_term_only (rf : Raft) :
    (∀ rf1, updateCommitIndex rf = .ok rf1 →
      (rf1 = rf ∨
        (rf.commitIndex < rf1.commitIndex ∧ rf.state = RaftState.StateLeader ∧
          ∃ e, index rf.log rf1.commitIndex = .ok e ∧ e.Term = rf.currentTerm)) ∧
      rf.commitIndex ≤ rf1.commitIndex ∧
      rf1.log = rf.log ∧ rf1.currentTerm = rf.currentTerm ∧ rf1.state = rf.state) ∧
    (∀ c, updateCommitIndex rf = .error c →
      rf.state = RaftState.StateLeader ∧
      (updateCommitIndexLoop rf).2 > ((rf.peers / 2 : Nat) : Int) ∧
      ((updateCommitIndexLoop rf).1 < 0 ∨
        (rf.log.length : Int) ≤ (updateCommitIndexLoop rf).1)) := by
  constructor
  · intro rf1 h
    rcases updateCommitIndex_ok rf rf1 h with h1 | ⟨h1, hcnt, hst, e, he, het⟩
    · subst h1
      exact ⟨Or.inl rfl, le_refl _, rfl, rfl, rfl⟩
    · have hgt : rf.commitIndex < (updateCommitIndexLoop rf).1 := by
        rcases updateCommitIndexLoop_inv rf with hi | hi
        · have : (0 : Int) ≤ ((rf.peers / 2 : Nat) : Int) := Int.ofNat_nonneg _
          omega
        · exact hi.2
      subst h1
      exact ⟨Or.inr ⟨hgt, hst, e, he, het⟩, le_of_lt hgt, rfl, rfl, rfl⟩
  · intro c h
    unfold updateCommitIndex at h
    simp only at h
    split at h
    · rename_i hg
      split at h
      · rename_i c2 hc2
        exact ⟨hg.2, hg.1, (index_error_iff _ _).mp ⟨c2, hc2⟩⟩
      · split at h <;> cases h
    · cases h

/-! ## Terms under every operation -/

theorem RequestVote_frame (rf : Raft) (args : RequestVoteArgs) (reply : RequestVoteReply)
    (rf1 : Raft) (reply1 : RequestVoteReply)
    (h : RequestVote rf args reply = .ok (rf1, reply1)) :
    rf1.currentTerm = (rpcRuleForAllServer rf args.Term).currentTerm ∧
    rf1.state = (rpcRuleForAllServer rf args.Term).state ∧
    (reply1.VoteGranted = false → rf1.votedFor = (rpcRuleForAllServer rf args.Term).votedFor) ∧
    (reply1.VoteGranted = true → rf1.votedFor = args.CandidateId) ∧
    reply1.Term = rf1.currentTerm := by
  unfold RequestVote at h
  simp only at h
  split at h
  · cases h
    exact ⟨rfl, rfl, fun _ => rfl, fun hg => (by cases hg), rfl⟩
  · split at h
    · split at h
      · cases h
      · cases h
        exact ⟨rfl, rfl, fun hg => (by cases hg), fun _ => rfl, rfl⟩
      · cases h
        exact ⟨rfl, rfl, fun _ => rfl, fun hg => (by cases hg), rfl⟩
    · cases h
      exact ⟨rfl, rfl, fun _ => rfl, fun hg => (by cases hg), rfl⟩

theorem sendRequestVote_frame (rf : Raft) (server : Int) (args : RequestVoteArgs)
    (reply : RequestVoteReply) :
    (sendRequestVote rf server args true reply).1.currentTerm =
        (rpcRuleForAllServer rf reply.Term).currentTerm ∧
    (sendRequestVote rf server args true reply).1.state =
        (rpcRuleForAllServer rf reply.Term).state ∧
    (sendRequestVote rf server args true reply).1.votedFor =
        (rpcRuleForAllServer rf reply.Term).votedFor ∧
    (sendRequestVote rf server args false reply).1 = rf := by
  unfold sendRequestVote
  simp only [if_true]
  refine ⟨?_, ?_, ?_, ?_⟩
  · split <;> rfl
  · split <;> rfl
  · split <;> rfl
  · rfl

theorem sendAppendEntiesSuccess_frame (rf : Raft) (server : Int) (reply : AppendEntiesReply)
    (rf1 : Raft) (h : sendAppendEntiesSuccess rf server reply = .ok rf1) :
    rf1.currentTerm = rf.currentTerm ∧ rf1.state = rf.state ∧ rf1.votedFor = rf.votedFor ∧
    rf1.log = rf.log := by
  unfold sendAppendEntiesSuccess at h
  split at h
  · cases h
  · simp only at h
    split at h
    · cases h
    · split at h
      · cases h
      · split at h
        · cases h
        · rcases updateCommitIndex_ok _ _ h with h1 | ⟨h1, _⟩
          · rw [h1]; exact ⟨rfl, rfl, rfl, rfl⟩
          · rw [h1]; exact ⟨rfl, rfl, rfl, rfl⟩

theorem sendAppendEnties_frame (rf : Raft) (server : Int) (args : AppendEntiesArgs)
    (ok : Bool) (reply : AppendEntiesReply) (rf1 : Raft)
    (h : sendAppendEnties rf server args ok reply = .ok rf1) :
    (ok = true → reply.Term > rf.currentTerm →
      rf1 = resetStateAndConvertToFollower rf reply.Term) ∧
    (¬ (ok = true ∧ reply.Term > rf.currentTerm) →
      rf1.currentTerm = rf.currentTerm ∧ rf1.state = rf.state ∧
      rf1.votedFor = rf.votedFor ∧ rf1.log = rf.log) := by
  unfold sendAppendEnties at h
  split at h
  · rename_i hok
    split at h
    · rename_i hgt
      cases h
      exact ⟨fun _ _ => rfl, fun hn => absurd ⟨hok, hgt⟩ hn⟩
    · rename_i hngt
      refine ⟨fun _ hgt => absurd hgt hngt, fun _ => ?_⟩
      split at h
      · exact sendAppendEntiesSuccess_frame _ _ _ _ h
      · split at h
        · cases h
        · simp only at h
          split at h
          · cases h
          · cases h
            exact ⟨rfl, rfl, rfl, rfl⟩
  · rename_i hok
    cases h
    exact ⟨fun h1 => absurd h1 hok, fun _ => ⟨rfl, rfl, rfl, rfl⟩⟩

theorem Start_frame (rf : Raft) (command : Payload) (rf1 : Raft) (res : Int × Int × Bool)
    (h : Start rf command = .ok (rf1, res)) :
    rf1.currentTerm = rf.currentTerm ∧ rf1.state = rf.state ∧ rf1.votedFor = rf.votedFor ∧
    rf1.commitIndex = rf.commitIndex := by
  unfold Start at h
  split at h
  · cases h
    exact ⟨rfl, rfl, rfl, rfl⟩
  · simp only at h
    split at h
    · cases h
    · split at h
      · cases h
      · cases h
        exact ⟨rfl, rfl, rfl, rfl⟩

/-- A failing index expression fails as an index out of range. -/
theorem index_error_eq {α : Type} (s : List α) (i : Int) (c : Crash)
    (h : index s i = .error c) : c = Crash.indexOutOfRange := by
  unfold index at h
  split at h
  · split at h
    · cases h
    · cases h; rfl
  · cases h; rfl

/-- The only ways in which `AppendEnties` does not return, all on a request
that is not stale: the send on `heartbeatChan` on a Leader; on another peer the
index expression of the consistency check, for a `PrevLogIndex` that is
negative or the largest `int`; and the assertion of `checkLog` on the merged
log. -/
theorem AppendEnties_error (rf : Raft) (args : AppendEntiesArgs) (reply : AppendEntiesReply)
    (c : Crash) (h : AppendEnties rf args reply = .error c) :
    rf.currentTerm ≤ args.Term ∧
    ((rf.state = RaftState.StateLeader ∧ c = Crash.blocked) ∨
      (rf.state ≠ RaftState.StateLeader ∧
        (args.PrevLogIndex < 0 ∨ MaxInt64 ≤ args.PrevLogIndex) ∧
        c = Crash.indexOutOfRange) ∨
      (rf.state ≠ RaftState.StateLeader ∧
        (∃ p, index rf.log args.PrevLogIndex = .ok p ∧ p.Term = args.PrevLogTerm) ∧
        ∃ L, appendLoop rf.log args.PrevLogIndex 0 args.Entries = .ok L ∧
          checkLogFrom 0 L = .error c)) := by
  have hterm : rf.currentTerm ≤ args.Term := by
    by_contra hs
    unfold AppendEnties AppendEntiesBody at h
    rw [if_pos (by omega)] at h
    cases h
  refine ⟨hterm, ?_⟩
  have hlog := (rpcRuleForAllServer_log rf args.Term).1
  by_cases hrole : rf.state = RaftState.StateLeader
  · left
    rw [AppendEnties_leader rf args reply hterm hrole] at h
    cases h
    exact ⟨hrole, rfl⟩
  · right
    by_cases hpass : ∃ p, index rf.log args.PrevLogIndex = .ok p ∧ p.Term = args.PrevLogTerm
    · right
      obtain ⟨p, hp, hpt⟩ := hpass
      have hpb := index_ok_lt _ _ _ hp
      rw [(AppendEnties_check rf args reply hterm hrole hpb.1).1 ⟨p, hp, hpt⟩] at h
      obtain ⟨L, hL, _⟩ := appendLoop_spec rf.log args.PrevLogIndex args.Entries 0
        (args.PrevLogIndex + 1).toNat (by push_cast; omega) (by omega)
      refine ⟨hrole, ⟨p, hp, hpt⟩, L, hL, ?_⟩
      unfold appendAccept at h
      rw [hlog, hL] at h
      simp only at h
      split at h
      · rename_i c2 hc2
        cases h
        unfold checkLog at hc2
        split at hc2 <;> exact hc2
      · cases h
    · left
      by_cases hin : 0 ≤ args.PrevLogIndex ∧ args.PrevLogIndex < MaxInt64
      · rw [(AppendEnties_check rf args reply hterm hrole hin.1).2 hin.2 hpass] at h
        cases h
      · refine ⟨hrole, by omega, ?_⟩
        unfold AppendEnties AppendEntiesBody at h
        rw [if_neg (by omega), if_neg hrole] at h
        simp only [hlog] at h
        split at h
        · cases hi : index rf.log args.PrevLogIndex with
          | error c2 =>
            rw [hi] at h
            cases h
            exact index_error_eq _ _ _ hi
          | ok p =>
            rw [hi] at h
            simp only at h
            by_cases hpt : p.Term = args.PrevLogTerm
            · exact absurd ⟨p, hi, hpt⟩ hpass
            · rw [if_neg hpt] at h
              cases h
        · cases h

/-- When one of the four handlers handles a message whose term `T` exceeds the
peer's term to the end, the peer is left at term `T` as a follower; `votedFor`
is then the no-peer marker, except that a `RequestVote` call that grants the
vote records the candidate.  A vote request on a non-empty log and every reply
are always handled to the end.  An append request is not handled to the end on
a Leader, where the send on `heartbeatChan` has no receiver, and on another
peer when the index expression of the consistency check fails or `checkLog`
stops the process on the merged log.  `rpcRuleForAllServer` with a term not
above the peer's term changes nothing. -/
theorem term_rule_applied (rf : Raft) :
    (∀ T, T ≤ rf.currentTerm → rpcRuleForAllServer rf T = rf) ∧
    (∀ (args : RequestVoteArgs) (reply : RequestVoteReply), args.Term > rf.currentTerm →
      (rf.log ≠ [] → ∃ rf1 reply1, RequestVote rf args reply = .ok (rf1, reply1)) ∧
      ∀ rf1 reply1, RequestVote rf args reply = .ok (rf1, reply1) →
        rf1.currentTerm = args.Term ∧ rf1.state = RaftState.StateFollower ∧
        (reply1.VoteGranted = false → rf1.votedFor = None) ∧
        (reply1.VoteGranted = true → rf1.votedFor = args.CandidateId)) ∧
    (∀ (args : AppendEntiesArgs) (reply : AppendEntiesReply),
      args.Term > rf.currentTerm →
      (rf.state = RaftState.StateLeader →
        AppendEnties rf args reply = .error Crash.blocked) ∧
      (∀ c, AppendEnties rf args reply = .error c →
        (rf.state = RaftState.StateLeader ∧ c = Crash.blocked) ∨
        (rf.state ≠ RaftState.StateLeader ∧
          (args.PrevLogIndex < 0 ∨ MaxInt64 ≤ args.PrevLogIndex) ∧
          c = Crash.indexOutOfRange) ∨
        (rf.state ≠ RaftState.StateLeader ∧
          (∃ p, index rf.log args.PrevLogIndex = .ok p ∧ p.Term = args.PrevLogTerm) ∧
          ∃ L, appendLoop rf.log args.PrevLogIndex 0 args.Entries = .ok L ∧
            checkLogFrom 0 L = .error c)) ∧
      ∀ rf1 reply1, AppendEnties rf args reply = .ok (rf1, reply1) →
        rf.state ≠ RaftState.StateLeader ∧
        rf1.currentTerm = args.Term ∧ rf1.state = RaftState.StateFollower ∧
        rf1.votedFor = None) ∧
    (∀ (server : Int) (args : RequestVoteArgs) (reply : RequestVoteReply),
      reply.Term > rf.currentTerm →
        (sendRequestVote rf server args true reply).1.currentTerm = reply.Term ∧
        (sendRequestVote rf server args true reply).1.state = RaftState.StateFollower ∧
        (sendRequestVote rf server args true reply).1.votedFor = None ∧
        (sendRequestVote rf server args true reply).2 = false) ∧
    (∀ (server : Int) (args : AppendEntiesArgs) (reply : AppendEntiesReply),
      reply.Term > rf.currentTerm →
        ∃ rf1, sendAppendEnties rf server args true reply = .ok rf1 ∧
          rf1.currentTerm = reply.Term ∧ rf1.state = RaftState.StateFollower ∧
          rf1.votedFor = None) := by
  refine ⟨fun T hT => rpcRuleForAllServer_of_le rf T hT, ?_, ?_, ?_, ?_⟩
  · intro args reply hgt
    obtain ⟨g1, g2, g3⟩ := rpcRuleForAllServer_of_gt rf args.Term hgt
    constructor
    · intro hne
      have hlog := (rpcRuleForAllServer_log rf args.Term).1
      obtain ⟨x, hx, _⟩ := index_last rf.log hne
      have hreq : ∃ b, reqMoreUpToDate (rpcRuleForAllServer rf args.Term) args = .ok b := by
        unfold reqMoreUpToDate
        rw [hlog, hx]
        simp only
        split <;> exact ⟨_, rfl⟩
      obtain ⟨b, hb⟩ := hreq
      unfold RequestVote
      simp only
      have hv : (rpcRuleForAllServer rf args.Term).votedFor = -1 ∨
          (rpcRuleForAllServer rf args.Term).votedFor = args.CandidateId := Or.inl g3
      rw [if_neg (by rw [g1]; exact lt_irrefl _), if_pos hv, hb]
      cases b <;> exact ⟨_, _, rfl⟩
    · intro rf1 reply1 h
      obtain ⟨h1, h2, h3, h4, _⟩ := RequestVote_frame rf args reply rf1 reply1 h
      exact ⟨by rw [h1, g1], by rw [h2, g2], fun hf => by rw [h3 hf, g3], h4⟩
  · intro args reply hgt
    obtain ⟨g1, g2, g3⟩ := rpcRuleForAllServer_of_gt rf args.Term hgt
    refine ⟨AppendEnties_leader rf args reply (le_of_lt hgt),
      fun c hc => (AppendEnties_error rf args reply c hc).2, ?_⟩
    intro rf1 reply1 h
    obtain ⟨h1, h2, h3, _⟩ := AppendEnties_frame rf args reply rf1 reply1 h
    refine ⟨?_, by rw [h1, g1], by rw [h3, g2], by rw [h2, g3]⟩
    intro hrole
    rw [AppendEnties_leader rf args reply (le_of_lt hgt) hrole] at h
    cases h
  · intro server args reply hgt
    obtain ⟨g1, g2, g3⟩ := rpcRuleForAllServer_of_gt rf reply.Term hgt
    obtain ⟨h1, h2, h3, _⟩ := sendRequestVote_frame rf server args reply
    refine ⟨by rw [h1, g1], by rw [h2, g2], by rw [h3, g3], ?_⟩
    unfold sendRequestVote
    simp only [if_true]
    split
    · unfold judgeCandidateResult
      simp only [g2]
      simp
    · rfl
  · intro server args reply hgt
    refine ⟨resetStateAndConvertToFollower rf reply.Term, ?_, rfl, rfl, rfl⟩
    unfold sendAppendEnties
    simp only [if_true]
    rw [if_pos hgt]

/-- C10 (amended): none of `RequestVote`, `AppendEnties`, the reply handling of
`sendRequestVote` and `sendAppendEnties`, `Start` and `updateCommitIndex`
lowers `currentTerm`, and `resetCandidateState` raises it when it is below the
largest `int`: by exactly 1 when it is in the range of `int`.  At the largest
`int` the increment wraps to the smallest `int`. -/
theorem currentTerm_monotone (rf : Raft) :
    (∀ (args : RequestVoteArgs) (reply : RequestVoteReply) rf1 reply1,
      RequestVote rf args reply = .ok (rf1, reply1) → rf.currentTerm ≤ rf1.currentTerm) ∧
    (∀ (args : AppendEntiesArgs) (reply : AppendEntiesReply) rf1 reply1,
      AppendEnties rf args reply = .ok (rf1, reply1) → rf.currentTerm ≤ rf1.currentTerm) ∧
    (∀ (server : Int) (args : RequestVoteArgs) (ok : Bool) (reply : RequestVoteReply),
      rf.currentTerm ≤ (sendRequestVote rf server args ok reply).1.currentTerm) ∧
    (∀ (server : Int) (args : AppendEntiesArgs) (ok : Bool) (reply : AppendEntiesReply) rf1,
      sendAppendEnties rf server args ok reply = .ok rf1 →
        rf.currentTerm ≤ rf1.currentTerm) ∧
    (∀ (command : Payload) rf1 res, Start rf command = .ok (rf1, res) →
      rf.currentTerm ≤ rf1.currentTerm) ∧
    (∀ rf1, updateCommitIndex rf = .ok rf1 → rf.currentTerm ≤ rf1.currentTerm) ∧
    (rf.currentTerm < MaxInt64 → rf.currentTerm < (resetCandidateState rf).currentTerm) ∧
    (MinInt64 ≤ rf.currentTerm → rf.currentTerm < MaxInt64 →
      (resetCandidateState rf).currentTerm = rf.currentTerm + 1) ∧
    (rf.currentTerm = MaxInt64 → (resetCandidateState rf).currentTerm = MinInt64) := by
  refine ⟨?_, ?_, ?_, ?_, ?_, ?_, ?_, ?_, ?_⟩
  · intro args reply rf1 reply1 h
    exact (RequestVote_step rf args reply rf1 reply1 h).1
  · intro args reply rf1 reply1 h
    exact (AppendEnties_step rf args reply rf1 reply1 h).1
  · intro server args ok reply
    cases ok with
    | false =>
      rw [(sendRequestVote_frame rf server args reply).2.2.2]
    | true =>
      rw [(sendRequestVote_frame rf server args reply).1, rpcRuleForAllServer_currentTerm]
      exact le_max_left _ _
  · intro server args ok reply rf1 h
    obtain ⟨h1, h2⟩ := sendAppendEnties_frame rf server args ok reply rf1 h
    by_cases hc : ok = true ∧ reply.Term > rf.currentTerm
    · rw [h1 hc.1 hc.2]
      exact le_of_lt hc.2
    · rw [(h2 hc).1]
  · intro command rf1 res h
    rw [(Start_frame rf command rf1 res h).1]
  · intro rf1 h
    rcases updateCommitIndex_ok rf rf1 h with h1 | ⟨h1, _⟩
    · rw [h1]
    · rw [h1]; exact le_refl _
  · intro hlt
    show rf.currentTerm < wrapInt (rf.currentTerm + 1)
    by_cases hmin : MinInt64 ≤ rf.currentTerm + 1
    · rw [wrapInt_of_range _ hmin (by omega)]
      omega
    · have := (wrapInt_range (rf.currentTerm + 1)).1
      omega
  · intro hmin hlt
    show wrapInt (rf.currentTerm + 1) = rf.currentTerm + 1
    exact wrapInt_of_range _ (by omega) (by omega)
  · intro hmax
    show wrapInt (rf.currentTerm + 1) = MinInt64
    rw [hmax]
    exact wrapInt_succ_max

/-! ## One vote per term: the theorems -/

theorem grantedVotes_pairwise (reqs : List Request) :
    ∀ rf : Raft, (grantedVotes rf reqs).Pairwise
      (fun x y => x.1 = y.1 → x.2 ≠ -1 → x.2 = y.2) := by
  induction reqs with
  | nil => intro rf; simp [grantedVotes]
  | cons req rest ih =>
    intro rf
    unfold grantedVotes
    split
    · exact ih rf
    · exact List.Pairwise.nil
    · rename_i rf1 resp hh
      obtain ⟨_, _, h3⟩ := handleRequest_step rf req rf1 resp hh
      split
      · rename_i args reply
        split
        · rename_i hg
          refine List.Pairwise.cons ?_ (ih rf1)
          intro y hy he hne
          obtain ⟨_, b2⟩ := grantedVotes_bound rest rf1 y hy
          have e3 := h3 args reply rfl rfl hg
          have := b2 he.symm (by rw [e3]; exact hne)
          rw [this, e3]
        · exact ih rf1
      · exact ih rf1

/-- Every vote granted while handling a sequence of requests goes to the
`CandidateId` of a vote request of the sequence. -/
theorem grantedVotes_candidate (reqs : List Request) :
    ∀ (rf : Raft) (x : Int × Int), x ∈ grantedVotes rf reqs →
      ∃ args, Request.vote args ∈ reqs ∧ x.2 = args.CandidateId := by
  induction reqs with
  | nil => intro rf x hx; simp [grantedVotes] at hx
  | cons req rest ih =>
    intro rf x hx
    have tail : ∀ rf1, x ∈ grantedVotes rf1 rest →
        ∃ args, Request.vote args ∈ req :: rest ∧ x.2 = args.CandidateId := by
      intro rf1 hm
      obtain ⟨args, ha, hx2⟩ := ih rf1 x hm
      exact ⟨args, List.mem_cons_of_mem _ ha, hx2⟩
    unfold grantedVotes at hx
    split at hx
    · exact tail rf hx
    · simp at hx
    · rename_i rf1 resp hh
      split at hx
      · rename_i args reply
        split at hx
        · rcases List.mem_cons.mp hx with hx | hx
          · subst hx
            exact ⟨args, List.mem_cons_self _ _, rfl⟩
          · exact tail rf1 hx
        · exact tail rf1 hx
      · exact tail rf1 hx

/-- Among the votes that a peer grants while it handles any sequence of
requests, two votes granted at the same term go to the same candidate, provided
the candidate of the earlier one is not the no-peer marker `-1`. -/
theorem one_vote_per_term_of_ne (rf : Raft) (reqs : List Request) (i j : Nat) (t A B : Int)
    (hij : i < j)
    (hi : (grantedVotes rf reqs)[i]? = some (t, A))
    (hj : (grantedVotes rf reqs)[j]? = some (t, B))
    (hA : A ≠ None) : A = B := by
  have hp := grantedVotes_pairwise reqs rf
  rw [List.pairwise_iff_getElem] at hp
  obtain ⟨hi1, hi2⟩ := List.getElem?_eq_some_iff.mp hi
  obtain ⟨hj1, hj2⟩ := List.getElem?_eq_some_iff.mp hj
  have := hp i j hi1 hj1 hij
  rw [hi2, hj2] at this
  exact this rfl hA

/-- C1: a peer grants at most one vote per term.  Among the votes that a peer
grants while it handles any sequence of vote requests and append requests
(their handlers run to the end, or wait at the send on `heartbeatChan` and
run their rest later in the sequence), two votes granted at the same term go to
the same candidate; the candidates are peers, so every `CandidateId`, which
`broadcastRequestVoteRPC` fills with the sender's index `rf.me`, is not
negative. -/
theorem one_vote_per_term (rf : Raft) (reqs : List Request) (i j : Nat) (t A B : Int)
    (hreal : ∀ args, Request.vote args ∈ reqs → 0 ≤ args.CandidateId)
    (hij : i < j)
    (hi : (grantedVotes rf reqs)[i]? = some (t, A))
    (hj : (grantedVotes rf reqs)[j]? = some (t, B)) : A = B := by
  have hmem : (t, A) ∈ grantedVotes rf reqs := by
    obtain ⟨hlt, he⟩ := List.getElem?_eq_some_iff.mp hi
    rw [← he]
    exact List.getElem_mem hlt
  obtain ⟨args, ha, hx⟩ := grantedVotes_candidate reqs rf (t, A) hmem
  have h0 := hreal args ha
  have hA : A ≠ None := by
    have : A = args.CandidateId := hx
    unfold None
    omega
  exact one_vote_per_term_of_ne rf reqs i j t A B hij hi hj hA

/-- Witness for C1: candidate 1 asks a fresh peer twice in term 1 and is
granted the vote both times. -/
theorem one_vote_per_term_witness :
    (∀ args, Request.vote args ∈ [Request.vote voteForOne, Request.vote voteForOne] →
      0 ≤ args.CandidateId) ∧
    (0 : Nat) < 1 ∧
    (grantedVotes freshPeer [Request.vote voteForOne, Request.vote voteForOne])[0]? =
      some (1, 1) ∧
    (grantedVotes freshPeer [Request.vote voteForOne, Request.vote voteForOne])[1]? =
      some (1, 1) ∧
    (1 : Int) = 1 := by
  have hreal : ∀ args, Request.vote args ∈
      [Request.vote voteForOne, Request.vote voteForOne] → 0 ≤ args.CandidateId := by
    intro args h
    have : args = voteForOne := by simpa using h
    rw [this]
    decide
  exact ⟨hreal, by decide, by decide, by decide,
    one_vote_per_term freshPeer [Request.vote voteForOne, Request.vote voteForOne] 0 1 1 1 1
      hreal (by decide) (by decide) (by decide)⟩

/-- With `CandidateId = -1`, a value that no candidate sends, a fresh peer
that receives in term 1 a vote request with that id and then one from
candidate 1 grants both: the first grant stores `-1` in `votedFor`, which is
also the no-peer marker. -/
theorem marker_candidate_allows_second_vote :
    ¬ (∀ (rf : Raft) (reqs : List Request) (i j : Nat) (t A B : Int), i < j →
        (grantedVotes rf reqs)[i]? = some (t, A) →
        (grantedVotes rf reqs)[j]? = some (t, B) → A = B) := by
  intro h
  have := h freshPeer [Request.vote voteForNoPeer, Request.vote voteForOne] 0 1 1 (-1) 1
    (by decide) (by decide) (by decide)
  exact absurd this (by decide)

/-! ## Committed entries: the failing request -/

/-- C4 as stated fails: `committedPeer` has committed entry 1, and the request
`conflictingAppend` passes the consistency check at the sentinel and carries
another entry for index 1; the handler returns with entry 1 replaced and
entry 2 dropped. -/
theorem AppendEnties_rewrites_committed :
    ¬ (∀ (rf : Raft) (args : AppendEntiesArgs) (reply : AppendEntiesReply) (rf1 : Raft)
        (reply1 : AppendEntiesReply),
        rf.commitIndex ≤ (rf.log.length : Int) - 1 →
        AppendEnties rf args reply = .ok (rf1, reply1) →
        ∀ i : Int, 0 ≤ i → i ≤ rf.commitIndex →
          ∃ e, index rf.log i = .ok e ∧ index rf1.log i = .ok e) := by
  intro h
  have hrun : AppendEnties committedPeer conflictingAppend zeroAppendReply =
      .ok ({ committedPeer with
              currentTerm := 2,
              log := [{ Term := 0, Command := 0, Index := 0 },
                      { Term := 2, Command := 9, Index := 1 }],
              persister := { raftstate :=
                [GobValue.int 2,
                 GobValue.logs [{ Term := 0, Command := 0, Index := 0 },
                                { Term := 2, Command := 9, Index := 1 }],
                 GobValue.int (-1), GobValue.int 1] } },
           { Term := 2, Success := true, NextIndex := 2 }) := rfl
  obtain ⟨e, h1, h2⟩ := h committedPeer conflictingAppend zeroAppendReply _ _ (by decide) hrun 1
    (by decide) (by decide)
  have e1 : index committedPeer.log 1 = .ok { Term := 1, Command := 7, Index := 1 } := rfl
  have e2 : index [({ Term := 0, Command := 0, Index := 0 } : Log),
      { Term := 2, Command := 9, Index := 1 }] 1 =
        .ok { Term := 2, Command := 9, Index := 1 } := rfl
  rw [e1] at h1
  cases h1
  rw [show index _ 1 = index [({ Term := 0, Command := 0, Index := 0 } : Log),
      { Term := 2, Command := 9, Index := 1 }] 1 from rfl, e2] at h2
  simp at h2

/-! ## Commit advancement: where the code leaves the commit rule -/

/-- C6 (defect in the code): on `laggingLeader` the index 2 is above the
commit index, is held by a quorum according to `matchIndex` and carries the
current term, and no larger index is such; `updateCommitIndex` takes the
smallest `nextIndex - 1` above the commit index as its only candidate, here 1,
finds an older term there and leaves the commit index at 0. -/
theorem updateCommitIndex_misses_largest :
    specCommittable laggingLeader 2 ∧
    (∀ N, specCommittable laggingLeader N → N ≤ 2) ∧
    updateCommitIndexLoop laggingLeader = (1, 3) ∧
    updateCommitIndex laggingLeader = .ok laggingLeader ∧
    laggingLeader.commitIndex = 0 := by
  refine ⟨⟨by decide, by decide, { Term := 2, Command := 8, Index := 2 }, rfl, rfl⟩,
    ?_, rfl, rfl, rfl⟩
  intro N hN
  obtain ⟨_, _, e, he, _⟩ := hN
  have := index_ok_lt _ _ _ he
  have hlen : (laggingLeader.log.length : Int) = 3 := rfl
  omega

/-- The commit rule reads `nextIndex`, not `matchIndex`: on `optimisticLeader`,
a state in which `nextIndex` is 3 for two peers that have acknowledged nothing
and which the writers of `nextIndex` do not produce, only the leader itself
has `matchIndex >= 2`, yet `updateCommitIndex` moves the commit index from 0
to 2. -/
theorem updateCommitIndex_ignores_matchIndex :
    optimisticLeader.commitIndex = 0 ∧
    matchCount optimisticLeader 2 = 1 ∧ quorum optimisticLeader = 2 ∧
    ∃ rf1, updateCommitIndex optimisticLeader = .ok rf1 ∧ rf1.commitIndex = 2 :=
  ⟨rfl, by decide, by decide, _, rfl, rfl⟩

/-! ## Witnesses -/

theorem freshPeer_indexed :
    ∀ (i : Nat) (e : Log), freshPeer.log[i]? = some e → e.Index = (i : Int) := by
  intro i e h
  cases i with
  | zero =>
    have : e = { Term := 0, Command := 0, Index := 0 } := by
      simpa [freshPeer] using h.symm
    rw [this]; rfl
  | succ n => simp [freshPeer] at h

/-- Witness for C2: candidate 1 asks a fresh peer for its vote in term 1. -/
theorem RequestVote_grant_iff_witness :
    freshPeer.log ≠ [] ∧
    (∀ (i : Nat) (e : Log), freshPeer.log[i]? = some e → e.Index = (i : Int)) ∧
    freshPeer.currentTerm ≤ voteForOne.Term ∧
    ∃ rf1 reply1 lastLog,
      RequestVote freshPeer voteForOne zeroVoteReply = .ok (rf1, reply1) ∧
      index freshPeer.log ((freshPeer.log.length : Int) - 1) = .ok lastLog ∧
      (reply1.VoteGranted = true ↔
        (((if voteForOne.Term > freshPeer.currentTerm then None else freshPeer.votedFor) = None ∨
          (if voteForOne.Term > freshPeer.currentTerm then None else freshPeer.votedFor) =
            voteForOne.CandidateId) ∧
         (voteForOne.LastLogTerm > lastLog.Term ∨
          (voteForOne.LastLogTerm = lastLog.Term ∧
            voteForOne.LastLogIndex ≥ (freshPeer.log.length : Int) - 1)))) ∧
      (reply1.VoteGranted = true → rf1.votedFor = voteForOne.CandidateId) ∧
      (reply1.VoteGranted = false →
        rf1.votedFor =
          (if voteForOne.Term > freshPeer.currentTerm then None else freshPeer.votedFor)) ∧
      rf1.currentTerm = voteForOne.Term ∧
      reply1.Term = rf1.currentTerm :=
  ⟨by decide, freshPeer_indexed, by decide,
    RequestVote_grant_iff freshPeer voteForOne zeroVoteReply (by decide) freshPeer_indexed
      (by decide)⟩

/-- Witness for C3: `replacingAppend` follows entry 1 of `committedPeer` and
replaces entry 2. -/
theorem AppendEnties_merge_witness :
    committedPeer.currentTerm ≤ replacingAppend.Term ∧
    0 ≤ replacingAppend.PrevLogIndex ∧
    replacingAppend.PrevLogIndex ≤ (committedPeer.log.length : Int) - 1 ∧
    (∃ p, index committedPeer.log replacingAppend.PrevLogIndex = .ok p ∧
      p.Term = replacingAppend.PrevLogTerm) ∧
    ∃ L, appendLoop committedPeer.log replacingAppend.PrevLogIndex 0 replacingAppend.Entries =
        .ok L ∧
      L = [{ Term := 0, Command := 0, Index := 0 }, { Term := 1, Command := 7, Index := 1 },
           { Term := 2, Command := 9, Index := 2 }, { Term := 2, Command := 10, Index := 3 }] ∧
      (∀ rf1 reply1, AppendEnties committedPeer replacingAppend zeroAppendReply =
          .ok (rf1, reply1) → rf1.log = L ∧ reply1.Success = true) ∧
      (checkLogFrom 0 L = .ok () →
        ∃ rf1 reply1, AppendEnties committedPeer replacingAppend zeroAppendReply =
          .ok (rf1, reply1)) := by
  have hp : ∃ p, index committedPeer.log replacingAppend.PrevLogIndex = .ok p ∧
      p.Term = replacingAppend.PrevLogTerm := ⟨{ Term := 1, Command := 7, Index := 1 }, rfl, rfl⟩
  obtain ⟨L, hL, h1, h2, _⟩ :=
    AppendEnties_merge committedPeer replacingAppend zeroAppendReply (by decide) (by decide)
      (by decide) hp
  refine ⟨by decide, by decide, by decide, hp, L, hL, ?_, h1, h2 (by decide)⟩
  have hrun : appendLoop committedPeer.log replacingAppend.PrevLogIndex 0
      replacingAppend.Entries =
      .ok [{ Term := 0, Command := 0, Index := 0 }, { Term := 1, Command := 7, Index := 1 },
           { Term := 2, Command := 9, Index := 2 }, { Term := 2, Command := 10, Index := 3 }] :=
    rfl
  rw [hrun] at hL
  cases hL
  rfl

/-- Witness for C4 (amended): `replacingAppend` touches `committedPeer` only
above its commit index, and the committed entries stay. -/
theorem AppendEnties_keeps_committed_witness :
    committedPeer.commitIndex ≤ (committedPeer.log.length : Int) - 1 ∧
    (∃ rf1 reply1,
      AppendEnties committedPeer replacingAppend zeroAppendReply = .ok (rf1, reply1) ∧
      rf1.log =
        [{ Term := 0, Command := 0, Index := 0 }, { Term := 1, Command := 7, Index := 1 },
         { Term := 2, Command := 9, Index := 2 }, { Term := 2, Command := 10, Index := 3 }] ∧
      ∀ i : Int, 0 ≤ i → i ≤ committedPeer.commitIndex →
        ∃ e, index committedPeer.log i = .ok e ∧ index rf1.log i = .ok e) ∧
    (∀ (k : Nat) (e : Log), replacingAppend.Entries[k]? = some e →
      replacingAppend.PrevLogIndex + 1 + (k : Int) ≤ committedPeer.commitIndex →
      index committedPeer.log (replacingAppend.PrevLogIndex + 1 + (k : Int)) = .ok e) := by
  have hagree : ∀ (k : Nat) (e : Log), replacingAppend.Entries[k]? = some e →
      replacingAppend.PrevLogIndex + 1 + (k : Int) ≤ committedPeer.commitIndex →
      index committedPeer.log (replacingAppend.PrevLogIndex + 1 + (k : Int)) = .ok e := by
    intro k e _ hle
    have h1 : replacingAppend.PrevLogIndex = 1 := rfl
    have h2 : committedPeer.commitIndex = 1 := rfl
    omega
  exact ⟨by decide,
    ⟨_, _, rfl, rfl,
      AppendEnties_keeps_committed committedPeer replacingAppend zeroAppendReply _ _
        (by decide) rfl hagree⟩,
    hagree⟩

/-- Witness for C5: `aheadAppend` names a previous index beyond the log of
`committedPeer` and is refused. -/
theorem AppendEnties_refuse_iff_witness :
    committedPeer.currentTerm ≤ aheadAppend.Term ∧ 0 ≤ aheadAppend.PrevLogIndex ∧
    ((committedPeer.log.length : Int) - 1 < aheadAppend.PrevLogIndex ∨
        ∃ p, index committedPeer.log aheadAppend.PrevLogIndex = .ok p ∧
          p.Term ≠ aheadAppend.PrevLogTerm) ∧
    ∃ rf1 reply1, AppendEnties committedPeer aheadAppend zeroAppendReply = .ok (rf1, reply1) ∧
      reply1.Success = false ∧
      rf1.log = committedPeer.log ∧ rf1.commitIndex = committedPeer.commitIndex ∧
      rf1.persister = committedPeer.persister ∧ reply1.Term = rf1.currentTerm ∧
      rf1.currentTerm = aheadAppend.Term := by
  have hcond : (committedPeer.log.length : Int) - 1 < aheadAppend.PrevLogIndex ∨
        ∃ p, index committedPeer.log aheadAppend.PrevLogIndex = .ok p ∧
          p.Term ≠ aheadAppend.PrevLogTerm := Or.inl (by decide)
  have hthm := AppendEnties_refuse_iff committedPeer aheadAppend zeroAppendReply
    (by decide) (by decide)
  obtain ⟨rf1, reply1, hres, hf⟩ := hthm.1 (by decide) (by decide) hcond
  exact ⟨by decide, by decide, hcond, rf1, reply1, hres, hf, (hthm.2.1 rf1 reply1 hres).2 hf⟩

/-- Witness for C8: on `replicatedLeader` the commit index moves from 0 to 1,
an entry of the current term. -/
theorem updateCommitIndex_current_term_only_witness :
    ∃ rf1, updateCommitIndex replicatedLeader = .ok rf1 ∧ rf1.commitIndex = 1 ∧
      ((rf1 = replicatedLeader ∨
        (replicatedLeader.commitIndex < rf1.commitIndex ∧
          replicatedLeader.state = RaftState.StateLeader ∧
          ∃ e, index replicatedLeader.log rf1.commitIndex = .ok e ∧
            e.Term = replicatedLeader.currentTerm)) ∧
      replicatedLeader.commitIndex ≤ rf1.commitIndex ∧
      rf1.log = replicatedLeader.log ∧ rf1.currentTerm = replicatedLeader.currentTerm ∧
      rf1.state = replicatedLeader.state) :=
  ⟨_, rfl, rfl, (updateCommitIndex_current_term_only replicatedLeader).1 _ rfl⟩

/-- C9 (defect in the code): `AppendEnties` sends on `heartbeatChan` before it
applies `rpcRuleForAllServer`, and `leader()` never receives from that
channel.  `termOneLeader`, the leader of term 1, receives the heartbeat of a
leader of term 2: the handler waits at the send, and the peer is still Leader
at term 1, where the rule gives a follower at term 2 and where `RequestVote`,
on the same peer and for the same term, does leave a follower at term 2.  This
holds for every Leader and every append request that is not stale.  The other
three handlers, and `AppendEnties` on a peer that is not Leader whenever it
returns, leave the peer at the higher term as a follower. -/
theorem leader_append_waits_before_term_rule :
    (termOneLeader.state = RaftState.StateLeader ∧ termOneLeader.currentTerm = 1 ∧
      higherTermHeartbeat.Term = 2 ∧
      AppendEnties termOneLeader higherTermHeartbeat zeroAppendReply = .error Crash.blocked ∧
      (rpcRuleForAllServer termOneLeader higherTermHeartbeat.Term).currentTerm = 2 ∧
      (rpcRuleForAllServer termOneLeader higherTermHeartbeat.Term).state =
        RaftState.StateFollower ∧
      ∃ rf1 reply1, RequestVote termOneLeader voteForOneTermTwo zeroVoteReply =
          .ok (rf1, reply1) ∧
        rf1.currentTerm = 2 ∧ rf1.state = RaftState.StateFollower) ∧
    (∀ (rf : Raft) (args : AppendEntiesArgs) (reply : AppendEntiesReply),
      rf.state = RaftState.StateLeader → rf.currentTerm ≤ args.Term →
      AppendEnties rf args reply = .error Crash.blocked) ∧
    (∀ (rf : Raft) (args : AppendEntiesArgs) (reply : AppendEntiesReply) (rf1 : Raft)
        (reply1 : AppendEntiesReply),
      args.Term > rf.currentTerm → AppendEnties rf args reply = .ok (rf1, reply1) →
      rf.state ≠ RaftState.StateLeader ∧
      rf1.currentTerm = args.Term ∧ rf1.state = RaftState.StateFollower ∧
      rf1.votedFor = None) ∧
    (∀ (rf : Raft) (args : RequestVoteArgs) (reply : RequestVoteReply) (rf1 : Raft)
        (reply1 : RequestVoteReply),
      args.Term > rf.currentTerm → RequestVote rf args reply = .ok (rf1, reply1) →
      rf1.currentTerm = args.Term ∧ rf1.state = RaftState.StateFollower ∧
      (reply1.VoteGranted = false → rf1.votedFor = None) ∧
      (reply1.VoteGranted = true → rf1.votedFor = args.CandidateId)) ∧
    (∀ (rf : Raft) (server : Int) (args : RequestVoteArgs) (reply : RequestVoteReply),
      reply.Term > rf.currentTerm →
        (sendRequestVote rf server args true reply).1.currentTerm = reply.Term ∧
        (sendRequestVote rf server args true reply).1.state = RaftState.StateFollower ∧
        (sendRequestVote rf server args true reply).1.votedFor = None) ∧
    (∀ (rf : Raft) (server : Int) (args : AppendEntiesArgs) (reply : AppendEntiesReply),
      reply.Term > rf.currentTerm →
        ∃ rf1, sendAppendEnties rf server args true reply = .ok rf1 ∧
          rf1.currentTerm = reply.Term ∧ rf1.state = RaftState.StateFollower ∧
          rf1.votedFor = None) ∧
    (∀ (rf : Raft) (T : Int), T ≤ rf.currentTerm → rpcRuleForAllServer rf T = rf) := by
  refine ⟨⟨rfl, rfl, rfl, rfl, rfl, rfl, _, _, rfl, rfl, rfl⟩, ?_, ?_, ?_, ?_, ?_, ?_⟩
  · intro rf args reply hrole hterm
    exact AppendEnties_leader rf args reply hterm hrole
  · intro rf args reply rf1 reply1 hgt h
    exact ((term_rule_applied rf).2.2.1 args reply hgt).2.2 rf1 reply1 h
  · intro rf args reply rf1 reply1 hgt h
    exact ((term_rule_applied rf).2.1 args reply hgt).2 rf1 reply1 h
  · intro rf server args reply hgt
    obtain ⟨h1, h2, h3, _⟩ := (term_rule_applied rf).2.2.2.1 server args reply hgt
    exact ⟨h1, h2, h3⟩
  · intro rf server args reply hgt
    exact (term_rule_applied rf).2.2.2.2 server args reply hgt
  · intro rf T hT
    exact (term_rule_applied rf).1 T hT

/-- C10 as stated fails: a vote request may carry the largest `int` as its
term, which the fresh peer adopts; on a peer at that term the increment of
`resetCandidateState` wraps, and the term after the election start is the
smallest `int`, below the term before it. -/
theorem resetCandidateState_lowers_last_term :
    (∃ rf1 reply1, RequestVote freshPeer voteForOneLastTerm zeroVoteReply = .ok (rf1, reply1) ∧
      rf1.currentTerm = MaxInt64) ∧
    lastTermPeer.currentTerm = MaxInt64 ∧
    (resetCandidateState lastTermPeer).currentTerm = MinInt64 ∧
    (resetCandidateState lastTermPeer).currentTerm < lastTermPeer.currentTerm ∧
    ¬ ∀ rf : Raft, rf.currentTerm ≤ (resetCandidateState rf).currentTerm := by
  refine ⟨⟨_, _, rfl, rfl⟩, rfl, by decide, by decide, ?_⟩
  intro h
  exact absurd (h lastTermPeer) (by decide)

/-- Witness for C10 (amended): a vote request of term 1 raises the term of a
fresh peer from 0 to 1, and so does its election start. -/
theorem currentTerm_monotone_witness :
    (∃ rf1 reply1, RequestVote freshPeer voteForOne zeroVoteReply = .ok (rf1, reply1) ∧
      rf1.currentTerm = 1 ∧ freshPeer.currentTerm ≤ rf1.currentTerm) ∧
    MinInt64 ≤ freshPeer.currentTerm ∧ freshPeer.currentTerm < MaxInt64 ∧
    (resetCandidateState freshPeer).currentTerm = freshPeer.currentTerm + 1 ∧
    (resetCandidateState freshPeer).currentTerm = 1 :=
  ⟨⟨_, _, rfl, rfl, (currentTerm_monotone freshPeer).1 voteForOne zeroVoteReply _ _ rfl⟩,
    by decide, by decide,
    (currentTerm_monotone freshPeer).2.2.2.2.2.2.2.1 (by decide) (by decide), by decide⟩

/-! ## Stale requests -/

/-- C11: a `RequestVote` or `AppendEnties` request whose term is below the
peer's term is answered with the peer's term and `VoteGranted = false`,
respectively `Success = false`, and the whole state of the peer, so also
`currentTerm`, `votedFor`, `log`, `commitIndex` and the role, is as before.
`AppendEnties` leaves `NextIndex` as the reply struct came in, which is 0 for
the zero-valued struct that the RPC layer supplies. -/
theorem stale_requests_refused (rf : Raft) :
    (∀ (args : RequestVoteArgs) (reply : RequestVoteReply), args.Term < rf.currentTerm →
      RequestVote rf args reply =
        .ok (rf, { Term := rf.currentTerm, VoteGranted := false })) ∧
    (∀ (args : AppendEntiesArgs) (reply : AppendEntiesReply), args.Term < rf.currentTerm →
      AppendEnties rf args reply =
        .ok (rf, { Term := rf.currentTerm, Success := false, NextIndex := reply.NextIndex })) ∧
    (∀ (args : AppendEntiesArgs), args.Term < rf.currentTerm →
      AppendEnties rf args zeroAppendReply =
        .ok (rf, { Term := rf.currentTerm, Success := false, NextIndex := 0 })) := by
  refine ⟨?_, ?_, ?_⟩
  · intro args reply h
    unfold RequestVote
    simp only
    rw [rpcRuleForAllServer_of_le rf args.Term (le_of_lt h), if_pos h]
  · intro args reply h
    unfold AppendEnties AppendEntiesBody
    rw [if_pos h]
  · intro args h
    unfold AppendEnties AppendEntiesBody
    rw [if_pos h]
    rfl

/-- Witness for C11: `committedPeer` is at term 1 and receives requests of
term 0. -/
theorem stale_requests_refused_witness :
    (0 : Int) < committedPeer.currentTerm ∧
    RequestVote committedPeer { voteForOne with Term := 0 } zeroVoteReply =
      .ok (committedPeer, { Term := 1, VoteGranted := false }) ∧
    AppendEnties committedPeer { conflictingAppend with Term := 0 } zeroAppendReply =
      .ok (committedPeer, { Term := 1, Success := false, NextIndex := 0 }) :=
  ⟨by decide,
    (stale_requests_refused committedPeer).1 { voteForOne with Term := 0 } zeroVoteReply
      (by decide),
    (stale_requests_refused committedPeer).2.2 { conflictingAppend with Term := 0 }
      (by decide)⟩

/-! ## The client entry point -/

/-- The result of `Start` on a leader whose own position `me` is a position of
`nextIndex` and of `matchIndex`. -/
theorem Start_leader (rf : Raft) (command : Payload)
    (hl : rf.state = RaftState.StateLeader)
    (hme : 0 ≤ rf.me ∧ rf.me < (rf.nextIndex.length : Int) ∧
      rf.me < (rf.matchIndex.length : Int)) :
    Start rf command =
      .ok ({ rf with
              log := rf.log ++
                [{ Term := rf.currentTerm, Command := command,
                   Index := (rf.log.length : Int) }],
              nextIndex := rf.nextIndex.set rf.me.toNat ((rf.log.length : Int) + 1),
              matchIndex := rf.matchIndex.set rf.me.toNat (rf.log.length : Int) },
           ((rf.log.length : Int), rf.currentTerm, true)) := by
  unfold Start
  rw [if_neg (by simp [hl])]
  simp only [setIndex]
  rw [if_pos ⟨hme.1, hme.2.1⟩]
  simp only
  rw [if_pos ⟨hme.1, hme.2.2⟩]

/-- The only way for `Start` not to return: a leader whose own position `me`
is not a position of `nextIndex` or of `matchIndex`. -/
theorem Start_error (rf : Raft) (command : Payload) (c : Crash)
    (h : Start rf command = .error c) :
    rf.state = RaftState.StateLeader ∧
    ¬ (0 ≤ rf.me ∧ rf.me < (rf.nextIndex.length : Int) ∧
      rf.me < (rf.matchIndex.length : Int)) := by
  by_cases hl : rf.state = RaftState.StateLeader
  · refine ⟨hl, ?_⟩
    intro hme
    rw [Start_leader rf command hl hme] at h
    cases h
  · unfold Start at h
    rw [if_pos hl] at h
    cases h

theorem index_set_self {α : Type} (s : List α) (i : Int) (v : α)
    (h0 : 0 ≤ i) (h1 : i < (s.length : Int)) : index (s.set i.toNat v) i = .ok v := by
  rw [index_ok_iff]
  refine ⟨h0, ?_⟩
  have hlt : i.toNat < s.length := by omega
  rw [List.getElem?_set_self hlt]

/-- C12: on a leader, `Start` returns `(len(log), currentTerm, true)`, appends
the single entry `{currentTerm, command, len(log)}` to the log and sets
`nextIndex[me] = index + 1` and `matchIndex[me] = index`; it does return when
`me` is a position of `nextIndex` and `matchIndex`, and otherwise stops at the
assignment to that position.  On any other role `Start` returns
`isLeader = false` and the state is as before. -/
theorem Start_contract (rf : Raft) (command : Payload) :
    (rf.state = RaftState.StateLeader →
      ((0 ≤ rf.me ∧ rf.me < (rf.nextIndex.length : Int) ∧
          rf.me < (rf.matchIndex.length : Int)) →
        ∃ rf1, Start rf command =
          .ok (rf1, ((rf.log.length : Int), rf.currentTerm, true))) ∧
      (∀ c, Start rf command = .error c →
        ¬ (0 ≤ rf.me ∧ rf.me < (rf.nextIndex.length : Int) ∧
          rf.me < (rf.matchIndex.length : Int))) ∧
      (∀ rf1 res, Start rf command = .ok (rf1, res) →
        res = ((rf.log.length : Int), rf.currentTerm, true) ∧
        rf1.log = rf.log ++
          [{ Term := rf.currentTerm, Command := command, Index := (rf.log.length : Int) }] ∧
        index rf1.nextIndex rf.me = .ok ((rf.log.length : Int) + 1) ∧
        index rf1.matchIndex rf.me = .ok (rf.log.length : Int) ∧
        rf1.currentTerm = rf.currentTerm ∧ rf1.votedFor = rf.votedFor ∧
        rf1.commitIndex = rf.commitIndex ∧ rf1.state = rf.state)) ∧
    (rf.state ≠ RaftState.StateLeader →
      ∃ index term, Start rf command = .ok (rf, (index, term, false))) := by
  constructor
  · intro hl
    refine ⟨fun hme => ⟨_, Start_leader rf command hl hme⟩,
      fun c hc => (Start_error rf command c hc).2, ?_⟩
    intro rf1 res h
    by_cases hme : 0 ≤ rf.me ∧ rf.me < (rf.nextIndex.length : Int) ∧
        rf.me < (rf.matchIndex.length : Int)
    · rw [Start_leader rf command hl hme] at h
      cases h
      exact ⟨rfl, rfl, index_set_self _ _ _ hme.1 hme.2.1,
        index_set_self _ _ _ hme.1 hme.2.2, rfl, rfl, rfl, rfl⟩
    · exfalso
      unfold Start at h
      rw [if_neg (by simp [hl])] at h
      simp only [setIndex] at h
      by_cases h1 : 0 ≤ rf.me ∧ rf.me < (rf.nextIndex.length : Int)
      · rw [if_pos h1] at h
        simp only at h
        by_cases h2 : 0 ≤ rf.me ∧ rf.me < (rf.matchIndex.length : Int)
        · exact hme ⟨h1.1, h1.2, h2.2⟩
        · rw [if_neg h2] at h
          cases h
      · rw [if_neg h1] at h
        cases h
  · intro hl
    refine ⟨-1, -1, ?_⟩
    unfold Start
    rw [if_pos hl]

/-- Witness for C12: `replicatedLeader` starts agreement on command 5. -/
theorem Start_contract_witness :
    replicatedLeader.state = RaftState.StateLeader ∧
    (∃ rf1, Start replicatedLeader 5 = .ok (rf1, (2, 2, true)) ∧
      rf1.log = replicatedLeader.log ++ [{ Term := 2, Command := 5, Index := 2 }] ∧
      rf1.nextIndex = [3, 2, 1] ∧ rf1.matchIndex = [2, 1, 0]) ∧
    (∀ rf1 res, Start replicatedLeader 5 = .ok (rf1, res) →
      res = ((replicatedLeader.log.length : Int), replicatedLeader.currentTerm, true) ∧
      rf1.log = replicatedLeader.log ++
        [{ Term := replicatedLeader.currentTerm, Command := 5,
           Index := (replicatedLeader.log.length : Int) }] ∧
      index rf1.nextIndex replicatedLeader.me = .ok ((replicatedLeader.log.length : Int) + 1) ∧
      index rf1.matchIndex replicatedLeader.me = .ok (replicatedLeader.log.length : Int) ∧
      rf1.currentTerm = replicatedLeader.currentTerm ∧
      rf1.votedFor = replicatedLeader.votedFor ∧
      rf1.commitIndex = replicatedLeader.commitIndex ∧
      rf1.state = replicatedLeader.state) :=
  ⟨rfl, ⟨_, rfl, rfl, rfl, rfl⟩, ((Start_contract replicatedLeader 5).1 rfl).2.2⟩

/-- The two ways in which `Start` returns. -/
theorem Start_ok (rf : Raft) (command : Payload) (rf1 : Raft) (res : Int × Int × Bool)
    (h : Start rf command = .ok (rf1, res)) :
    (rf.state ≠ RaftState.StateLeader ∧ rf1 = rf ∧ res = (-1, -1, false)) ∨
    (rf.state = RaftState.StateLeader ∧
      rf1 = { rf with
              log := rf.log ++
                [{ Term := rf.currentTerm, Command := command,
                   Index := (rf.log.length : Int) }],
              nextIndex := rf.nextIndex.set rf.me.toNat ((rf.log.length : Int) + 1),
              matchIndex := rf.matchIndex.set rf.me.toNat (rf.log.length : Int) } ∧
      res = ((rf.log.length : Int), rf.currentTerm, true)) := by
  by_cases hl : rf.state = RaftState.StateLeader
  · right
    by_cases hme : 0 ≤ rf.me ∧ rf.me < (rf.nextIndex.length : Int) ∧
        rf.me < (rf.matchIndex.length : Int)
    · rw [Start_leader rf command hl hme] at h
      cases h
      exact ⟨hl, rfl, rfl⟩
    · exfalso
      cases hres : Start rf command with
      | error c => rw [hres] at h; cases h
      | ok v =>
        unfold Start at hres
        rw [if_neg (by simp [hl])] at hres
        simp only [setIndex] at hres
        by_cases h1 : 0 ≤ rf.me ∧ rf.me < (rf.nextIndex.length : Int)
        · rw [if_pos h1] at hres
          simp only at hres
          by_cases h2 : 0 ≤ rf.me ∧ rf.me < (rf.matchIndex.length : Int)
          · exact hme ⟨h1.1, h1.2, h2.2⟩
          · rw [if_neg h2] at hres
            cases hres
        · rw [if_neg h1] at hres
          cases hres
  · left
    unfold Start at h
    rw [if_pos hl] at h
    cases h
    exact ⟨hl, rfl, rfl⟩

/-! ## Log well-formedness: the facts -/

theorem checkLogFrom_ok_iff (l : List Log) :
    ∀ i : Nat, checkLogFrom i l = .ok () ↔
      ∀ (k : Nat) (e : Log), l[k]? = some e → e.Index = ((i + k : Nat) : Int) := by
  induction l with
  | nil =>
    intro i
    simp [checkLogFrom]
  | cons x xs ih =>
    intro i
    unfold checkLogFrom
    by_cases hx : (i : Int) ≠ x.Index
    · rw [if_pos hx]
      constructor
      · intro h; cases h
      · intro h
        exfalso
        apply hx
        have := h 0 x (by simp)
        rw [this]; simp
    · rw [if_neg hx, ih (i + 1)]
      push_neg at hx
      constructor
      · intro h k e hk
        cases k with
        | zero =>
          simp at hk
          rw [← hk, ← hx]; simp
        | succ k =>
          have := h k e (by simpa using hk)
          rw [this]; congr 1; omega
      · intro h k e hk
        have := h (k + 1) e (by simpa using hk)
        rw [this]; congr 1; omega

theorem checkLogFrom_zero_iff (l : List Log) :
    checkLogFrom 0 l = .ok () ↔ logIndexed l := by
  rw [checkLogFrom_ok_iff]
  unfold logIndexed
  simp

/-- The result of the merge loop is the old log, or the old log cut at a
position `p + k0` within it followed by the incoming entries from offset `k0`
on. -/
theorem appendLoop_cases (log : List Log) (prev : Int) (rest : List Log) (i p : Nat)
    (hp : prev + 1 + (i : Int) = (p : Int)) (hle : p ≤ log.length) :
    ∃ L, appendLoop log prev i rest = .ok L ∧
      (L = log ∨
        ∃ k0, k0 < rest.length ∧ p + k0 ≤ log.length ∧
          (∀ k, k < k0 → log[p + k]? = rest[k]?) ∧ log[p + k0]? ≠ rest[k0]? ∧
          L = log.take (p + k0) ++ rest.drop k0) := by
  obtain ⟨L, hL, _, _, h3, h4⟩ := appendLoop_spec log prev rest i p hp hle
  refine ⟨L, hL, ?_⟩
  by_cases hall : ∀ k, k < rest.length → log[p + k]? = rest[k]?
  · left; exact h4 hall
  · right
    push_neg at hall
    classical
    have hk0 := Nat.find_spec hall
    have hmin : ∀ k, k < Nat.find hall → log[p + k]? = rest[k]? := by
      intro k hk
      have := Nat.find_min hall hk
      push_neg at this
      exact this (by omega)
    refine ⟨Nat.find hall, hk0.1, ?_, hmin, hk0.2, h3 _ hk0.1 hmin hk0.2⟩
    rcases Nat.eq_zero_or_pos (Nat.find hall) with hz | hpos
    · omega
    · have hprev := hmin (Nat.find hall - 1) (by omega)
      have hlt : Nat.find hall - 1 < rest.length := by omega
      rw [List.getElem?_eq_getElem hlt] at hprev
      have := (List.getElem?_eq_some_iff.mp hprev).1
      omega

/-- On a non-empty log whose entries carry their own position, the merge of
entries that carry the positions they are meant for leaves such a log, with the
same first entry. -/
theorem appendLoop_indexed (log : List Log) (prev : Int) (rest : List Log) (i p : Nat)
    (hp : prev + 1 + (i : Int) = (p : Int)) (hle : p ≤ log.length) (hp1 : 1 ≤ p)
    (hidx : logIndexed log)
    (hent : ∀ (k : Nat) (e : Log), rest[k]? = some e → e.Index = ((p + k : Nat) : Int)) :
    ∃ L, appendLoop log prev i rest = .ok L ∧ L[0]? = log[0]? ∧ logIndexed L := by
  obtain ⟨L, hL, hcase⟩ := appendLoop_cases log prev rest i p hp hle
  refine ⟨L, hL, ?_⟩
  rcases hcase with h | ⟨k0, hk0, hk0le, _, _, h⟩
  · rw [h]; exact ⟨rfl, hidx⟩
  · have hlen : (List.take (p + k0) log).length = p + k0 := by
      rw [List.length_take]; omega
    constructor
    · rw [h, List.getElem?_append_left (by omega)]
      exact List.getElem?_take_of_lt (by omega)
    · intro j e hj
      rw [h] at hj
      by_cases hjlt : j < p + k0
      · rw [List.getElem?_append_left (by omega), List.getElem?_take_of_lt hjlt] at hj
        exact hidx j e hj
      · rw [List.getElem?_append_right (by omega), hlen, List.getElem?_drop] at hj
        have := hent _ e hj
        rw [this]
        congr 1
        omega

/-- C13: on a non-empty log with `log[i].Index = i`, `Start` (when it
returns) and every `AppendEnties` request with `PrevLogIndex >= 0` and
`Entries[k].Index = PrevLogIndex + 1 + k` (when it returns) leave a non-empty
log with the same entry at position 0 and with `log[i].Index = i`.  Such an
`AppendEnties` call returns when it is stale, and on a peer that is not Leader
when `PrevLogIndex` is below the largest `int`; it never ends in the assertion
of `checkLog`: it fails to return only on a Leader, at the send on
`heartbeatChan`, and for `PrevLogIndex` the largest `int`, at the index
expression of the consistency check. -/
theorem log_wellformed_invariant (rf : Raft) (hne : rf.log ≠ []) (hidx : logIndexed rf.log) :
    (∀ (command : Payload) (rf1 : Raft) (res : Int × Int × Bool),
      Start rf command = .ok (rf1, res) →
        rf1.log ≠ [] ∧ rf1.log[0]? = rf.log[0]? ∧ logIndexed rf1.log) ∧
    (∀ (args : AppendEntiesArgs) (reply : AppendEntiesReply),
      0 ≤ args.PrevLogIndex →
      (∀ (k : Nat) (e : Log), args.Entries[k]? = some e →
        e.Index = args.PrevLogIndex + 1 + (k : Int)) →
      (∀ rf1 reply1, AppendEnties rf args reply = .ok (rf1, reply1) →
        rf1.log ≠ [] ∧ rf1.log[0]? = rf.log[0]? ∧ logIndexed rf1.log ∧
        checkLog rf1 = .ok ()) ∧
      ((args.Term < rf.currentTerm ∨
          (rf.state ≠ RaftState.StateLeader ∧ args.PrevLogIndex < MaxInt64)) →
        ∃ rf1 reply1, AppendEnties rf args reply = .ok (rf1, reply1)) ∧
      (∀ c, AppendEnties rf args reply = .error c →
        rf.currentTerm ≤ args.Term ∧
        ((rf.state = RaftState.StateLeader ∧ c = Crash.blocked) ∨
          (rf.state ≠ RaftState.StateLeader ∧ MaxInt64 ≤ args.PrevLogIndex ∧
            c = Crash.indexOutOfRange)))) := by
  have hpos : 0 < rf.log.length := List.length_pos.mpr hne
  have hne_of : ∀ L : List Log, L[0]? = rf.log[0]? → L ≠ [] := by
    intro L h hnil
    rw [hnil, List.getElem?_eq_getElem hpos] at h
    simp at h
  constructor
  · intro command rf1 res h
    rcases Start_ok rf command rf1 res h with ⟨_, h1, _⟩ | ⟨_, h1, _⟩
    · rw [h1]; exact ⟨hne, rfl, hidx⟩
    · rw [h1]
      have h0 : ∀ x : Log, (rf.log ++ [x])[0]? = rf.log[0]? :=
        fun x => List.getElem?_append_left hpos
      refine ⟨hne_of _ (h0 _), h0 _, ?_⟩
      intro j e hj
      by_cases hjlt : j < rf.log.length
      · rw [List.getElem?_append_left hjlt] at hj
        exact hidx j e hj
      · rw [List.getElem?_append_right (by omega)] at hj
        have hj0 : j - rf.log.length = 0 := by
          by_contra hcon
          rw [List.getElem?_eq_none (by simp; omega)] at hj
          cases hj
        rw [hj0] at hj
        simp at hj
        rw [← hj]
        show (rf.log.length : Int) = (j : Int)
        omega
  · intro args reply h0 hent
    have hck : ∀ r : Raft, logIndexed r.log → checkLog r = .ok () := by
      intro r hr
      unfold checkLog
      exact (checkLogFrom_zero_iff r.log).mpr hr
    obtain ⟨hlog, _, _⟩ := rpcRuleForAllServer_log rf args.Term
    have hmerge : ∀ p, index rf.log args.PrevLogIndex = .ok p →
        ∃ L, appendLoop rf.log args.PrevLogIndex 0 args.Entries = .ok L ∧
          L[0]? = rf.log[0]? ∧ logIndexed L := by
      intro p hp
      have hpb := index_ok_lt _ _ _ hp
      exact appendLoop_indexed rf.log args.PrevLogIndex args.Entries 0
        (args.PrevLogIndex + 1).toNat (by push_cast; omega) (by omega) (by omega) hidx
        (by
          intro k e hk
          rw [hent k e hk]
          push_cast
          omega)
    refine ⟨?_, ?_, ?_⟩
    · intro rf1 reply1 hres
      rcases AppendEnties_ok_cases rf args reply rf1 reply1 hres with
        ⟨_, hsame, _⟩ | ⟨_, _, _, hres⟩ | ⟨_, _, _, ⟨p, hp, _⟩, hres⟩
      · rw [hsame]
        exact ⟨hne, rfl, hidx, hck rf hidx⟩
      · unfold appendRefuse at hres
        cases hres
        refine ⟨?_, ?_, ?_, ?_⟩
        · show (rpcRuleForAllServer rf args.Term).log ≠ []
          rw [hlog]; exact hne
        · show (rpcRuleForAllServer rf args.Term).log[0]? = rf.log[0]?
          rw [hlog]
        · show logIndexed (rpcRuleForAllServer rf args.Term).log
          rw [hlog]; exact hidx
        · exact hck _ (by rw [hlog]; exact hidx)
      · obtain ⟨L, hL, hL0, hLi⟩ := hmerge p hp
        obtain ⟨L2, hL2, _, hlog1, _⟩ := appendAccept_ok _ _ _ _ _ hres
        rw [hlog, hL] at hL2
        cases hL2
        refine ⟨?_, ?_, ?_, ?_⟩
        · rw [hlog1]; exact hne_of L hL0
        · rw [hlog1]; exact hL0
        · rw [hlog1]; exact hLi
        · exact hck rf1 (by rw [hlog1]; exact hLi)
    · rintro (hs | ⟨hrole, hmax⟩)
      · refine ⟨rf, { reply with Term := rf.currentTerm, Success := false }, ?_⟩
        unfold AppendEnties AppendEntiesBody
        rw [if_pos hs]
      · by_cases hs : args.Term < rf.currentTerm
        · refine ⟨rf, { reply with Term := rf.currentTerm, Success := false }, ?_⟩
          unfold AppendEnties AppendEntiesBody
          rw [if_pos hs]
        · have hterm : rf.currentTerm ≤ args.Term := by omega
          obtain ⟨hacc, hrej⟩ := AppendEnties_check rf args reply hterm hrole h0
          by_cases hpass : ∃ p, index rf.log args.PrevLogIndex = .ok p ∧
              p.Term = args.PrevLogTerm
          · obtain ⟨p, hp, hpt⟩ := hpass
            obtain ⟨L, hL, hL0, hLi⟩ := hmerge p hp
            obtain ⟨rf1, reply1, hres⟩ := appendAccept_returns
              (rpcRuleForAllServer rf args.Term) args reply L (by rw [hlog]; exact hL)
              ((checkLogFrom_zero_iff L).mpr hLi)
            exact ⟨rf1, reply1, by rw [hacc ⟨p, hp, hpt⟩]; exact hres⟩
          · exact ⟨_, _, hrej hmax hpass⟩
    · intro c hc
      obtain ⟨hterm, hcase⟩ := AppendEnties_error rf args reply c hc
      refine ⟨hterm, ?_⟩
      rcases hcase with h | ⟨hrole, hp, hcc⟩ | ⟨hrole, ⟨p, hp, _⟩, L, hL, hcl⟩
      · exact Or.inl h
      · exact Or.inr ⟨hrole, by omega, hcc⟩
      · exfalso
        obtain ⟨L2, hL2, _, hLi⟩ := hmerge p hp
        rw [hL] at hL2
        cases hL2
        rw [(checkLogFrom_zero_iff L).mpr hLi] at hcl
        cases hcl

/-- Witness for C13: `replacingAppend` carries entries for the positions 2 and
3 that follow its `PrevLogIndex`, and `committedPeer` handles it. -/
theorem log_wellformed_invariant_witness :
    committedPeer.log ≠ [] ∧ logIndexed committedPeer.log ∧
    0 ≤ replacingAppend.PrevLogIndex ∧
    (∀ (k : Nat) (e : Log), replacingAppend.Entries[k]? = some e →
      e.Index = replacingAppend.PrevLogIndex + 1 + (k : Int)) ∧
    ∃ rf1 reply1, AppendEnties committedPeer replacingAppend zeroAppendReply =
        .ok (rf1, reply1) ∧
      rf1.log ≠ [] ∧ rf1.log[0]? = committedPeer.log[0]? ∧ logIndexed rf1.log ∧
      checkLog rf1 = .ok () := by
  have h1 : committedPeer.log ≠ [] := by decide
  have h2 : logIndexed committedPeer.log := (checkLogFrom_zero_iff _).mp rfl
  have h3 : ∀ (k : Nat) (e : Log), replacingAppend.Entries[k]? = some e →
      e.Index = replacingAppend.PrevLogIndex + 1 + (k : Int) := by
    intro k e hk
    have hck : checkLogFrom 2 replacingAppend.Entries = .ok () := rfl
    rw [(checkLogFrom_ok_iff _ 2).mp hck k e hk]
    have : replacingAppend.PrevLogIndex = 1 := rfl
    rw [this]
    push_cast
    omega
  obtain ⟨hall, hret, _⟩ :=
    (log_wellformed_invariant committedPeer h1 h2).2 replacingAppend zeroAppendReply
      (by decide) h3
  obtain ⟨rf1, reply1, hres⟩ := hret (Or.inr ⟨by decide, by decide⟩)
  exact ⟨h1, h2, by decide, h3, rf1, reply1, hres, hall rf1 reply1 hres⟩

theorem min_le_second (x y : Int) : min x y ≤ y := by
  unfold min
  split <;> omega

/-! ## The commit index stays within the log -/

/-- C14 as stated fails: `fullyCommittedPeer` has `commitIndex = 2` on a log
of last index 2; `conflictingAppend` follows the sentinel, carries another
entry for index 1 and has `LeaderCommit = 1`.  The merge cuts the log to last
index 1 and the commit index stays 2. -/
theorem AppendEnties_cuts_below_commitIndex :
    ¬ (∀ (rf : Raft) (args : AppendEntiesArgs) (reply : AppendEntiesReply) (rf1 : Raft)
        (reply1 : AppendEntiesReply),
        rf.commitIndex ≤ (rf.log.length : Int) - 1 → 0 ≤ args.PrevLogIndex →
        AppendEnties rf args reply = .ok (rf1, reply1) →
        rf1.commitIndex ≤ (rf1.log.length : Int) - 1) := by
  intro h
  have hrun : AppendEnties fullyCommittedPeer conflictingAppend zeroAppendReply =
      .ok ({ fullyCommittedPeer with
              currentTerm := 2,
              log := [{ Term := 0, Command := 0, Index := 0 },
                      { Term := 2, Command := 9, Index := 1 }],
              persister := { raftstate :=
                [GobValue.int 2,
                 GobValue.logs [{ Term := 0, Command := 0, Index := 0 },
                                { Term := 2, Command := 9, Index := 1 }],
                 GobValue.int (-1), GobValue.int 2] } },
           { Term := 2, Success := true, NextIndex := 2 }) := rfl
  have := h fullyCommittedPeer conflictingAppend zeroAppendReply _ _ (by decide) (by decide) hrun
  revert this
  decide

/-- C14 (amended): from a state with `commitIndex <= len(log) - 1`, the same
holds after `Start`, after `updateCommitIndex`, and after every `AppendEnties`
request whose entries agree with the log at every position up to the commit
index that they cover; a successful `AppendEnties` sets the commit index to
`min(LeaderCommit, new last index)` when `LeaderCommit > commitIndex` and
leaves it as it was otherwise, and a refused one leaves it as it was. -/
theorem commitIndex_within_log (rf : Raft)
    (hci : rf.commitIndex ≤ (rf.log.length : Int) - 1) :
    (∀ (args : AppendEntiesArgs) (reply : AppendEntiesReply) (rf1 : Raft)
        (reply1 : AppendEntiesReply),
      AppendEnties rf args reply = .ok (rf1, reply1) →
      (∀ (k : Nat) (e : Log), args.Entries[k]? = some e →
        args.PrevLogIndex + 1 + (k : Int) ≤ rf.commitIndex →
        index rf.log (args.PrevLogIndex + 1 + (k : Int)) = .ok e) →
      rf1.commitIndex ≤ (rf1.log.length : Int) - 1) ∧
    (∀ (args : AppendEntiesArgs) (reply : AppendEntiesReply) (rf1 : Raft)
        (reply1 : AppendEntiesReply),
      AppendEnties rf args reply = .ok (rf1, reply1) →
      (reply1.Success = true →
        rf1.commitIndex =
          (if args.LeaderCommit > rf.commitIndex then
            min args.LeaderCommit ((rf1.log.length : Int) - 1) else rf.commitIndex)) ∧
      (reply1.Success = false → rf1.commitIndex = rf.commitIndex)) ∧
    (∀ (command : Payload) (rf1 : Raft) (res : Int × Int × Bool),
      Start rf command = .ok (rf1, res) →
        rf1.commitIndex ≤ (rf1.log.length : Int) - 1) ∧
    (∀ rf1, updateCommitIndex rf = .ok rf1 →
      rf1.commitIndex ≤ (rf1.log.length : Int) - 1) := by
  refine ⟨?_, ?_, ?_, ?_⟩
  · intro args reply rf1 reply1 h hagree
    obtain ⟨hlog, hcom, _⟩ := rpcRuleForAllServer_log rf args.Term
    rcases AppendEnties_ok_cases rf args reply rf1 reply1 h with
      ⟨_, h1, _⟩ | ⟨_, _, _, h1⟩ | ⟨_, _, h0, ⟨p, hp, _⟩, h1⟩
    · rw [h1]; exact hci
    · unfold appendRefuse at h1
      cases h1
      show (rpcRuleForAllServer rf args.Term).commitIndex ≤
        ((rpcRuleForAllServer rf args.Term).log.length : Int) - 1
      rw [hlog, hcom]; exact hci
    · obtain ⟨L, hL, _, hlog1, hc1, _⟩ := appendAccept_ok _ _ _ _ _ h1
      rw [hlog] at hL
      rw [hcom] at hc1
      rw [hc1, hlog1]
      split
      · exact min_le_second _ _
      · by_cases hneg : rf.commitIndex < 0
        · omega
        · have hpb := index_ok_lt _ _ _ hp
          obtain ⟨L2, hL2, hkeep⟩ := appendLoop_keeps rf.log args.PrevLogIndex args.Entries 0
            (args.PrevLogIndex + 1).toNat (by push_cast; omega) (by omega)
            rf.commitIndex.toNat (by omega)
            (by
              intro k hk hkc
              have hke : args.Entries[k]? = some args.Entries[k] :=
                List.getElem?_eq_getElem hk
              have := hagree k _ hke (by omega)
              rw [index_eq_getElem? rf.log _ ((args.PrevLogIndex + 1).toNat + k) _
                (by push_cast; omega)] at this
              rw [this, hke])
          rw [hL] at hL2
          cases hL2
          have hget := hkeep rf.commitIndex.toNat (le_refl _)
          have hlt : rf.commitIndex.toNat < rf.log.length := by omega
          rw [List.getElem?_eq_getElem hlt] at hget
          have := (List.getElem?_eq_some_iff.mp hget).1
          omega
  · intro args reply rf1 reply1 h
    obtain ⟨hlog, hcom, _⟩ := rpcRuleForAllServer_log rf args.Term
    rcases AppendEnties_ok_cases rf args reply rf1 reply1 h with
      ⟨_, h1, h2⟩ | ⟨_, _, _, h1⟩ | ⟨_, _, _, _, h1⟩
    · rw [h1, h2]
      exact ⟨fun hs => (by cases hs), fun _ => rfl⟩
    · unfold appendRefuse at h1
      cases h1
      exact ⟨fun hs => (by cases hs), fun _ => hcom⟩
    · obtain ⟨L, _, _, hlog1, hc1, _, _, _, _, hs, _⟩ := appendAccept_ok _ _ _ _ _ h1
      rw [hcom] at hc1
      constructor
      · intro _
        rw [hc1, hlog1]
      · intro hf
        rw [hs] at hf
        cases hf
  · intro command rf1 res h
    rcases Start_ok rf command rf1 res h with ⟨_, h1, _⟩ | ⟨_, h1, _⟩
    · rw [h1]; exact hci
    · rw [h1]
      show rf.commitIndex ≤ ((rf.log ++ [_]).length : Int) - 1
      rw [List.length_append]
      push_cast
      omega
  · intro rf1 h
    rcases updateCommitIndex_ok rf rf1 h with h1 | ⟨h1, _, _, e, he, _⟩
    · rw [h1]; exact hci
    · rw [h1]
      have := index_ok_lt _ _ _ he
      show (updateCommitIndexLoop rf).1 ≤ (rf.log.length : Int) - 1
      omega

/-- Witness for C14 (amended): `replacingAppend` touches `committedPeer` only
above its commit index; the commit index 1 stays within the new log. -/
theorem commitIndex_within_log_witness :
    committedPeer.commitIndex ≤ (committedPeer.log.length : Int) - 1 ∧
    (∀ (k : Nat) (e : Log), replacingAppend.Entries[k]? = some e →
      replacingAppend.PrevLogIndex + 1 + (k : Int) ≤ committedPeer.commitIndex →
      index committedPeer.log (replacingAppend.PrevLogIndex + 1 + (k : Int)) = .ok e) ∧
    ∃ rf1 reply1,
      AppendEnties committedPeer replacingAppend zeroAppendReply = .ok (rf1, reply1) ∧
      rf1.commitIndex = 1 ∧ rf1.log.length = 4 ∧
      rf1.commitIndex ≤ (rf1.log.length : Int) - 1 := by
  have hagree : ∀ (k : Nat) (e : Log), replacingAppend.Entries[k]? = some e →
      replacingAppend.PrevLogIndex + 1 + (k : Int) ≤ committedPeer.commitIndex →
      index committedPeer.log (replacingAppend.PrevLogIndex + 1 + (k : Int)) = .ok e := by
    intro k e _ hle
    have h1 : replacingAppend.PrevLogIndex = 1 := rfl
    have h2 : committedPeer.commitIndex = 1 := rfl
    omega
  exact ⟨by decide, hagree, _, _, rfl, rfl, rfl,
    (commitIndex_within_log committedPeer (by decide)).1 replacingAppend zeroAppendReply _ _
      rfl hagree⟩

/-! ## The apply pump: the facts -/

/-- The loop of `stateMachine` over positions that lie within a log whose
entries carry their own position sends one message per position, in order. -/
theorem stateMachineLoop_spec (log : List Log) (hidx : logIndexed log) :
    ∀ (n : Nat) (i : Int), 0 ≤ i → i + (n : Int) ≤ (log.length : Int) →
      ∃ msgs, stateMachineLoop log i n = .ok msgs ∧ msgs.length = n ∧
        ∀ k : Nat, k < n → ∃ e, index log (i + (k : Int)) = .ok e ∧
          msgs[k]? = some { Index := i + (k : Int), Command := e.Command,
                            UseSnapshot := false, Snapshot := [] } := by
  intro n
  induction n with
  | zero =>
    intro i _ _
    exact ⟨[], rfl, rfl, fun k hk => absurd hk (Nat.not_lt_zero k)⟩
  | succ n ih =>
    intro i h0 hle
    obtain ⟨e, he⟩ := index_ok_of_lt log i h0 (by push_cast at hle; omega)
    obtain ⟨rest, hrest, hlen, hmsgs⟩ := ih (i + 1) (by omega) (by push_cast at hle ⊢; omega)
    have heI : e.Index = i := by
      have h1 := (index_ok_iff log i e).mp he
      have := hidx _ e h1.2
      rw [this]
      omega
    refine ⟨{ Index := e.Index, Command := e.Command, UseSnapshot := false,
              Snapshot := [] } :: rest, ?_, ?_, ?_⟩
    · unfold stateMachineLoop
      rw [he]
      simp only
      rw [hrest]
    · simp [hlen]
    · intro k hk
      cases k with
      | zero =>
        refine ⟨e, by simpa using he, ?_⟩
        simp [heI]
      | succ k =>
        obtain ⟨e2, he2, hm2⟩ := hmsgs k (by omega)
        have hpos : i + ((k + 1 : Nat) : Int) = i + 1 + (k : Int) := by push_cast; omega
        refine ⟨e2, by rw [hpos]; exact he2, ?_⟩
        rw [List.getElem?_cons_succ, hm2, hpos]

/-- The loop of `stateMachine` stops the process when it starts at a negative
position. -/
theorem stateMachineLoop_negative (log : List Log) (n : Nat) (i : Int) (hi : i < 0) :
    ∃ c, stateMachineLoop log i (n + 1) = .error c := by
  obtain ⟨c, hc⟩ := (index_error_iff log i).mpr (Or.inl hi)
  refine ⟨c, ?_⟩
  unfold stateMachineLoop
  rw [hc]

/-- One iteration of `stateMachine` on a state with `lastApplied >= -1`, the
commit index within the log and entries that carry their own position: it
returns, moves `lastApplied` up to the commit index, and sends the entries
above the old `lastApplied` up to the commit index, in order. -/
theorem stateMachine_step (rf : Raft) (hm1 : -1 ≤ rf.lastApplied)
    (hci : rf.commitIndex ≤ (rf.log.length : Int) - 1) (hidx : logIndexed rf.log) :
    ∃ msgs, stateMachine rf =
        .ok ({ rf with lastApplied := max rf.lastApplied rf.commitIndex }, msgs) ∧
      msgs.length = (rf.commitIndex - rf.lastApplied).toNat ∧
      ∀ k : Nat, k < msgs.length →
        ∃ e, index rf.log (rf.lastApplied + 1 + (k : Int)) = .ok e ∧
          msgs[k]? = some { Index := rf.lastApplied + 1 + (k : Int), Command := e.Command,
                            UseSnapshot := false, Snapshot := [] } := by
  by_cases hgt : rf.commitIndex > rf.lastApplied
  · obtain ⟨msgs, hmsgs, hlen, hall⟩ := stateMachineLoop_spec rf.log hidx
      (rf.commitIndex - rf.lastApplied).toNat (rf.lastApplied + 1) (by omega) (by omega)
    refine ⟨msgs, ?_, hlen, ?_⟩
    · unfold stateMachine
      rw [if_pos hgt, if_neg (by omega)]
      simp only
      rw [hmsgs, max_eq_right (le_of_lt hgt)]
    · intro k hk
      exact hall k (by omega)
  · refine ⟨[], ?_, ?_, ?_⟩
    · unfold stateMachine
      rw [if_neg hgt, max_eq_left (by omega)]
    · have : (rf.commitIndex - rf.lastApplied).toNat = 0 := by omega
      rw [this]; rfl
    · intro k hk
      simp at hk

/-- The positions carried by a list of messages that holds, at each offset
`k`, a message for position `a + 1 + k`. -/
theorem map_Index_eq (msgs : List ApplyMsg) (a : Int)
    (h : ∀ k : Nat, k < msgs.length → ∃ m, msgs[k]? = some m ∧ m.Index = a + 1 + (k : Int)) :
    msgs.map (fun m => m.Index) =
      (List.range msgs.length).map (fun (k : Nat) => a + 1 + (k : Int)) := by
  apply List.ext_getElem?
  intro k
  rw [List.getElem?_map, List.getElem?_map]
  by_cases hk : k < msgs.length
  · obtain ⟨m, hm, hmi⟩ := h k hk
    rw [hm, List.getElem?_range hk]
    simp [hmi]
  · rw [List.getElem?_eq_none (by omega), List.getElem?_eq_none (by simp; omega)]
    rfl

/-- A run of the apply pump from a state with `lastApplied >= -1`, in which
the log always carries its own positions and the commit index stays within the
log, returns, and the positions it delivers are those from the old
`lastApplied + 1` up to the new `lastApplied`, each once, in order. -/
theorem pump_delivers (events : List PumpEvent) :
    ∀ rf : Raft, -1 ≤ rf.lastApplied → logIndexed rf.log →
      rf.commitIndex ≤ (rf.log.length : Int) - 1 →
      (∀ (log : List Log) (c : Int), PumpEvent.advance log c ∈ events →
        logIndexed log ∧ c ≤ (log.length : Int) - 1) →
      ∃ rf1 msgs, pump rf events = .ok (rf1, msgs) ∧
        rf.lastApplied ≤ rf1.lastApplied ∧
        msgs.map (fun m => m.Index) =
          (List.range (rf1.lastApplied - rf.lastApplied).toNat).map
            (fun (k : Nat) => rf.lastApplied + 1 + (k : Int)) := by
  induction events with
  | nil =>
    intro rf _ _ _ _
    refine ⟨rf, [], rfl, le_refl _, ?_⟩
    simp
  | cons ev rest ih =>
    intro rf hm1 hidx hci hev
    have hrest : ∀ (log : List Log) (c : Int), PumpEvent.advance log c ∈ rest →
        logIndexed log ∧ c ≤ (log.length : Int) - 1 :=
      fun log c hmem => hev log c (List.mem_cons_of_mem _ hmem)
    cases ev with
    | iterate =>
      obtain ⟨msgs1, hstep, hlen1, hall1⟩ := stateMachine_step rf hm1 hci hidx
      obtain ⟨rf1, msgs2, hrun, hle, hmap2⟩ :=
        ih { rf with lastApplied := max rf.lastApplied rf.commitIndex }
          (le_trans hm1 (le_max_left _ _)) hidx hci hrest
      have hle' : max rf.lastApplied rf.commitIndex ≤ rf1.lastApplied := hle
      have hmap2' : msgs2.map (fun m => m.Index) =
          (List.range (rf1.lastApplied - max rf.lastApplied rf.commitIndex).toNat).map
            (fun (k : Nat) => max rf.lastApplied rf.commitIndex + 1 + (k : Int)) := hmap2
      have hmap1 := map_Index_eq msgs1 rf.lastApplied (by
        intro k hk
        obtain ⟨e, _, hm⟩ := hall1 k hk
        exact ⟨_, hm, rfl⟩)
      have hmax : max rf.lastApplied rf.commitIndex =
          rf.lastApplied + ((rf.commitIndex - rf.lastApplied).toNat : Int) := by
        rcases le_total rf.lastApplied rf.commitIndex with h | h
        · rw [max_eq_right h]; omega
        · rw [max_eq_left h]; omega
      refine ⟨rf1, msgs1 ++ msgs2, ?_, le_trans (le_max_left _ _) hle', ?_⟩
      · unfold pump
        rw [hstep]
        simp only
        rw [hrun]
      · rw [List.map_append, hmap1, hmap2', hlen1]
        have hsplit : (rf1.lastApplied - rf.lastApplied).toNat =
            (rf.commitIndex - rf.lastApplied).toNat +
              (rf1.lastApplied - max rf.lastApplied rf.commitIndex).toNat := by
          omega
        rw [hsplit, List.range_add, List.map_append, List.map_map]
        congr 1
        apply List.map_congr_left
        intro k _
        simp only [Function.comp]
        rw [hmax]
        push_cast
        omega
    | advance log c =>
      obtain ⟨hl, hc⟩ := hev log c (List.mem_cons_self _ _)
      obtain ⟨rf1, msgs, hrun, hle, hmap⟩ :=
        ih { rf with log := log, commitIndex := c } hm1 hl hc hrest
      refine ⟨rf1, msgs, ?_, hle, hmap⟩
      unfold pump
      exact hrun

/-- C15: on a state with `lastApplied <= commitIndex <= len(log) - 1` and
`log[i].Index = i`, one iteration of `stateMachine` that returns has set
`lastApplied = commitIndex` and has sent exactly the messages
`{Index: i, Command: log[i].Command}` for `i = lastApplied + 1, ..., commitIndex`,
in increasing order, nothing when `commitIndex = lastApplied`; the iteration
fails to return only from `lastApplied < -1`.  From `lastApplied = 0`, any run
of iterations interleaved with changes of the log and the commit index that
keep these two conditions returns, and the positions delivered are
`1, 2, ..., lastApplied`, each once and in order. -/
theorem apply_pump (rf : Raft) (hla : rf.lastApplied ≤ rf.commitIndex)
    (hci : rf.commitIndex ≤ (rf.log.length : Int) - 1) (hidx : logIndexed rf.log) :
    (∀ c, stateMachine rf = .error c → rf.lastApplied < -1) ∧
    (∀ rf1 msgs, stateMachine rf = .ok (rf1, msgs) →
      rf1 = { rf with lastApplied := rf.commitIndex } ∧
      msgs.length = (rf.commitIndex - rf.lastApplied).toNat ∧
      (∀ k : Nat, k < msgs.length →
        ∃ e, index rf.log (rf.lastApplied + 1 + (k : Int)) = .ok e ∧
          msgs[k]? = some { Index := rf.lastApplied + 1 + (k : Int), Command := e.Command,
                            UseSnapshot := false, Snapshot := [] }) ∧
      (rf.commitIndex = rf.lastApplied → msgs = [])) ∧
    (rf.lastApplied = 0 →
      ∀ events : List PumpEvent,
        (∀ (log : List Log) (c : Int), PumpEvent.advance log c ∈ events →
          logIndexed log ∧ c ≤ (log.length : Int) - 1) →
        ∃ rf1 msgs, pump rf events = .ok (rf1, msgs) ∧
          msgs.map (fun m => m.Index) =
            (List.range rf1.lastApplied.toNat).map (fun (k : Nat) => (k : Int) + 1)) := by
  have hmax : max rf.lastApplied rf.commitIndex = rf.commitIndex := max_eq_right hla
  refine ⟨?_, ?_, ?_⟩
  · intro c hc
    by_contra hcon
    obtain ⟨msgs, hstep, _⟩ := stateMachine_step rf (by omega) hci hidx
    rw [hstep] at hc
    cases hc
  · intro rf1 msgs h
    by_cases hm1 : -1 ≤ rf.lastApplied
    · obtain ⟨msgs2, hstep, hlen, hall⟩ := stateMachine_step rf hm1 hci hidx
      rw [hstep, hmax] at h
      cases h
      refine ⟨rfl, hlen, hall, ?_⟩
      intro he
      apply List.eq_nil_of_length_eq_zero
      rw [hlen]
      omega
    · by_cases hgt : rf.commitIndex > rf.lastApplied
      · exfalso
        obtain ⟨n, hn⟩ : ∃ n, (rf.commitIndex - rf.lastApplied).toNat = n + 1 :=
          ⟨(rf.commitIndex - rf.lastApplied).toNat - 1, by omega⟩
        obtain ⟨c, hc⟩ := stateMachineLoop_negative rf.log n (rf.lastApplied + 1) (by omega)
        unfold stateMachine at h
        rw [if_pos hgt, if_neg (by omega)] at h
        simp only at h
        rw [hn, hc] at h
        cases h
      · have he : rf.commitIndex = rf.lastApplied := by omega
        unfold stateMachine at h
        rw [if_neg hgt] at h
        cases h
        refine ⟨?_, ?_, ?_, fun _ => rfl⟩
        · exact (congrArg (fun x => ({ rf with lastApplied := x } : Raft)) he).symm
        · have : (rf.commitIndex - rf.lastApplied).toNat = 0 := by omega
          rw [this]; rfl
        · intro k hk
          simp at hk
  · intro h0 events hev
    obtain ⟨rf1, msgs, hrun, _, hmap⟩ := pump_delivers events rf (by omega) hidx hci hev
    refine ⟨rf1, msgs, hrun, ?_⟩
    rw [hmap, h0]
    simp only [sub_zero]
    apply List.map_congr_left
    intro k _
    omega

/-- Witness for C15: `committedPeer` has applied nothing and committed entry 1;
an iteration delivers entry 1, and after the commit index has moved to 2 the
next iteration delivers entry 2. -/
theorem apply_pump_witness :
    committedPeer.lastApplied ≤ committedPeer.commitIndex ∧
    committedPeer.commitIndex ≤ (committedPeer.log.length : Int) - 1 ∧
    logIndexed committedPeer.log ∧
    stateMachine committedPeer =
      .ok ({ committedPeer with lastApplied := 1 },
           [{ Index := 1, Command := 7, UseSnapshot := false, Snapshot := [] }]) ∧
    (∃ rf1 msgs,
      pump committedPeer
          [PumpEvent.iterate, PumpEvent.advance committedPeer.log 2, PumpEvent.iterate] =
        .ok (rf1, msgs) ∧
      msgs.map (fun m => m.Index) = [1, 2]) ∧
    (∀ rf1 msgs, stateMachine committedPeer = .ok (rf1, msgs) →
      rf1 = { committedPeer with lastApplied := committedPeer.commitIndex } ∧
      msgs.length = (committedPeer.commitIndex - committedPeer.lastApplied).toNat ∧
      (∀ k : Nat, k < msgs.length →
        ∃ e, index committedPeer.log (committedPeer.lastApplied + 1 + (k : Int)) = .ok e ∧
          msgs[k]? = some { Index := committedPeer.lastApplied + 1 + (k : Int),
                            Command := e.Command, UseSnapshot := false, Snapshot := [] }) ∧
      (committedPeer.commitIndex = committedPeer.lastApplied → msgs = [])) :=
  ⟨by decide, by decide, (checkLogFrom_zero_iff _).mp rfl, rfl, ⟨_, _, rfl, rfl⟩,
    (apply_pump committedPeer (by decide) (by decide) ((checkLogFrom_zero_iff _).mp rfl)).2.1⟩

/-! ## Becoming leader: the facts -/

theorem getElem?_set_cases {α : Type} (s : List α) (i p : Nat) (v : α) (hi : i < s.length) :
    (s.set i v)[p]? = if p = i then some v else s[p]? := by
  by_cases hp : p = i
  · subst hp
    rw [if_pos rfl, List.getElem?_set_self hi]
  · rw [if_neg hp, List.getElem?_set_ne (Ne.symm hp)]

/-- The loop of `convertToLeaderAndInitState`, when it returns, has written
`maxIndex` and 0 at the positions it visited and nothing else. -/
theorem convertToLeaderAndInitStateLoop_ok (maxIndex : Int) :
    ∀ (n i : Nat) (rf rf1 : Raft),
      convertToLeaderAndInitStateLoop maxIndex i n rf = .ok rf1 →
      rf1.state = rf.state ∧ rf1.log = rf.log ∧ rf1.me = rf.me ∧
      rf1.currentTerm = rf.currentTerm ∧ rf1.commitIndex = rf.commitIndex ∧
      (∀ p : Nat, rf1.nextIndex[p]? =
        if i ≤ p ∧ p < i + n then some maxIndex else rf.nextIndex[p]?) ∧
      (∀ p : Nat, rf1.matchIndex[p]? =
        if i ≤ p ∧ p < i + n then some 0 else rf.matchIndex[p]?) := by
  intro n
  induction n with
  | zero =>
    intro i rf rf1 h
    unfold convertToLeaderAndInitStateLoop at h
    cases h
    refine ⟨rfl, rfl, rfl, rfl, rfl, ?_, ?_⟩ <;>
    · intro p
      rw [if_neg (by omega)]
  | succ n ih =>
    intro i rf rf1 h
    unfold convertToLeaderAndInitStateLoop at h
    simp only [setIndex] at h
    by_cases h1 : (0 : Int) ≤ (i : Int) ∧ (i : Int) < (rf.nextIndex.length : Int)
    · rw [if_pos h1] at h
      simp only at h
      by_cases h2 : (0 : Int) ≤ (i : Int) ∧ (i : Int) < (rf.matchIndex.length : Int)
      · rw [if_pos h2] at h
        simp only [Int.toNat_ofNat] at h
        obtain ⟨g1, g2, g3, g4, g5, g6, g7⟩ := ih (i + 1) _ rf1 h
        refine ⟨g1, g2, g3, g4, g5, ?_, ?_⟩
        · intro p
          rw [g6 p]
          show (if i + 1 ≤ p ∧ p < i + 1 + n then some maxIndex
            else (rf.nextIndex.set i maxIndex)[p]?) = _
          rw [getElem?_set_cases _ _ _ _ (by omega)]
          by_cases hp : p = i
          · rw [if_neg (by omega), if_pos hp, if_pos (by omega)]
          · rw [if_neg hp]
            by_cases hq : i + 1 ≤ p ∧ p < i + 1 + n
            · rw [if_pos hq, if_pos (by omega)]
            · rw [if_neg hq, if_neg (by omega)]
        · intro p
          rw [g7 p]
          show (if i + 1 ≤ p ∧ p < i + 1 + n then some 0
            else (rf.matchIndex.set i 0)[p]?) = _
          rw [getElem?_set_cases _ _ _ _ (by omega)]
          by_cases hp : p = i
          · rw [if_neg (by omega), if_pos hp, if_pos (by omega)]
          · rw [if_neg hp]
            by_cases hq : i + 1 ≤ p ∧ p < i + 1 + n
            · rw [if_pos hq, if_pos (by omega)]
            · rw [if_neg hq, if_neg (by omega)]
      · rw [if_neg h2] at h
        cases h
    · rw [if_neg h1] at h
      cases h

/-- The loop of `convertToLeaderAndInitState` returns when `nextIndex` and
`matchIndex` have a position for every peer it visits. -/
theorem convertToLeaderAndInitStateLoop_returns (maxIndex : Int) :
    ∀ (n i : Nat) (rf : Raft), i + n ≤ rf.nextIndex.length → i + n ≤ rf.matchIndex.length →
      ∃ rf1, convertToLeaderAndInitStateLoop maxIndex i n rf = .ok rf1 := by
  intro n
  induction n with
  | zero => intro i rf _ _; exact ⟨rf, rfl⟩
  | succ n ih =>
    intro i rf h1 h2
    unfold convertToLeaderAndInitStateLoop
    simp only [setIndex]
    rw [if_pos ⟨by omega, by omega⟩]
    simp only
    rw [if_pos ⟨by omega, by omega⟩]
    simp only
    apply ih
    · simp only [List.length_set]; omega
    · simp only [List.length_set]; omega

/-- The result of `becomeLeader` when it returns. -/
theorem becomeLeader_ok (r : Raft) (draw : Int) (r1 : Raft)
    (h : becomeLeader r draw = .ok r1) :
    r.state ≠ RaftState.StateFollower ∧ 0 < r.electionTimeout ∧
    r1 = { r with
            lead := r.me, heartbeatElapsed := 0, electionElapsed := 0,
            randomizedElectionTimeout := r.electionTimeout + draw, votes := [],
            state := RaftState.StateLeader } := by
  unfold becomeLeader at h
  by_cases hf : r.state = RaftState.StateFollower
  · rw [if_pos hf] at h
    cases h
  · rw [if_neg hf] at h
    unfold reset resetRandomizedElectionTimeout at h
    simp only [ne_eq, not_true_eq_false, if_false] at h
    by_cases ht : r.electionTimeout ≤ 0
    · rw [if_pos ht] at h
      cases h
    · rw [if_neg ht] at h
      cases h
      exact ⟨hf, by omega, rfl⟩

/-- C16 as stated fails: `candidatePeer` has a log of length 3 and
`nextIndex = [1, 1, 1]`.  After `convertToLeaderAndInitState` its own
`matchIndex` is 0, not the last index 2; after `becomeLeader` its `nextIndex`
is still `[1, 1, 1]`, not 3. -/
theorem self_matchIndex_starts_at_zero :
    (¬ ∀ (rf rf1 : Raft), convertToLeaderAndInitState rf = .ok rf1 →
        index rf1.matchIndex rf.me = .ok ((rf.log.length : Int) - 1)) ∧
    (¬ ∀ (rf rf1 : Raft) (draw : Int), becomeLeader rf draw = .ok rf1 →
        ∀ p : Nat, p < rf.peers → rf1.nextIndex[p]? = some (rf.log.length : Int)) := by
  constructor
  · intro h
    have hrun : convertToLeaderAndInitState candidatePeer =
        .ok { candidatePeer with
              state := RaftState.StateLeader, nextIndex := [3, 3, 3],
              matchIndex := [0, 0, 0] } := rfl
    have := h candidatePeer _ hrun
    have e : index ([0, 0, 0] : List Int) 0 = .ok 0 := rfl
    rw [show index _ candidatePeer.me = index ([0, 0, 0] : List Int) 0 from rfl, e] at this
    revert this
    simp [candidatePeer, committedPeer]
  · intro h
    have hrun : becomeLeader candidatePeer 4 =
        .ok { candidatePeer with
              lead := 0, heartbeatElapsed := 0, electionElapsed := 0,
              randomizedElectionTimeout := 14, votes := [],
              state := RaftState.StateLeader } := rfl
    have := h candidatePeer _ 4 hrun 0 (by decide)
    revert this
    simp [candidatePeer, committedPeer, freshPeer]

/-- C16 (amended): `convertToLeaderAndInitState`, when it returns, has set the
role to Leader, `nextIndex[p] = len(log)` (at least 1 on a non-empty log) and
`matchIndex[p] = 0` for every peer `p`, the peer itself included, and it
returns when `nextIndex` and `matchIndex` have a position for every peer.
`becomeLeader`, when it returns, has set the role to Leader and `lead = me` and
has left `nextIndex`, `matchIndex`, the term and the log as they were; it
returns from every role but Follower when `electionTimeout` is positive. -/
theorem leader_initialisation (rf : Raft) :
    ((rf.peers ≤ rf.nextIndex.length ∧ rf.peers ≤ rf.matchIndex.length) →
      ∃ rf1, convertToLeaderAndInitState rf = .ok rf1) ∧
    (∀ rf1, convertToLeaderAndInitState rf = .ok rf1 →
      rf1.state = RaftState.StateLeader ∧ rf1.log = rf.log ∧
      rf1.currentTerm = rf.currentTerm ∧
      (∀ p : Nat, p < rf.peers →
        rf1.nextIndex[p]? = some (rf.log.length : Int) ∧ rf1.matchIndex[p]? = some 0) ∧
      (rf.log ≠ [] → 1 ≤ (rf.log.length : Int))) ∧
    (∀ draw : Int, rf.state ≠ RaftState.StateFollower → 0 < rf.electionTimeout →
      ∃ rf1, becomeLeader rf draw = .ok rf1) ∧
    (∀ (draw : Int) (rf1 : Raft), becomeLeader rf draw = .ok rf1 →
      rf1.state = RaftState.StateLeader ∧ rf1.lead = rf.me ∧
      rf1.nextIndex = rf.nextIndex ∧ rf1.matchIndex = rf.matchIndex ∧
      rf1.currentTerm = rf.currentTerm ∧ rf1.votedFor = rf.votedFor ∧
      rf1.log = rf.log) := by
  refine ⟨?_, ?_, ?_, ?_⟩
  · intro hlen
    unfold convertToLeaderAndInitState
    exact convertToLeaderAndInitStateLoop_returns _ rf.peers 0 _ (by simpa using hlen.1)
      (by simpa using hlen.2)
  · intro rf1 h
    unfold convertToLeaderAndInitState at h
    obtain ⟨g1, g2, _, g4, _, g6, g7⟩ := convertToLeaderAndInitStateLoop_ok _ _ _ _ _ h
    refine ⟨g1, g2, g4, ?_, ?_⟩
    · intro p hp
      have hp2 : 0 ≤ p ∧ p < 0 + rf.peers := ⟨Nat.zero_le _, by omega⟩
      constructor
      · rw [g6 p]; exact if_pos hp2
      · rw [g7 p]; exact if_pos hp2
    · intro hne
      have := List.length_pos.mpr hne
      omega
  · intro draw hf ht
    refine ⟨{ rf with
              lead := rf.me, heartbeatElapsed := 0, electionElapsed := 0,
              randomizedElectionTimeout := rf.electionTimeout + draw, votes := [],
              state := RaftState.StateLeader }, ?_⟩
    unfold becomeLeader
    rw [if_neg hf]
    unfold reset resetRandomizedElectionTimeout
    simp only [ne_eq, not_true_eq_false, if_false]
    rw [if_neg (by omega)]
  · intro draw rf1 h
    obtain ⟨_, _, h1⟩ := becomeLeader_ok rf draw rf1 h
    rw [h1]
    exact ⟨rfl, rfl, rfl, rfl, rfl, rfl, rfl⟩

/-- Witness for C16 (amended): `candidatePeer` becomes leader. -/
theorem leader_initialisation_witness :
    (∃ rf1, convertToLeaderAndInitState candidatePeer = .ok rf1 ∧
      rf1.nextIndex = [3, 3, 3] ∧ rf1.matchIndex = [0, 0, 0] ∧
      rf1.state = RaftState.StateLeader ∧ rf1.log = candidatePeer.log ∧
      rf1.currentTerm = candidatePeer.currentTerm ∧
      (∀ p : Nat, p < candidatePeer.peers →
        rf1.nextIndex[p]? = some (candidatePeer.log.length : Int) ∧
        rf1.matchIndex[p]? = some 0) ∧
      (candidatePeer.log ≠ [] → 1 ≤ (candidatePeer.log.length : Int))) ∧
    (∃ rf1, becomeLeader candidatePeer 4 = .ok rf1 ∧ rf1.nextIndex = [1, 1, 1]) :=
  ⟨⟨_, rfl, rfl, rfl, (leader_initialisation candidatePeer).2.1 _ rfl⟩, ⟨_, rfl, rfl⟩⟩

/-! ## Replies that arrive late -/

/-- The tally takes a reply to an old request: `candidatePeer` is a candidate
of term 2 with its own vote, one of three.  A granted reply to the request it
sent in term 1 raises its tally to 2 and signals the election victory. -/
theorem old_vote_reply_is_counted :
    ¬ (∀ (rf : Raft) (server : Int) (args : RequestVoteArgs) (reply : RequestVoteReply),
        reply.Term ≤ rf.currentTerm →
        (rf.state ≠ RaftState.StateCandidate ∨ args.Term ≠ rf.currentTerm) →
        (sendRequestVote rf server args true reply).1.votedCount = rf.votedCount ∧
        (sendRequestVote rf server args true reply).2 = false) := by
  intro h
  have := (h candidatePeer 1 oldVoteRequest oldVoteGranted (by decide)
    (Or.inr (by decide))).2
  revert this
  decide

/-- What `sendRequestVote` does with a reply with `reply.Term <= currentTerm`:
no election victory is signalled when the role is not
Candidate; the tally `votedCount` is unchanged when `VoteGranted` is false and
is raised by one when it is true, whatever the role; on a candidate the victory
is signalled exactly when the reply grants the vote and the raised tally
exceeds `len(peers)/2`; the request that was sent is not looked at, and term,
vote and role are as before. -/
theorem late_vote_reply (rf : Raft) (server : Int) (args : RequestVoteArgs)
    (reply : RequestVoteReply) (hle : reply.Term ≤ rf.currentTerm) :
    (rf.state ≠ RaftState.StateCandidate →
      (sendRequestVote rf server args true reply).2 = false) ∧
    (reply.VoteGranted = false →
      sendRequestVote rf server args true reply = (rf, false)) ∧
    (reply.VoteGranted = true →
      (sendRequestVote rf server args true reply).1 =
        { rf with votedCount := rf.votedCount + 1 }) ∧
    ((sendRequestVote rf server args true reply).2 = true ↔
      (reply.VoteGranted = true ∧ rf.state = RaftState.StateCandidate ∧
        rf.votedCount + 1 > ((rf.peers / 2 : Nat) : Int))) ∧
    (∀ args2 : RequestVoteArgs,
      sendRequestVote rf server args2 true reply = sendRequestVote rf server args true reply) ∧
    (sendRequestVote rf server args true reply).1.currentTerm = rf.currentTerm ∧
    (sendRequestVote rf server args true reply).1.votedFor = rf.votedFor ∧
    (sendRequestVote rf server args true reply).1.state = rf.state := by
  have hrule := rpcRuleForAllServer_of_le rf reply.Term hle
  have hrun : sendRequestVote rf server args true reply =
      if reply.VoteGranted then
        ({ rf with votedCount := rf.votedCount + 1 },
          judgeCandidateResult { rf with votedCount := rf.votedCount + 1 })
      else (rf, false) := by
    unfold sendRequestVote
    simp only [if_true, hrule]
  cases hg : reply.VoteGranted with
  | false =>
    have hres : sendRequestVote rf server args true reply = (rf, false) := by
      rw [hrun, hg]; rfl
    rw [hres]
    refine ⟨fun _ => rfl, fun _ => rfl, fun h => (by cases h), ?_, ?_, rfl, rfl, rfl⟩
    · constructor
      · intro h; cases h
      · intro h; cases h.1
    · intro args2
      unfold sendRequestVote
      simp only [if_true, hrule, hg, Bool.false_eq_true, if_false]
  | true =>
    have hres : sendRequestVote rf server args true reply =
        ({ rf with votedCount := rf.votedCount + 1 },
          judgeCandidateResult { rf with votedCount := rf.votedCount + 1 }) := by
      rw [hrun, hg]; rfl
    rw [hres]
    refine ⟨?_, fun h => (by cases h), fun _ => rfl, ?_, ?_, rfl, rfl, rfl⟩
    · intro hs
      unfold judgeCandidateResult
      simp [hs]
    · unfold judgeCandidateResult
      simp
    · intro args2
      unfold sendRequestVote
      simp only [if_true, hrule, hg]

/-- An instance of `late_vote_reply`: `committedPeer` is a follower of term 1
and handles a granted reply of term 1; its tally moves from 0 to 1 and nothing
is signalled. -/
theorem late_vote_reply_witness :
    oldVoteGranted.Term ≤ committedPeer.currentTerm ∧
    committedPeer.state ≠ RaftState.StateCandidate ∧
    sendRequestVote committedPeer 1 oldVoteRequest true oldVoteGranted =
      ({ committedPeer with votedCount := 1 }, false) ∧
    (sendRequestVote committedPeer 1 oldVoteRequest true oldVoteGranted).2 = false :=
  ⟨by decide, by decide, rfl,
    (late_vote_reply committedPeer 1 oldVoteRequest oldVoteGranted (by decide)).1 (by decide)⟩

theorem setIndex_ok {α : Type} (s : List α) (i : Int) (v : α) (s1 : List α)
    (h : setIndex s i v = .ok s1) :
    0 ≤ i ∧ i < (s.length : Int) ∧ s1 = s.set i.toNat v := by
  unfold setIndex at h
  split at h
  · rename_i hc
    cases h
    exact ⟨hc.1, hc.2, rfl⟩
  · cases h

/-- The success branch of `sendAppendEnties`, when it returns. -/
theorem sendAppendEntiesSuccess_ok (rf : Raft) (server : Int) (reply : AppendEntiesReply)
    (rf1 : Raft) (h : sendAppendEntiesSuccess rf server reply = .ok rf1) :
    ∃ n : Int,
      index (if reply.NextIndex > 0 then rf.nextIndex.set server.toNat reply.NextIndex
             else rf.nextIndex) server = .ok n ∧
      1 ≤ n ∧
      rf1.nextIndex = (if reply.NextIndex > 0 then rf.nextIndex.set server.toNat reply.NextIndex
                       else rf.nextIndex) ∧
      rf1.matchIndex = rf.matchIndex.set server.toNat (n - 1) ∧
      (rf.state ≠ RaftState.StateLeader → rf1.commitIndex = rf.commitIndex) := by
  unfold sendAppendEntiesSuccess at h
  have key : ∀ nextIndex1 : List Int,
      (match (index nextIndex1 server : Except Crash Int) with
        | .error c => (.error c : Except Crash Raft)
        | .ok n =>
          match (setIndex rf.matchIndex server (n - 1) : Except Crash (List Int)) with
          | .error c => .error c
          | .ok matchIndex1 =>
            if n < 1 then .error Crash.fatal
            else updateCommitIndex
              { rf with nextIndex := nextIndex1, matchIndex := matchIndex1 }) = .ok rf1 →
      ∃ n : Int, index nextIndex1 server = .ok n ∧ 1 ≤ n ∧ rf1.nextIndex = nextIndex1 ∧
        rf1.matchIndex = rf.matchIndex.set server.toNat (n - 1) ∧
        (rf.state ≠ RaftState.StateLeader → rf1.commitIndex = rf.commitIndex) := by
    intro nextIndex1 hk
    split at hk
    · cases hk
    · rename_i n hn
      split at hk
      · cases hk
      · rename_i m1 hm1
        obtain ⟨_, _, hm⟩ := setIndex_ok _ _ _ _ hm1
        split at hk
        · cases hk
        · rename_i hn1
          refine ⟨n, hn, by omega, ?_⟩
          rcases updateCommitIndex_ok _ _ hk with h1 | ⟨h1, _, hst, _⟩
          · rw [h1]
            exact ⟨rfl, hm, fun _ => rfl⟩
          · rw [h1]
            exact ⟨rfl, hm, fun hnl => absurd hst hnl⟩
  by_cases hpos : reply.NextIndex > 0
  · rw [if_pos hpos] at h ⊢
    cases hs : setIndex rf.nextIndex server reply.NextIndex with
    | error c => rw [hs] at h; cases h
    | ok n1 =>
      rw [hs] at h
      obtain ⟨_, _, hn1⟩ := setIndex_ok _ _ _ _ hs
      rw [← hn1]
      exact key n1 h
  · rw [if_neg hpos] at h ⊢
    exact key rf.nextIndex h

/-- C18 (defect in the code): `sendAppendEnties` does not compare the term of
the request that a reply answers with the current term, and on a success reply
it does not look at the role before it writes `nextIndex` and `matchIndex`.
The follower `freshPeer` handles a success reply for peer 1 and rewrites
`nextIndex[1]` and `matchIndex[1]`.  The leader `unackedLeader` of term 2,
whose entry at index 1 is of term 2, handles the success reply of peer 1 to a
request of term 1 that carried an entry of term 1 for index 1: it sets
`matchIndex[1] = 1`, although `matchIndex` is to record what is replicated on
the follower, and moves its commit index from 0 to 1. -/
theorem old_append_reply_is_applied :
    (¬ ∀ (rf : Raft) (server : Int) (args : AppendEntiesArgs) (reply : AppendEntiesReply)
        (rf1 : Raft),
        reply.Term ≤ rf.currentTerm →
        (rf.state ≠ RaftState.StateLeader ∨ args.Term ≠ rf.currentTerm) →
        sendAppendEnties rf server args true reply = .ok rf1 →
        rf1.nextIndex = rf.nextIndex ∧ rf1.matchIndex = rf.matchIndex ∧
        rf1.commitIndex = rf.commitIndex) ∧
    (oldAppendRequest.Term ≠ unackedLeader.currentTerm ∧
      ∃ rf1, sendAppendEnties unackedLeader 1 oldAppendRequest true
          { Term := 1, Success := true, NextIndex := 2 } = .ok rf1 ∧
        unackedLeader.commitIndex = 0 ∧ rf1.commitIndex = 1 ∧
        rf1.nextIndex = [2, 2, 1] ∧ rf1.matchIndex = [1, 1, 0]) := by
  constructor
  · intro h
    have hrun : sendAppendEnties freshPeer 1 oldAppendRequest true successReply =
        .ok { freshPeer with nextIndex := [1, 2, 1], matchIndex := [0, 1, 0] } := rfl
    have := (h freshPeer 1 oldAppendRequest successReply _ (by decide)
      (Or.inl (by decide)) hrun).1
    revert this
    decide
  · exact ⟨by decide, _, rfl, rfl, rfl, rfl, rfl⟩

/-- What `sendAppendEnties` does with a reply with `reply.Term <= currentTerm`:
the commit index is unchanged when the role is not Leader;
a failure reply puts `reply.NextIndex` into `nextIndex[server]` and changes
neither `matchIndex` nor the commit index; a success reply puts
`reply.NextIndex` into `nextIndex[server]` when it is positive and sets
`matchIndex[server] = nextIndex[server] - 1`; the request that was sent is not
looked at. -/
theorem late_append_reply (rf : Raft) (server : Int) (args : AppendEntiesArgs)
    (reply : AppendEntiesReply) (hle : reply.Term ≤ rf.currentTerm) :
    (∀ rf1, sendAppendEnties rf server args true reply = .ok rf1 →
      (rf.state ≠ RaftState.StateLeader → rf1.commitIndex = rf.commitIndex) ∧
      (reply.Success = false →
        rf1.nextIndex = rf.nextIndex.set server.toNat reply.NextIndex ∧
        rf1.matchIndex = rf.matchIndex ∧ rf1.commitIndex = rf.commitIndex) ∧
      (reply.Success = true →
        ∃ n : Int, index rf1.nextIndex server = .ok n ∧ 1 ≤ n ∧
          rf1.nextIndex =
            (if reply.NextIndex > 0 then rf.nextIndex.set server.toNat reply.NextIndex
             else rf.nextIndex) ∧
          rf1.matchIndex = rf.matchIndex.set server.toNat (n - 1))) ∧
    (∀ args2 : AppendEntiesArgs,
      sendAppendEnties rf server args2 true reply =
        sendAppendEnties rf server args true reply) := by
  constructor
  · intro rf1 h
    unfold sendAppendEnties at h
    rw [if_pos rfl, if_neg (by omega)] at h
    cases hs : reply.Success with
    | true =>
      rw [hs, if_pos rfl] at h
      obtain ⟨n, hn, hn1, hnext, hmatch, hcom⟩ := sendAppendEntiesSuccess_ok _ _ _ _ h
      refine ⟨hcom, fun hf => (by cases hf), fun _ => ⟨n, ?_, hn1, hnext, hmatch⟩⟩
      rw [hnext]; exact hn
    | false =>
      rw [hs, if_neg (by decide)] at h
      cases hset : setIndex rf.nextIndex server reply.NextIndex with
      | error c => rw [hset] at h; cases h
      | ok n1 =>
        rw [hset] at h
        simp only at h
        obtain ⟨_, _, hn1⟩ := setIndex_ok _ _ _ _ hset
        split at h
        · cases h
        · cases h
          exact ⟨fun _ => rfl, fun _ => ⟨hn1, rfl, rfl⟩, fun hf => (by cases hf)⟩
  · intro args2
    rfl

/-- An instance of `late_append_reply`: the follower `freshPeer` handles a
success reply of term 0 for peer 1. -/
theorem late_append_reply_witness :
    successReply.Term ≤ freshPeer.currentTerm ∧
    ∃ rf1, sendAppendEnties freshPeer 1 oldAppendRequest true successReply = .ok rf1 ∧
      rf1.nextIndex = [1, 2, 1] ∧ rf1.matchIndex = [0, 1, 0] ∧
      (freshPeer.state ≠ RaftState.StateLeader → rf1.commitIndex = freshPeer.commitIndex) :=
  ⟨by decide, _, rfl, rfl, rfl,
    ((late_append_reply freshPeer 1 oldAppendRequest successReply (by decide)).1 _ rfl).1⟩

/-! ## The retry hint -/

/-- C19 (defect in the code): `electedLeader` sends peer 1 the request that
`broadcastAppendEntriesRPC` builds, with `PrevLogIndex = 1`.  The follower
`freshPeer` holds the sentinel only, refuses, and answers with the hint
`min(commitIndex + 1, PrevLogIndex - 1) = 0`.  The leader stores 0 in
`nextIndex[1]`, and its next broadcast to peer 1 ends in the `log.Fatal` that
guards `prevLogIndex < 0`. -/
theorem retry_hint_below_one :
    ∃ args, broadcastAppendEntriesArgs electedLeader 1 = .ok args ∧
      freshPeer.currentTerm ≤ args.Term ∧ 0 ≤ args.PrevLogIndex ∧
      ∃ rf1 reply1, AppendEnties freshPeer args zeroAppendReply = .ok (rf1, reply1) ∧
        reply1.Success = false ∧ reply1.NextIndex = 0 ∧ reply1.Term = 2 ∧
        ∃ leader1, sendAppendEnties electedLeader 1 args true reply1 = .ok leader1 ∧
          leader1.nextIndex = [2, 0, 2] ∧
          broadcastAppendEntriesArgs leader1 1 = .error Crash.fatal :=
  ⟨{ Term := 2, LeaderId := 0, LeaderCommit := 0, PrevLogIndex := 1, PrevLogTerm := 1,
     Entries := [] },
    rfl, by decide, by decide, _, _, rfl, rfl, rfl, rfl, _, rfl, rfl, rfl⟩

/-! ## Saving before replying -/

theorem RequestVote_persister (rf : Raft) (args : RequestVoteArgs) (reply : RequestVoteReply)
    (rf1 : Raft) (reply1 : RequestVoteReply)
    (h : RequestVote rf args reply = .ok (rf1, reply1)) :
    rf1.persister = rf.persister := by
  have hp := (rpcRuleForAllServer_log rf args.Term).2.2
  unfold RequestVote at h
  simp only at h
  split at h
  · cases h; exact hp
  · split at h
    · split at h
      · cases h
      · cases h; exact hp
      · cases h; exact hp
    · cases h; exact hp

/-- C20 (defect in the code): `RequestVote` never calls `persist`.  The fresh
peer grants its vote to candidate 1 in term 1 and replies while the saved blob
is still empty, not the encoding of the new term and vote; in general
`RequestVote` leaves the persister as it was.  `AppendEnties` does save before
a success reply: the saved blob is then the encoding of the state. -/
theorem vote_granted_without_persist :
    (∃ rf1 reply1, RequestVote freshPeer voteForOne zeroVoteReply = .ok (rf1, reply1) ∧
      reply1.VoteGranted = true ∧ rf1.currentTerm = 1 ∧ rf1.votedFor = 1 ∧
      rf1.persister.raftstate = [] ∧
      encodeState rf1 =
        [GobValue.int 1, GobValue.logs [{ Term := 0, Command := 0, Index := 0 }],
         GobValue.int 1, GobValue.int 0] ∧
      rf1.persister.raftstate ≠ encodeState rf1) ∧
    (∀ (rf : Raft) (args : RequestVoteArgs) (reply : RequestVoteReply) (rf1 : Raft)
        (reply1 : RequestVoteReply),
      RequestVote rf args reply = .ok (rf1, reply1) → rf1.persister = rf.persister) ∧
    (∀ (rf : Raft) (args : AppendEntiesArgs) (reply : AppendEntiesReply) (rf1 : Raft)
        (reply1 : AppendEntiesReply),
      AppendEnties rf args reply = .ok (rf1, reply1) → reply1.Success = true →
        rf1.persister.raftstate = encodeState rf1) := by
  refine ⟨⟨_, _, rfl, rfl, rfl, rfl, rfl, rfl, by decide⟩, RequestVote_persister, ?_⟩
  intro rf args reply rf1 reply1 h hs
  rcases AppendEnties_ok_cases rf args reply rf1 reply1 h with
    ⟨_, _, h2⟩ | ⟨_, _, _, h1⟩ | ⟨_, _, _, _, h1⟩
  · rw [h2] at hs
    cases hs
  · unfold appendRefuse at h1
    cases h1
    cases hs
  · obtain ⟨L, _, _, _, _, _, _, _, _, _, _, hp⟩ := appendAccept_ok _ _ _ _ _ h1
    exact hp

/-! ## Restoring the saved state: the facts -/

/-- The sample state `freshPeer` is the state that `Make` returns for peer 0 of
three peers on an empty persister. -/
theorem Make_fresh : Make 3 0 { raftstate := [] } = .ok freshPeer := rfl

/-- C21: the blob that `persist` saves, read back by `readPersist` on the peer
that `Make` has just built, gives the `currentTerm`, `votedFor`, `log` and
`commitIndex` of the state that was saved; `readPersist` takes the four values
of a blob in the order in which `persist` writes them; and `Make` on that
persister returns a peer with these four fields whenever the saved log passes
`checkLog`. -/
theorem persist_readPersist_roundtrip (rf : Raft) (peers : Nat) (me : Int) :
    ((readPersist (newRaft peers me (persist rf).persister)
        (persist rf).persister.ReadRaftState).currentTerm = rf.currentTerm ∧
     (readPersist (newRaft peers me (persist rf).persister)
        (persist rf).persister.ReadRaftState).votedFor = rf.votedFor ∧
     (readPersist (newRaft peers me (persist rf).persister)
        (persist rf).persister.ReadRaftState).log = rf.log ∧
     (readPersist (newRaft peers me (persist rf).persister)
        (persist rf).persister.ReadRaftState).commitIndex = rf.commitIndex) ∧
    (persist rf).persister.ReadRaftState =
      [GobValue.int rf.currentTerm, GobValue.logs rf.log, GobValue.int rf.votedFor,
       GobValue.int rf.commitIndex] ∧
    (∀ (p : Persister) (a b c : Int) (l : List Log),
      (readPersist (newRaft peers me p)
          [GobValue.int a, GobValue.logs l, GobValue.int b, GobValue.int c]).currentTerm = a ∧
      (readPersist (newRaft peers me p)
          [GobValue.int a, GobValue.logs l, GobValue.int b, GobValue.int c]).log = l ∧
      (readPersist (newRaft peers me p)
          [GobValue.int a, GobValue.logs l, GobValue.int b, GobValue.int c]).votedFor = b ∧
      (readPersist (newRaft peers me p)
          [GobValue.int a, GobValue.logs l, GobValue.int b, GobValue.int c]).commitIndex = c) ∧
    (logIndexed rf.log →
      ∃ rf1, Make peers me (persist rf).persister = .ok rf1 ∧
        rf1.currentTerm = rf.currentTerm ∧ rf1.votedFor = rf.votedFor ∧
        rf1.log = rf.log ∧ rf1.commitIndex = rf.commitIndex) := by
  refine ⟨⟨rfl, rfl, rfl, rfl⟩, rfl, fun _ _ _ _ _ => ⟨rfl, rfl, rfl, rfl⟩, ?_⟩
  intro hidx
  have hck : checkLog (readPersist (newRaft peers me (persist rf).persister)
      (persist rf).persister.ReadRaftState) = .ok () := by
    unfold checkLog
    exact (checkLogFrom_zero_iff rf.log).mpr hidx
  have hrun : Make peers me (persist rf).persister =
      .ok { readPersist (newRaft peers me (persist rf).persister)
              (persist rf).persister.ReadRaftState with
            nextIndex := List.replicate peers (rf.log.length : Int) } := by
    unfold Make
    simp only
    rw [hck]
    rfl
  exact ⟨_, hrun, rfl, rfl, rfl, rfl⟩

/-- Witness for C21: `termFivePeer` is saved and restored on a new peer 1 of
three. -/
theorem persist_readPersist_roundtrip_witness :
    logIndexed termFivePeer.log ∧
    ∃ rf1, Make 3 1 (persist termFivePeer).persister = .ok rf1 ∧
      rf1.currentTerm = 5 ∧ rf1.votedFor = 2 ∧ rf1.log = termFivePeer.log ∧
      rf1.commitIndex = 1 ∧
      rf1.currentTerm = termFivePeer.currentTerm ∧ rf1.votedFor = termFivePeer.votedFor ∧
      rf1.log = termFivePeer.log ∧ rf1.commitIndex = termFivePeer.commitIndex := by
  have hidx : logIndexed termFivePeer.log := (checkLogFrom_zero_iff _).mp rfl
  obtain ⟨rf1, h1, h2⟩ := (persist_readPersist_roundtrip termFivePeer 3 1).2.2.2 hidx
  have hrun : Make 3 1 (persist termFivePeer).persister =
      .ok { newRaft 3 1 (persist termFivePeer).persister with
            currentTerm := 5, votedFor := 2, log := termFivePeer.log, commitIndex := 1,
            nextIndex := [3, 3, 3] } := rfl
  rw [hrun] at h1
  cases h1
  exact ⟨hidx, _, hrun, rfl, rfl, rfl, rfl, h2⟩

/-! ## Handling an append request twice -/

/-- The result of the accepting branch of `AppendEnties`, given the log that
the merge loop leaves and that `checkLog` accepts. -/
theorem appendAccept_eq (rf : Raft) (args : AppendEntiesArgs) (reply : AppendEntiesReply)
    (L : List Log) (hL : appendLoop rf.log args.PrevLogIndex 0 args.Entries = .ok L)
    (hck : checkLogFrom 0 L = .ok ()) :
    appendAccept rf args reply =
      .ok (persist { rf with
                     log := L,
                     commitIndex :=
                       if args.LeaderCommit > rf.commitIndex then
                         min args.LeaderCommit ((L.length : Int) - 1)
                       else rf.commitIndex },
           { Term := rf.currentTerm, Success := true, NextIndex := (L.length : Int) }) := by
  unfold appendAccept
  rw [hL]
  simp only
  by_cases hc : args.LeaderCommit > rf.commitIndex
  · rw [if_pos hc, if_pos hc]
    unfold checkLog
    simp only
    rw [hck]
    rfl
  · rw [if_neg hc, if_neg hc]
    unfold checkLog
    simp only
    rw [hck]
    rfl

/-- The commit update of `AppendEnties` applied to its own result changes
nothing. -/
theorem commit_update_twice (leaderCommit commitIndex last : Int) :
    (if leaderCommit >
        (if leaderCommit > commitIndex then min leaderCommit last else commitIndex) then
      min leaderCommit last
    else (if leaderCommit > commitIndex then min leaderCommit last else commitIndex)) =
    (if leaderCommit > commitIndex then min leaderCommit last else commitIndex) := by
  unfold min
  split_ifs <;> omega

/-- Saving a state whose saved blob is already its own encoding changes
nothing. -/
theorem persist_fixed (X : Raft) (h : X.persister.raftstate = encodeState X) :
    persist X = X := by
  obtain ⟨peers, ⟨blob⟩, me, ct, vf, log, ci, la, ni, mi, st, ee, he, ht, et, rt, vc, ld, vs⟩ := X
  simp only [persist, Persister.SaveRaftState, encodeState] at h ⊢
  rw [h]

/-- A request that a state accepts without any change of its log or commit
index, while the saved blob is the encoding of the state, returns that state. -/
theorem AppendEnties_again (X : Raft) (args : AppendEntiesArgs) (reply : AppendEntiesReply)
    (hct : X.currentTerm = args.Term) (hrole : X.state ≠ RaftState.StateLeader)
    (h0 : 0 ≤ args.PrevLogIndex)
    (hpass : ∃ p, index X.log args.PrevLogIndex = .ok p ∧ p.Term = args.PrevLogTerm)
    (hL : appendLoop X.log args.PrevLogIndex 0 args.Entries = .ok X.log)
    (hck : checkLogFrom 0 X.log = .ok ())
    (hc : (if args.LeaderCommit > X.commitIndex then
            min args.LeaderCommit ((X.log.length : Int) - 1) else X.commitIndex) =
          X.commitIndex)
    (hp : X.persister.raftstate = encodeState X) :
    AppendEnties X args reply =
      .ok (X, { Term := X.currentTerm, Success := true, NextIndex := (X.log.length : Int) }) := by
  rw [(AppendEnties_check X args reply (le_of_eq hct) hrole h0).1 hpass,
    rpcRuleForAllServer_of_le X args.Term (le_of_eq hct.symm),
    appendAccept_eq X args reply X.log hL hck, hc]
  have : persist { X with log := X.log, commitIndex := X.commitIndex } = X := persist_fixed X hp
  rw [this]

/-- The universal term rule leaves a peer that is not Leader not Leader. -/
theorem rpcRuleForAllServer_not_leader (rf : Raft) (term : Int)
    (hrole : rf.state ≠ RaftState.StateLeader) :
    (rpcRuleForAllServer rf term).state ≠ RaftState.StateLeader := by
  unfold rpcRuleForAllServer
  split
  · simp
  · exact hrole

/-- On a peer that is not Leader, a request that is not stale is handled as it
is by the state that the universal term rule leaves. -/
theorem AppendEnties_after_rule (rf : Raft) (args : AppendEntiesArgs)
    (reply : AppendEntiesReply) (hterm : rf.currentTerm ≤ args.Term)
    (hrole : rf.state ≠ RaftState.StateLeader) :
    AppendEnties (rpcRuleForAllServer rf args.Term) args reply =
      AppendEnties rf args reply := by
  have hct : (rpcRuleForAllServer rf args.Term).currentTerm = args.Term := by
    rw [rpcRuleForAllServer_currentTerm]; exact max_eq_right hterm
  have hr := rpcRuleForAllServer_not_leader rf args.Term hrole
  have hfix := rpcRuleForAllServer_of_le (rpcRuleForAllServer rf args.Term) args.Term
    (le_of_eq hct.symm)
  unfold AppendEnties AppendEntiesBody
  rw [if_neg (show ¬ args.Term < (rpcRuleForAllServer rf args.Term).currentTerm by omega),
    if_neg hr, if_neg (show ¬ args.Term < rf.currentTerm by omega), if_neg hrole]
  simp only [hfix]

/-- C22: when `AppendEnties` returns, handling the same request again on the
resulting state returns the same state, whole (so the same `currentTerm`,
`votedFor`, role, log and `commitIndex`), and the same reply.  The first call
fails to return only on a request that is not stale: on a Leader, at the send
on `heartbeatChan`; on another peer when the index expression of the
consistency check fails, for a `PrevLogIndex` that is negative or the largest
`int`, or when `checkLog` stops the process on the merged log. -/
theorem AppendEnties_idempotent (rf : Raft) (args : AppendEntiesArgs)
    (reply : AppendEntiesReply) :
    (∀ rf1 reply1, AppendEnties rf args reply = .ok (rf1, reply1) →
      AppendEnties rf1 args reply = .ok (rf1, reply1) ∧
      ∀ rf2 reply2, AppendEnties rf1 args reply = .ok (rf2, reply2) →
        rf2.currentTerm = rf1.currentTerm ∧ rf2.votedFor = rf1.votedFor ∧
        rf2.state = rf1.state ∧ rf2.log = rf1.log ∧
        rf2.commitIndex = rf1.commitIndex ∧ reply2 = reply1) ∧
    (∀ c, AppendEnties rf args reply = .error c →
      rf.currentTerm ≤ args.Term ∧
      ((rf.state = RaftState.StateLeader ∧ c = Crash.blocked) ∨
        (rf.state ≠ RaftState.StateLeader ∧
          (args.PrevLogIndex < 0 ∨ MaxInt64 ≤ args.PrevLogIndex) ∧
          c = Crash.indexOutOfRange) ∨
        (rf.state ≠ RaftState.StateLeader ∧
          (∃ p, index rf.log args.PrevLogIndex = .ok p ∧ p.Term = args.PrevLogTerm) ∧
          ∃ L, appendLoop rf.log args.PrevLogIndex 0 args.Entries = .ok L ∧
            checkLogFrom 0 L = .error c))) ∧
    (rf.state = RaftState.StateLeader → rf.currentTerm ≤ args.Term →
      AppendEnties rf args reply = .error Crash.blocked) := by
  refine ⟨?_, fun c h => AppendEnties_error rf args reply c h,
    fun hrole hterm => AppendEnties_leader rf args reply hterm hrole⟩
  intro rf1 reply1 h
  have key : AppendEnties rf1 args reply = .ok (rf1, reply1) := by
    rcases AppendEnties_ok_cases rf args reply rf1 reply1 h with
      ⟨_, hrf, _⟩ | ⟨hterm, hrole, hno, hre⟩ | ⟨hterm, hrole, h0, ⟨p, hp, hpt⟩, hacc⟩
    · rw [hrf]; rw [hrf] at h; exact h
    · simp only [appendRefuse, Prod.mk.injEq] at hre
      obtain ⟨h1, _⟩ := hre
      rw [h1, AppendEnties_after_rule rf args reply hterm hrole, h, h1]
    · have hlog := rpcRuleForAllServer_log rf args.Term
      have hct : (rpcRuleForAllServer rf args.Term).currentTerm = args.Term := by
        rw [rpcRuleForAllServer_currentTerm]; exact max_eq_right hterm
      obtain ⟨L, hL, hck, hl1, hc1, ht1, _, hst, hr1, hr2, hr3, hps⟩ :=
        appendAccept_ok _ args reply rf1 reply1 hacc
      rw [hlog.1] at hL
      have hp0 := index_ok_lt _ _ _ hp
      obtain ⟨n, hn⟩ : ∃ n : Nat, args.PrevLogIndex = (n : Int) :=
        ⟨args.PrevLogIndex.toNat, (Int.toNat_of_nonneg h0).symm⟩
      have hpn : rf.log[n]? = some p := (index_eq_getElem? rf.log _ n p hn).mp hp
      have hnlt : n < rf.log.length := by
        have := hp0.2; rw [hn] at this; exact_mod_cast this
      obtain ⟨L0, hL0, htake, hent, _, _⟩ :=
        appendLoop_spec rf.log args.PrevLogIndex args.Entries 0 (n + 1)
          (by rw [hn]; push_cast; ring) hnlt
      rw [hL] at hL0
      cases hL0
      have hLn : L[n]? = some p := by
        have e1 : (L.take (n + 1))[n]? = L[n]? := by
          rw [List.getElem?_take]; simp
        have e2 : (rf.log.take (n + 1))[n]? = rf.log[n]? := by
          rw [List.getElem?_take]; simp
        rw [← e1, htake, e2]; exact hpn
      have hlen : n + 1 ≤ L.length := by
        have := List.getElem?_eq_some_iff.mp hLn
        obtain ⟨hh, _⟩ := this
        omega
      obtain ⟨L2, hL2, _, _, _, hsame⟩ :=
        appendLoop_spec L args.PrevLogIndex args.Entries 0 (n + 1)
          (by rw [hn]; push_cast; ring) hlen
      have hL2eq : L2 = L := hsame hent
      rw [hL2eq] at hL2
      have hrep : reply1 = { Term := rf1.currentTerm, Success := true,
                             NextIndex := (rf1.log.length : Int) } := by
        cases reply1
        simp only at hr1 hr2 hr3
        rw [hr1, hr2, hr3, ht1, hl1]
      rw [hrep]
      have hst1 : rf1.state ≠ RaftState.StateLeader := by
        rw [hst]; exact rpcRuleForAllServer_not_leader rf args.Term hrole
      apply AppendEnties_again rf1 args reply (by rw [ht1]; exact hct) hst1 h0
      · exact ⟨p, by rw [hl1]; exact (index_eq_getElem? L _ n p hn).mpr hLn, hpt⟩
      · rw [hl1]; exact hL2
      · rw [hl1]; exact hck
      · rw [hc1, hl1]; exact commit_update_twice _ _ _
      · exact hps
  refine ⟨key, ?_⟩
  intro rf2 reply2 h2
  rw [key] at h2
  cases h2
  exact ⟨rfl, rfl, rfl, rfl, rfl, rfl⟩


/-- Witness for C22: `committedPeer` handles `committingAppend`, which replaces
entry 2, adds entry 3 and moves the commit index to 3; handling the same
request again returns the same state and the same reply. -/
theorem AppendEnties_idempotent_witness :
    ∃ rf1 reply1,
      AppendEnties committedPeer committingAppend zeroAppendReply = .ok (rf1, reply1) ∧
      rf1.currentTerm = 2 ∧ rf1.commitIndex = 3 ∧ rf1.log.length = 4 ∧
      reply1 = { Term := 2, Success := true, NextIndex := 4 } ∧
      AppendEnties rf1 committingAppend zeroAppendReply = .ok (rf1, reply1) :=
  ⟨_, _, rfl, rfl, rfl, rfl, rfl,
    ((AppendEnties_idempotent committedPeer committingAppend zeroAppendReply).1 _ _ rfl).1⟩

/-! ## The transitions of the tick-based design -/

/-- The result of `reset` when the election timeout is positive: the term is
`term`, the vote is cleared exactly when the term differed, and the timers, the
leader hint and the votes are cleared. -/
theorem reset_ok (raft : Raft) (term draw : Int) (h : 0 < raft.electionTimeout) :
    reset raft term draw =
      .ok { raft with
            currentTerm := term,
            votedFor := if raft.currentTerm ≠ term then None else raft.votedFor,
            lead := None, heartbeatElapsed := 0, electionElapsed := 0,
            randomizedElectionTimeout := raft.electionTimeout + draw, votes := [] } := by
  unfold reset resetRandomizedElectionTimeout
  by_cases hne : raft.currentTerm = term
  · subst hne
    simp only [ne_eq, not_true_eq_false, if_false]
    rw [if_neg (by omega)]
  · simp only [ne_eq, hne, not_false_eq_true, if_true]
    rw [if_neg (by simpa using h)]

/-- With an election timeout that is not positive, `reset` ends in the panic
of `Intn`. -/
theorem reset_error (raft : Raft) (term draw : Int) (h : raft.electionTimeout ≤ 0) :
    reset raft term draw = .error Crash.panic := by
  unfold reset resetRandomizedElectionTimeout
  by_cases hne : raft.currentTerm = term
  · subst hne
    simp only [ne_eq, not_true_eq_false, if_false]
    rw [if_pos h]
  · simp only [ne_eq, hne, not_false_eq_true, if_true]
    rw [if_pos (by simpa using h)]

/-- The body of `becomeFollower` on a term below the peer's term: `reset`
compares with `currentTerm != term`, so the lower term is adopted and the vote
cleared.  `termFivePeer` is at term 5 and has voted for peer 2;
`becomeFollower(3, 1)` would leave it at term 3 with no vote.  The method has
no caller in the source; the callers of the `reset` it is taken from pass a
term that is not below the peer's term. -/
theorem becomeFollower_lowers_term :
    termFivePeer.currentTerm = 5 ∧ termFivePeer.votedFor = 2 ∧
      ∃ r1, becomeFollower termFivePeer 3 1 4 = .ok r1 ∧
        r1.currentTerm = 3 ∧ r1.votedFor = None ∧
        r1.state = RaftState.StateFollower ∧ r1.lead = 1 :=
  ⟨rfl, rfl, _, rfl, rfl, rfl, rfl, rfl⟩

/-- C23: for a term that is not below the peer's term, `becomeFollower`
returns when the election timeout is positive, with role Follower, the given
lead, no votes and both timers at 0; a term above the peer's term is adopted
and the vote cleared, and for the peer's own term the term and the vote are as
before.  With an election timeout that is not positive the call ends in the
panic of `Intn`. -/
theorem becomeFollower_transition (raft : Raft) (term lead draw : Int)
    (hterm : raft.currentTerm ≤ term) :
    (0 < raft.electionTimeout →
      ∃ r1, becomeFollower raft term lead draw = .ok r1 ∧
        r1.state = RaftState.StateFollower ∧ r1.lead = lead ∧ r1.votes = [] ∧
        r1.electionElapsed = 0 ∧ r1.heartbeatElapsed = 0 ∧
        (term > raft.currentTerm → r1.currentTerm = term ∧ r1.votedFor = None) ∧
        (¬ term > raft.currentTerm →
          r1.currentTerm = raft.currentTerm ∧ r1.votedFor = raft.votedFor)) ∧
    (raft.electionTimeout ≤ 0 →
      becomeFollower raft term lead draw = .error Crash.panic) := by
  constructor
  · intro h
    refine ⟨_, by unfold becomeFollower; rw [reset_ok raft term draw h], rfl, rfl, rfl, rfl,
      rfl, ?_, ?_⟩
    · intro hgt
      refine ⟨rfl, ?_⟩
      simp only
      rw [if_pos (by omega)]
    · intro hle
      have he : raft.currentTerm = term := by omega
      refine ⟨he.symm, ?_⟩
      simp only
      rw [if_neg (fun e => e he)]
  · intro h
    unfold becomeFollower
    rw [reset_error raft term draw h]

/-- Witness for C23: `termFivePeer`, at term 5 with a vote for peer 2, becomes
a follower of peer 1 at term 7. -/
theorem becomeFollower_transition_witness :
    termFivePeer.currentTerm ≤ 7 ∧ 0 < termFivePeer.electionTimeout ∧
    ∃ r1, becomeFollower termFivePeer 7 1 4 = .ok r1 ∧
      r1.state = RaftState.StateFollower ∧ r1.lead = 1 ∧ r1.votes = [] ∧
      r1.currentTerm = 7 ∧ r1.votedFor = None := by
  obtain ⟨r1, h1, h2, h3, h4, _, _, h5, _⟩ :=
    (becomeFollower_transition termFivePeer 7 1 4 (by decide)).1 (by decide)
  exact ⟨by decide, by decide, r1, h1, h2, h3, h4, (h5 (by decide)).1, (h5 (by decide)).2⟩

/-- C24 as stated fails: `lastTermPeer` is a follower whose term is the largest
`int`, a term that one vote request installs.  The increment wraps:
`resetCandidateState` and `becomeCandidate` leave the smallest `int` as the
term, not the term raised by 1. -/
theorem election_start_wraps_last_term :
    lastTermPeer.state ≠ RaftState.StateLeader ∧ lastTermPeer.currentTerm = MaxInt64 ∧
    (resetCandidateState lastTermPeer).currentTerm = MinInt64 ∧
    (resetCandidateState lastTermPeer).currentTerm ≠ lastTermPeer.currentTerm + 1 ∧
    (∃ r1, becomeCandidate lastTermPeer 4 = .ok r1 ∧ r1.currentTerm = MinInt64 ∧
      r1.currentTerm ≠ lastTermPeer.currentTerm + 1) ∧
    (∃ r1, campaign lastTermPeer 4 = .ok r1 ∧ r1.currentTerm = MinInt64) :=
  ⟨by decide, rfl, by decide, by decide, ⟨_, rfl, by decide, by decide⟩, ⟨_, rfl, by decide⟩⟩

/-- C24 (amended): from a role other than Leader, with a term in the range of
`int` below the largest `int` and with a positive election timeout,
`becomeCandidate` returns with role Candidate, the term raised by exactly 1,
the vote given to the peer itself, both timers at 0 and no votes, and
`campaign` returns that state with the votes `{me: true}`, a tally of 1;
`resetCandidateState` raises the term by 1, votes for the peer itself and sets
`votedCount` to 1.  With an election timeout that is not positive both end in
the panic of `Intn`, and from role Leader both end in a panic. -/
theorem candidate_transition (r : Raft) (draw : Int)
    (hrole : r.state ≠ RaftState.StateLeader)
    (hmin : MinInt64 ≤ r.currentTerm) (hmax : r.currentTerm < MaxInt64) :
    (0 < r.electionTimeout →
      ∃ r1, becomeCandidate r draw = .ok r1 ∧
        r1.state = RaftState.StateCandidate ∧ r1.currentTerm = r.currentTerm + 1 ∧
        r1.votedFor = r.me ∧ r1.votes = [] ∧
        r1.electionElapsed = 0 ∧ r1.heartbeatElapsed = 0 ∧
        campaign r draw = .ok { r1 with votes := [(r.me, true)] } ∧
        (poll r1 r1.me true).2 = 1) ∧
    (r.electionTimeout ≤ 0 →
      becomeCandidate r draw = .error Crash.panic ∧ campaign r draw = .error Crash.panic) ∧
    ((resetCandidateState r).currentTerm = r.currentTerm + 1 ∧
      (resetCandidateState r).votedFor = r.me ∧ (resetCandidateState r).votedCount = 1) ∧
    (∀ l : Raft, l.state = RaftState.StateLeader →
      becomeCandidate l draw = .error Crash.panic ∧ campaign l draw = .error Crash.panic) := by
  have hw : wrapInt (r.currentTerm + 1) = r.currentTerm + 1 :=
    wrapInt_of_range _ (by omega) (by omega)
  refine ⟨?_, ?_, ⟨?_, rfl, rfl⟩, ?_⟩
  · intro h
    have hb : becomeCandidate r draw =
        .ok { r with
              currentTerm := r.currentTerm + 1, votedFor := r.me,
              lead := None, heartbeatElapsed := 0, electionElapsed := 0,
              randomizedElectionTimeout := r.electionTimeout + draw, votes := [],
              state := RaftState.StateCandidate } := by
      unfold becomeCandidate
      rw [if_neg hrole, hw, reset_ok r _ draw h]
    refine ⟨_, hb, rfl, rfl, rfl, rfl, rfl, rfl, ?_, ?_⟩
    · unfold campaign
      rw [hb]
      rfl
    · rfl
  · intro h
    have hb : becomeCandidate r draw = .error Crash.panic := by
      unfold becomeCandidate
      rw [if_neg hrole, reset_error r _ draw h]
    refine ⟨hb, ?_⟩
    unfold campaign
    rw [hb]
  · show wrapInt (r.currentTerm + 1) = r.currentTerm + 1
    exact hw
  · intro l hl
    have hb : becomeCandidate l draw = .error Crash.panic := by
      unfold becomeCandidate
      rw [if_pos hl]
    refine ⟨hb, ?_⟩
    unfold campaign
    rw [hb]

/-- Witness for C24 (amended): `committedPeer`, a follower at term 1 and peer 0
of 3, starts an election. -/
theorem candidate_transition_witness :
    committedPeer.state ≠ RaftState.StateLeader ∧
    MinInt64 ≤ committedPeer.currentTerm ∧ committedPeer.currentTerm < MaxInt64 ∧
    0 < committedPeer.electionTimeout ∧
    ∃ r1, becomeCandidate committedPeer 4 = .ok r1 ∧
      r1.state = RaftState.StateCandidate ∧ r1.currentTerm = 2 ∧ r1.votedFor = 0 ∧
      campaign committedPeer 4 = .ok { r1 with votes := [(0, true)] } := by
  obtain ⟨r1, h1, h2, h3, h4, _, _, _, h5, _⟩ :=
    (candidate_transition committedPeer 4 (by decide) (by decide) (by decide)).1 (by decide)
  exact ⟨by decide, by decide, by decide, by decide, r1, h1, h2, h3, h4, h5⟩

/-! ## The apply routine of the tick-based design -/

/-- The loop of `applyCommitLog` runs like the loop of `stateMachine`; the two
routines differ in where the loop starts and in what becomes of
`lastApplied`. -/
theorem applyCommitLogLoop_eq (log : List Log) :
    ∀ (n : Nat) (i : Int), applyCommitLogLoop log i n = stateMachineLoop log i n := by
  intro n
  induction n with
  | zero => intro i; rfl
  | succ n ih =>
    intro i
    unfold applyCommitLogLoop stateMachineLoop
    rw [ih (i + 1)]

/-- The routine `applyCommitLog` on a state with `0 <= lastApplied <
commitIndex <= len(log) - 1` whose entries carry their own position: it
returns the state as it was and sends the entries from `lastApplied` itself up
to the commit index, in order. -/
theorem applyCommitLog_spec (r : Raft) (h0 : 0 ≤ r.lastApplied)
    (hla : r.lastApplied < r.commitIndex)
    (hci : r.commitIndex ≤ (r.log.length : Int) - 1) (hidx : logIndexed r.log) :
    ∃ msgs, applyCommitLog r = .ok (r, msgs) ∧
      msgs.length = (r.commitIndex - r.lastApplied + 1).toNat ∧
      ∀ k : Nat, k < msgs.length →
        ∃ e, index r.log (r.lastApplied + (k : Int)) = .ok e ∧
          msgs[k]? = some { Index := r.lastApplied + (k : Int), Command := e.Command,
                            UseSnapshot := false, Snapshot := [] } := by
  obtain ⟨msgs, hrun, hlen, hmsgs⟩ :=
    stateMachineLoop_spec r.log hidx (r.commitIndex - r.lastApplied + 1).toNat r.lastApplied h0
      (by rw [Int.toNat_of_nonneg (by omega)]; omega)
  refine ⟨msgs, ?_, hlen, ?_⟩
  · unfold applyCommitLog
    rw [if_pos hla, applyCommitLogLoop_eq, hrun]
  · intro k hk
    exact hmsgs k (by rw [← hlen]; exact hk)

/-- C25 (defect in the code): the loop of `applyCommitLog` starts at
`lastApplied`, not at `lastApplied + 1`, and the routine never assigns
`lastApplied`.  `committedPeer` has `lastApplied = 0` and `commitIndex = 1`:
the routine sends the sentinel at index 0 and then entry 1, leaves
`lastApplied` at 0, and a second call sends both again, where one iteration of
`stateMachine` sends entry 1 only and moves `lastApplied` to 1.  In general a
returning call leaves the state as it was, and on a state with `0 <=
lastApplied < commitIndex <= len(log) - 1` whose entries carry their position
it returns and sends the entries at `lastApplied, ..., commitIndex`. -/
theorem applyCommitLog_repeats :
    (committedPeer.lastApplied < committedPeer.commitIndex ∧
      committedPeer.commitIndex ≤ (committedPeer.log.length : Int) - 1 ∧
      ∃ r1 msgs1 r2 msgs2,
        applyCommitLog committedPeer = .ok (r1, msgs1) ∧
        msgs1 = [{ Index := 0, Command := 0, UseSnapshot := false, Snapshot := [] },
                 { Index := 1, Command := 7, UseSnapshot := false, Snapshot := [] }] ∧
        r1.lastApplied = 0 ∧
        applyCommitLog r1 = .ok (r2, msgs2) ∧ msgs2 = msgs1 ∧ r2.lastApplied = 0 ∧
        stateMachine committedPeer =
          .ok ({ committedPeer with lastApplied := 1 },
               [{ Index := 1, Command := 7, UseSnapshot := false, Snapshot := [] }])) ∧
    (∀ (r r1 : Raft) (msgs : List ApplyMsg),
      applyCommitLog r = .ok (r1, msgs) → r1 = r) ∧
    (∀ r : Raft, 0 ≤ r.lastApplied → r.lastApplied < r.commitIndex →
      r.commitIndex ≤ (r.log.length : Int) - 1 → logIndexed r.log →
      ∃ msgs, applyCommitLog r = .ok (r, msgs) ∧
        msgs.length = (r.commitIndex - r.lastApplied + 1).toNat ∧
        ∀ k : Nat, k < msgs.length →
          ∃ e, index r.log (r.lastApplied + (k : Int)) = .ok e ∧
            msgs[k]? = some { Index := r.lastApplied + (k : Int), Command := e.Command,
                              UseSnapshot := false, Snapshot := [] }) := by
  refine ⟨⟨by decide, by decide, _, _, _, _, rfl, rfl, rfl, rfl, rfl, rfl, rfl⟩, ?_,
    applyCommitLog_spec⟩
  intro r r1 msgs h
  unfold applyCommitLog at h
  by_cases hc : r.commitIndex > r.lastApplied
  · rw [if_pos hc] at h
    cases hl : applyCommitLogLoop r.log r.lastApplied
        (r.commitIndex - r.lastApplied + 1).toNat with
    | error c => rw [hl] at h; cases h
    | ok m => rw [hl] at h; cases h; rfl
  · rw [if_neg hc] at h
    cases h
    rfl

/-- C17 (defect in the code): `sendRequestVote` counts every granted reply; it
does not compare the term of the request that the reply answers with the
current term.  `voterPeer` grants `candidatePeer` its vote of term 1; the reply
is late.  In term 2 `voterPeer` grants its vote to `rivalCandidate`, whose
tally reaches 2 of 3 and signals the victory.  `candidatePeer`, now a
candidate of term 2 whose tally `resetCandidateState` has set back to 1, then
handles the late reply of term 1: its tally reaches 2 as well and it signals
the victory of term 2 too, with one vote of that term. -/
theorem old_vote_reply_elects_second_leader :
    oldVoteRequest.Term = 1 ∧ candidatePeer.currentTerm = 2 ∧
    rivalCandidate.currentTerm = 2 ∧ candidatePeer.votedCount = 1 ∧
    oldVoteRequest.Term ≠ candidatePeer.currentTerm ∧
    oldVoteGranted.Term ≤ candidatePeer.currentTerm ∧
    ∃ b1 b2,
      RequestVote voterPeer oldVoteRequest zeroVoteReply = .ok (b1, oldVoteGranted) ∧
      RequestVote b1 rivalVoteRequest zeroVoteReply =
        .ok (b2, { Term := 2, VoteGranted := true }) ∧
      b2.currentTerm = 2 ∧ b2.votedFor = 2 ∧
      sendRequestVote rivalCandidate 1 rivalVoteRequest true
          { Term := 2, VoteGranted := true } =
        ({ rivalCandidate with votedCount := 2 }, true) ∧
      sendRequestVote candidatePeer 1 oldVoteRequest true oldVoteGranted =
        ({ candidatePeer with votedCount := 2 }, true) :=
  ⟨rfl, rfl, rfl, rfl, by decide, by decide, _, _, rfl, rfl, rfl, rfl, rfl, rfl⟩

/-! ## The commit rule on the states that the writers of `nextIndex` leave -/

/-- The machine value of a number that is not negative is not above it. -/
theorem wrapInt_le_self (x : Int) (h : 0 ≤ x) : wrapInt x ≤ x := by
  by_cases hx : x ≤ MaxInt64
  · rw [wrapInt_of_range x (by unfold MinInt64; omega) hx]
  · have := (wrapInt_range x).2
    omega

/-- The machine difference `len - 1` is below `len`. -/
theorem wrapInt_pred_lt_length (n : Nat) : wrapInt ((n : Int) - 1) < (n : Int) := by
  by_cases hx : (n : Int) - 1 ≤ MaxInt64
  · rw [wrapInt_of_range _ (by unfold MinInt64; omega) hx]
    omega
  · have := (wrapInt_range ((n : Int) - 1)).2
    omega

/-- The loop of `updateCommitIndex` counts the positions whose `nextIndex - 1`
is above the commit index, and its candidate is not above any `nextIndex - 1`
that it has counted. -/
theorem updateCommitIndexStep_count (c : Int) (xs : List Int) :
    ∀ acc : Int × Int,
      (xs.foldl (updateCommitIndexStep c) acc).2 =
        acc.2 + ((xs.filter (fun x => decide (wrapInt (x - 1) > c))).length : Int) ∧
      (∀ x ∈ xs, wrapInt (x - 1) > c →
        (xs.foldl (updateCommitIndexStep c) acc).1 ≤ wrapInt (x - 1)) ∧
      (acc.1 ≠ c → (xs.foldl (updateCommitIndexStep c) acc).1 ≤ acc.1) := by
  induction xs with
  | nil =>
    intro acc
    refine ⟨by simp, ?_, fun _ => le_refl _⟩
    intro x hx
    simp at hx
  | cons x xs ih =>
    intro acc
    rw [List.foldl_cons]
    obtain ⟨i1, i2, i3⟩ := ih (updateCommitIndexStep c acc x)
    by_cases hx : wrapInt (x - 1) > c
    · have hstep2 : (updateCommitIndexStep c acc x).2 = acc.2 + 1 := by
        unfold updateCommitIndexStep
        rw [if_pos hx]
        simp only
        split <;> rfl
      have hstep1 : (updateCommitIndexStep c acc x).1 ≤ wrapInt (x - 1) ∧
          (updateCommitIndexStep c acc x).1 ≠ c ∧
          (acc.1 ≠ c → (updateCommitIndexStep c acc x).1 ≤ acc.1) := by
        unfold updateCommitIndexStep
        rw [if_pos hx]
        simp only
        by_cases hc : acc.1 = c ∨ acc.1 > wrapInt (x - 1)
        · rw [if_pos hc]
          refine ⟨le_refl _, by show wrapInt (x - 1) ≠ c; omega, ?_⟩
          intro hne
          show wrapInt (x - 1) ≤ acc.1
          rcases hc with hc | hc
          · exact absurd hc hne
          · omega
        · rw [if_neg hc]
          push_neg at hc
          exact ⟨hc.2, hc.1, fun _ => le_refl _⟩
      refine ⟨?_, ?_, ?_⟩
      · rw [i1, hstep2, List.filter_cons_of_pos (by simpa using hx)]
        simp only [List.length_cons]
        push_cast
        omega
      · intro y hy hyc
        rcases List.mem_cons.mp hy with hy | hy
        · rw [hy]
          exact le_trans (i3 hstep1.2.1) hstep1.1
        · exact i2 y hy hyc
      · intro hne
        exact le_trans (i3 hstep1.2.1) (hstep1.2.2 hne)
    · have hstep : updateCommitIndexStep c acc x = acc := by
        unfold updateCommitIndexStep
        rw [if_neg hx]
      rw [hstep] at i1 i2 i3 ⊢
      refine ⟨?_, ?_, i3⟩
      · rw [i1, List.filter_cons_of_neg (by simpa using hx)]
      · intro y hy hyc
        rcases List.mem_cons.mp hy with hy | hy
        · rw [hy] at hyc
          exact absurd hyc hx
        · exact i2 y hy hyc

/-- When every position counted in one list meets the bound in the other list,
the other list has at least as many positions that meet the bound. -/
theorem filter_length_le_of_pointwise (c N : Int) :
    ∀ (ns ms : List Int), ns.length = ms.length →
      (∀ (p : Nat) (n m : Int), ns[p]? = some n → ms[p]? = some m →
        wrapInt (n - 1) > c → N ≤ m) →
      (ns.filter (fun x => decide (wrapInt (x - 1) > c))).length ≤
        (ms.filter (fun m => decide (N ≤ m))).length := by
  intro ns
  induction ns with
  | nil => intro ms _ _; simp
  | cons n ns ih =>
    intro ms hlen h
    cases ms with
    | nil => simp at hlen
    | cons m ms =>
      have hrec := ih ms (by simpa using hlen)
        (fun p n1 m1 h1 h2 => h (p + 1) n1 m1 (by simpa using h1) (by simpa using h2))
      by_cases hn : wrapInt (n - 1) > c
      · have hm : N ≤ m := h 0 n m (by simp) (by simp) hn
        rw [List.filter_cons_of_pos (by simpa using hn),
          List.filter_cons_of_pos (by simpa using hm)]
        simp only [List.length_cons]
        omega
      · rw [List.filter_cons_of_neg (by simpa using hn)]
        by_cases hm : N ≤ m
        · rw [List.filter_cons_of_pos (by simpa using hm)]
          simp only [List.length_cons]
          omega
        · rw [List.filter_cons_of_neg (by simpa using hm)]
          exact hrec

/-- C7: on a state as the writers of `nextIndex` and `matchIndex` leave it,
with a position in both slices for the same peers, whenever
`updateCommitIndex` changes the commit index to `N`, at least
`len(peers)/2 + 1` peers have `matchIndex >= N`; `matchIndex` itself is not
changed by the call. -/
theorem commit_has_match_quorum (rf : Raft)
    (hlen : rf.nextIndex.length = rf.matchIndex.length) (hinv : acknowledged rf) :
    ∀ rf1, updateCommitIndex rf = .ok rf1 → rf1.commitIndex ≠ rf.commitIndex →
      quorum rf ≤ matchCount rf rf1.commitIndex ∧
      rf1.matchIndex = rf.matchIndex ∧ rf1.peers = rf.peers ∧
      rf.commitIndex < rf1.commitIndex := by
  intro rf1 h hne
  rcases updateCommitIndex_ok rf rf1 h with h1 | ⟨h1, hcount, _, e, he, het⟩
  · rw [h1] at hne
    exact absurd rfl hne
  · have hci : rf1.commitIndex = (updateCommitIndexLoop rf).1 := by rw [h1]; rfl
    obtain ⟨c1, c2, _⟩ :=
      updateCommitIndexStep_count rf.commitIndex rf.nextIndex (rf.commitIndex, 0)
    have hN : ∀ x ∈ rf.nextIndex, wrapInt (x - 1) > rf.commitIndex →
        (updateCommitIndexLoop rf).1 ≤ wrapInt (x - 1) := c2
    have hcnt : (updateCommitIndexLoop rf).2 =
        ((rf.nextIndex.filter (fun x => decide (wrapInt (x - 1) > rf.commitIndex))).length : Int) := by
      unfold updateCommitIndexLoop
      rw [c1]
      simp
    have hpoint : ∀ (p : Nat) (n m : Int), rf.nextIndex[p]? = some n →
        rf.matchIndex[p]? = some m → wrapInt (n - 1) > rf.commitIndex →
        (updateCommitIndexLoop rf).1 ≤ m := by
      intro p n m hn hm hc
      have hmem : n ∈ rf.nextIndex := by
        obtain ⟨hlt, hv⟩ := List.getElem?_eq_some_iff.mp hn
        rw [← hv]
        exact List.getElem_mem hlt
      have hle := hN n hmem hc
      rcases hinv p n m hn hm with hl | ⟨_, hold⟩
      · omega
      · exact absurd het (hold _ e hle he)
    have hfl := filter_length_le_of_pointwise rf.commitIndex (updateCommitIndexLoop rf).1
      rf.nextIndex rf.matchIndex hlen hpoint
    refine ⟨?_, by rw [h1]; rfl, by rw [h1]; rfl, ?_⟩
    · rw [hci]
      unfold quorum matchCount
      rw [hcnt] at hcount
      have : ((rf.nextIndex.filter (fun x => decide (wrapInt (x - 1) > rf.commitIndex))).length : Int) ≤
          ((rf.matchIndex.filter
            (fun m => decide ((updateCommitIndexLoop rf).1 ≤ m))).length : Int) := by
        exact_mod_cast hfl
      omega
    · rcases updateCommitIndexLoop_inv rf with ⟨h0, _⟩ | ⟨_, hgt⟩
      · rw [h0] at hcount
        have : (0 : Int) ≤ ((rf.peers / 2 : Nat) : Int) := Int.natCast_nonneg _
        omega
      · rw [hci]; exact hgt

/-- Reading a slice after one position has been set. -/
theorem getElem?_set_some {α : Type} (s : List α) (i p : Nat) (v x : α)
    (h : (s.set i v)[p]? = some x) : if p = i then x = v else s[p]? = some x := by
  by_cases hi : i < s.length
  · rw [getElem?_set_cases s i p v hi] at h
    by_cases hp : p = i
    · rw [if_pos hp] at h ⊢
      cases h
      rfl
    · rw [if_neg hp] at h ⊢
      exact h
  · rw [List.set_eq_of_length_le (by omega)] at h
    by_cases hp : p = i
    · rw [hp] at h
      rw [List.getElem?_eq_none (by omega)] at h
      cases h
    · rw [if_neg hp]
      exact h

/-- After `convertToLeaderAndInitState` on a log without an entry of the
current term, as at the end of an election, the state is as `acknowledged`
describes. -/
theorem acknowledged_convertToLeaderAndInitState (rf rf1 : Raft)
    (hold : ∀ (N : Int) (e : Log), index rf.log N = .ok e → e.Term ≠ rf.currentTerm)
    (hn : rf.nextIndex.length ≤ rf.peers)
    (h : convertToLeaderAndInitState rf = .ok rf1) : acknowledged rf1 := by
  unfold convertToLeaderAndInitState at h
  obtain ⟨_, hlog, _, hct, _, hnext, _⟩ :=
    convertToLeaderAndInitStateLoop_ok _ rf.peers 0 _ rf1 h
  intro p n m hnp _
  right
  rw [hnext p] at hnp
  by_cases hp : p < rf.peers
  · rw [if_pos ⟨Nat.zero_le _, by omega⟩] at hnp
    cases hnp
    rw [hlog, hct]
    exact ⟨wrapInt_pred_lt_length _, fun N e _ hi => hold N e hi⟩
  · rw [if_neg (by omega)] at hnp
    have : rf.nextIndex[p]? = none := List.getElem?_eq_none (by omega)
    rw [this] at hnp
    cases hnp

/-- The method `Start` keeps a state as `acknowledged` describes. -/
theorem acknowledged_Start (rf : Raft) (command : Payload) (rf1 : Raft)
    (res : Int × Int × Bool) (hinv : acknowledged rf)
    (h : Start rf command = .ok (rf1, res)) : acknowledged rf1 := by
  rcases Start_ok rf command rf1 res h with ⟨_, h1, _⟩ | ⟨_, h1, _⟩
  · rw [h1]; exact hinv
  · rw [h1]
    intro p n m hnp hmp
    have hn := getElem?_set_some _ _ _ _ _ hnp
    have hm := getElem?_set_some _ _ _ _ _ hmp
    by_cases hp : p = rf.me.toNat
    · rw [if_pos hp] at hn hm
      left
      rw [hn, hm]
      have := wrapInt_le_self (rf.log.length : Int) (Int.natCast_nonneg _)
      have e : (rf.log.length : Int) + 1 - 1 = (rf.log.length : Int) := by omega
      rw [e]
      exact this
    · rw [if_neg hp] at hn hm
      rcases hinv p n m hn hm with hl | ⟨hle, hold⟩
      · exact Or.inl hl
      · right
        refine ⟨?_, ?_⟩
        · show wrapInt (n - 1) < ((rf.log ++ [_]).length : Int)
          rw [List.length_append]
          push_cast
          omega
        · intro N e hN hi
          apply hold N e hN
          obtain ⟨h0, hget⟩ := (index_ok_iff _ _ _).mp hi
          have hlt : N.toNat < rf.log.length := by omega
          have hget2 : (rf.log ++
              [{ Term := rf.currentTerm, Command := command,
                 Index := (rf.log.length : Int) }])[N.toNat]? = some e := hget
          rw [List.getElem?_append_left hlt] at hget2
          exact (index_ok_iff _ _ _).mpr ⟨h0, hget2⟩

/-- The reply handling of `sendAppendEnties`, for a reply whose term is not
above the peer's term, keeps a state as `acknowledged` describes, provided a
failure reply does not ask for a later entry than the one that was sent and
the values are in the range of `int`. -/
theorem acknowledged_sendAppendEnties (rf : Raft) (server : Int) (args : AppendEntiesArgs)
    (reply : AppendEntiesReply) (rf1 : Raft) (hinv : acknowledged rf)
    (hle : reply.Term ≤ rf.currentTerm)
    (hfail : reply.Success = false →
      ∀ n, index rf.nextIndex server = .ok n →
        MinInt64 < reply.NextIndex ∧ reply.NextIndex ≤ n ∧ n - 1 ≤ MaxInt64)
    (h : sendAppendEnties rf server args true reply = .ok rf1) : acknowledged rf1 := by
  obtain ⟨hct, _, _, hlog⟩ :=
    (sendAppendEnties_frame rf server args true reply rf1 h).2 (fun hc => by omega)
  unfold sendAppendEnties at h
  rw [if_pos rfl, if_neg (by omega)] at h
  by_cases hs : reply.Success = true
  · rw [if_pos hs] at h
    obtain ⟨n0, hn0, _, hnext, hmatch, _⟩ := sendAppendEntiesSuccess_ok rf server reply rf1 h
    have hn0get := ((index_ok_iff _ _ _).mp hn0).2
    intro p n m hnp hmp
    rw [hnext] at hnp
    rw [hmatch] at hmp
    have hm := getElem?_set_some _ _ _ _ _ hmp
    by_cases hp : p = server.toNat
    · rw [if_pos hp] at hm
      rw [hp, hn0get] at hnp
      cases hnp
      left
      rw [hm]
      exact wrapInt_le_self _ (by omega)
    · rw [if_neg hp] at hm
      have hnold : rf.nextIndex[p]? = some n := by
        by_cases hpos : reply.NextIndex > 0
        · rw [if_pos hpos] at hnp
          have := getElem?_set_some _ _ _ _ _ hnp
          rw [if_neg hp] at this
          exact this
        · rw [if_neg hpos] at hnp
          exact hnp
      rw [hlog, hct]
      exact hinv p n m hnold hm
  · rw [if_neg hs] at h
    have hsf : reply.Success = false := by
      cases hb : reply.Success with
      | true => exact absurd hb hs
      | false => rfl
    cases hset : setIndex rf.nextIndex server reply.NextIndex with
    | error c => rw [hset] at h; cases h
    | ok nextIndex1 =>
      rw [hset] at h
      simp only at h
      obtain ⟨hs0, hs1, hs2⟩ := setIndex_ok _ _ _ _ hset
      split at h
      · cases h
      · cases h
        intro p n m hnp hmp
        have hnp2 : (rf.nextIndex.set server.toNat reply.NextIndex)[p]? = some n := by
          rw [← hs2]; exact hnp
        have hmp2 : rf.matchIndex[p]? = some m := hmp
        have hn := getElem?_set_some _ _ _ _ _ hnp2
        by_cases hp : p = server.toNat
        · rw [if_pos hp] at hn
          obtain ⟨n1, hn1⟩ := index_ok_of_lt rf.nextIndex server hs0 hs1
          obtain ⟨hlo, hle1, hhi⟩ := hfail hsf n1 hn1
          have hn1get := ((index_ok_iff _ _ _).mp hn1).2
          rw [← hp] at hn1get
          have hmono : wrapInt (reply.NextIndex - 1) ≤ wrapInt (n1 - 1) := by
            rw [wrapInt_of_range _ (by omega) (by omega),
              wrapInt_of_range _ (by omega) hhi]
            omega
          rcases hinv p n1 m hn1get hmp2 with hl | ⟨hlen, hold⟩
          · left
            rw [hn]
            omega
          · right
            refine ⟨?_, ?_⟩
            · show wrapInt (n - 1) < (rf.log.length : Int)
              rw [hn]
              omega
            · intro N e hN hi
              exact hold N e (by rw [hn] at hN; omega) hi
        · rw [if_neg hp] at hn
          exact hinv p n m hn hmp2

/-- Witness for C7: `replicatedLeader` holds an entry of its term at index 1
that peer 1 has acknowledged; `updateCommitIndex` moves the commit index from 0
to 1, and two of the three peers have `matchIndex >= 1`. -/
theorem commit_has_match_quorum_witness :
    replicatedLeader.nextIndex.length = replicatedLeader.matchIndex.length ∧
    acknowledged replicatedLeader ∧
    ∃ rf1, updateCommitIndex replicatedLeader = .ok rf1 ∧ rf1.commitIndex = 1 ∧
      replicatedLeader.commitIndex = 0 ∧ matchCount replicatedLeader 1 = 2 ∧
      quorum replicatedLeader ≤ matchCount replicatedLeader rf1.commitIndex := by
  have hack : acknowledged replicatedLeader := by
    intro p n m hn hm
    left
    match p with
    | 0 =>
      have e1 : replicatedLeader.nextIndex[0]? = some 2 := rfl
      have e2 : replicatedLeader.matchIndex[0]? = some 1 := rfl
      rw [e1] at hn; rw [e2] at hm
      cases hn; cases hm
      decide
    | 1 =>
      have e1 : replicatedLeader.nextIndex[1]? = some 2 := rfl
      have e2 : replicatedLeader.matchIndex[1]? = some 1 := rfl
      rw [e1] at hn; rw [e2] at hm
      cases hn; cases hm
      decide
    | 2 =>
      have e1 : replicatedLeader.nextIndex[2]? = some 1 := rfl
      have e2 : replicatedLeader.matchIndex[2]? = some 0 := rfl
      rw [e1] at hn; rw [e2] at hm
      cases hn; cases hm
      decide
    | k + 3 =>
      have e1 : replicatedLeader.nextIndex[k + 3]? = none := rfl
      rw [e1] at hn
      cases hn
  exact ⟨rfl, hack, _, rfl, rfl, rfl, rfl,
    (commit_has_match_quorum replicatedLeader rfl hack _ rfl (by decide)).1⟩

end MitRaft
